import Mathlib

/-!
# RoarIndex: an interned multimap over compressed bitmaps

A shallow embedding of `roarindex.go`.  The index maps keys to sets of values;
keys and values are interned into `uint32` identifiers and every key identifier
owns a bitmap of value identifiers.

* a Go `map[A]B` is an association list with at most one live binding per key:
  lookup returns the first binding, assignment replaces it in place or appends,
  `delete` removes every binding of the key;
* `uint32` counters are natural numbers reduced modulo `2^32` on increment;
* the mutex is not modelled: every operation is one atomic state transformer;
* `RoarIndex` stores bitmaps, so it covers the states whose `data` map holds no nil
  pointer (every state the public operations can reach); `RawIndex` stores
  bitmap pointers and is used where a claim speaks of arbitrary states.
-/

set_option linter.unusedSectionVars false
set_option linter.unusedVariables false

namespace RoarIndex

/-! ## Go maps -/

/-- Lookup `m[x]` of a Go map, with `none` for the missing-key case. -/
def mapGet {α β : Type} [DecidableEq α] : List (α × β) → α → Option β
  | [], _ => none
  | (a, b) :: m, x => if a = x then some b else mapGet m x

/-- Assignment `m[x] = y` of a Go map. -/
def mapSet {α β : Type} [DecidableEq α] : List (α × β) → α → β → List (α × β)
  | [], x, y => [(x, y)]
  | (a, b) :: m, x, y => if a = x then (x, y) :: m else (a, b) :: mapSet m x y

/-- Removal `delete(m, x)` of a Go map. -/
def mapDelete {α β : Type} [DecidableEq α] (m : List (α × β)) (x : α) : List (α × β) :=
  m.filter (fun p => decide (p.1 ≠ x))

/-- Keys visited by `for key := range m` (Go leaves the order unspecified; the
model visits them in binding order). -/
def mapKeys {α β : Type} (m : List (α × β)) : List α :=
  m.map Prod.fst

/-! ## The bitmap capability -/

/-- Modelled from the spec: the external compressed bitmap (`roaring.Bitmap`, the
SortedIntSet capability) is not part of the repository; it is a set of 32-bit
identifiers with idempotent `add`, `contains`, `cardinality` and an ascending
iterator.  The model keeps the identifiers in a list that `add` maintains
strictly ascending. -/
abbrev Bitmap := List Nat

/-- Modelled from the spec: `roaring.NewBitmap()`, the empty set. -/
def NewBitmap : Bitmap := []

/-- Modelled from the spec: `bm.Add(x)`, idempotent insertion that keeps the
identifiers ascending. -/
def Bitmap.add : Bitmap → Nat → Bitmap
  | [], x => [x]
  | y :: ys, x =>
    if x < y then x :: y :: ys
    else if x = y then y :: ys
    else y :: Bitmap.add ys x

/-- Modelled from the spec: `bm.Contains(x)`. -/
def Bitmap.contains (bm : Bitmap) (x : Nat) : Bool :=
  decide (x ∈ bm)

/-- Modelled from the spec: `bm.GetCardinality()`. -/
def Bitmap.getCardinality (bm : Bitmap) : Nat :=
  bm.length

/-- Modelled from the spec: the identifiers produced by `bm.Iterator()`, in the
order `Next()` yields them. -/
def Bitmap.iterator (bm : Bitmap) : List Nat :=
  bm

/-! ## The index -/

/-- Number of values of a `uint32`. -/
def uint32Size : Nat := 2 ^ 32

/-- The only distinguished failure of the package. -/
inductive Error where
  | ErrKeyNotFound
  deriving DecidableEq, Repr

end RoarIndex

/-- The fields of the Go struct `RoarIndex[K, V]`, without the mutex. -/
structure RoarIndex (K V : Type) where
  nextKeyID : Nat
  nextValueID : Nat
  keyToID : List (K × Nat)
  idToKey : List (Nat × K)
  valueToID : List (V × Nat)
  idToValue : List (Nat × V)
  data : List (Nat × RoarIndex.Bitmap)
  deriving DecidableEq, Repr

namespace RoarIndex

variable {K V : Type} [DecidableEq K] [DecidableEq V]

/-- The Go constructor `NewRoarIndex`: zero counters and empty maps. -/
def NewRoarIndex : RoarIndex K V :=
  { nextKeyID := 0, nextValueID := 0, keyToID := [], idToKey := [],
    valueToID := [], idToValue := [], data := [] }

/-- First block of `PushMap` ("Get or assign key ID"): the identifier of `key`
and the index after a possible minting. -/
def assignKeyID (om : RoarIndex K V) (key : K) : Nat × RoarIndex K V :=
  match mapGet om.keyToID key with
  | some keyID => (keyID, om)
  | none =>
    (om.nextKeyID,
      { om with
        nextKeyID := (om.nextKeyID + 1) % uint32Size
        keyToID := mapSet om.keyToID key om.nextKeyID
        idToKey := mapSet om.idToKey om.nextKeyID key })

/-- Second block of `PushMap` ("Get or assign value ID"). -/
def assignValueID (om : RoarIndex K V) (value : V) : Nat × RoarIndex K V :=
  match mapGet om.valueToID value with
  | some valueID => (valueID, om)
  | none =>
    (om.nextValueID,
      { om with
        nextValueID := (om.nextValueID + 1) % uint32Size
        valueToID := mapSet om.valueToID value om.nextValueID
        idToValue := mapSet om.idToValue om.nextValueID value })

/-- Third block of `PushMap` ("Get or create bitmap for the key", then
`bm.Add(valueID)`); the bitmap is updated through the pointer stored in `data`. -/
def addToBitmap (om : RoarIndex K V) (keyID valueID : Nat) : RoarIndex K V :=
  match mapGet om.data keyID with
  | some bm => { om with data := mapSet om.data keyID (Bitmap.add bm valueID) }
  | none => { om with data := mapSet om.data keyID (Bitmap.add NewBitmap valueID) }

/-- The Go method `PushMap`. -/
def PushMap (om : RoarIndex K V) (key : K) (value : V) : RoarIndex K V :=
  let r1 := assignKeyID om key
  let r2 := assignValueID r1.2 value
  addToBitmap r2.2 r1.1 r2.1

/-- The Go method `GetMap`: the returned slice (a `nil` slice is the empty list)
and the returned error (`none` for `nil`). -/
def GetMap (om : RoarIndex K V) (key : K) : List V × Option Error :=
  match mapGet om.keyToID key with
  | none => ([], some Error.ErrKeyNotFound)
  | some keyID =>
    match mapGet om.data keyID with
    | none => ([], none)
    | some bm => ((Bitmap.iterator bm).filterMap (fun valueID => mapGet om.idToValue valueID), none)

/-- The Go method `HasValue`. -/
def HasValue (om : RoarIndex K V) (key : K) (value : V) : Bool :=
  match mapGet om.keyToID key with
  | none => false
  | some keyID =>
    match mapGet om.valueToID value with
    | none => false
    | some valueID =>
      match mapGet om.data keyID with
      | none => false
      | some bm => Bitmap.contains bm valueID

/-- The Go method `DeleteMap`. -/
def DeleteMap (om : RoarIndex K V) (key : K) : RoarIndex K V :=
  match mapGet om.keyToID key with
  | none => om
  | some keyID =>
    { om with
      data := mapDelete om.data keyID
      keyToID := mapDelete om.keyToID key
      idToKey := mapDelete om.idToKey keyID }

/-- The Go method `Keys`. -/
def Keys (om : RoarIndex K V) : List K :=
  mapKeys om.keyToID

/-- The Go method `Values`. -/
def Values (om : RoarIndex K V) : List V :=
  mapKeys om.valueToID

/-- The Go method `Count`. -/
def Count (om : RoarIndex K V) : Nat :=
  om.keyToID.length

/-! ## Histories -/

/-- A mutating call of the public interface. -/
inductive Op (K V : Type) where
  | push (key : K) (value : V)
  | delete (key : K)
  deriving DecidableEq, Repr

/-- Effect of one call on the index. -/
def applyOp (om : RoarIndex K V) : Op K V → RoarIndex K V
  | Op.push key value => PushMap om key value
  | Op.delete key => DeleteMap om key

/-- The index reached from `NewRoarIndex` by a sequence of calls, oldest first. -/
def run (ops : List (Op K V)) : RoarIndex K V :=
  ops.foldl applyOp NewRoarIndex

/-- Whether a call mints a key identifier in `om`. -/
def mintsKey (om : RoarIndex K V) : Op K V → Bool
  | Op.push key _ => (mapGet om.keyToID key).isNone
  | Op.delete _ => false

/-- Whether a call mints a value identifier in `om`. -/
def mintsValue (om : RoarIndex K V) : Op K V → Bool
  | Op.push _ value => (mapGet om.valueToID value).isNone
  | Op.delete _ => false

/-- Number of key identifiers minted along a history that starts in `om`. -/
def keyMintsFrom (om : RoarIndex K V) : List (Op K V) → Nat
  | [] => 0
  | op :: ops => (if mintsKey om op then 1 else 0) + keyMintsFrom (applyOp om op) ops

/-- Number of value identifiers minted along a history that starts in `om`. -/
def valueMintsFrom (om : RoarIndex K V) : List (Op K V) → Nat
  | [] => 0
  | op :: ops => (if mintsValue om op then 1 else 0) + valueMintsFrom (applyOp om op) ops

/-- Key identifiers minted by a history on a new index. -/
def keyMints (ops : List (Op K V)) : Nat :=
  keyMintsFrom NewRoarIndex ops

/-- Value identifiers minted by a history on a new index. -/
def valueMints (ops : List (Op K V)) : Nat :=
  valueMintsFrom NewRoarIndex ops

/-- A state is reachable when some history produces it. -/
def Reachable (om : RoarIndex K V) : Prop :=
  ∃ ops : List (Op K V), run ops = om

/-- The key a call is about. -/
def Op.key : Op K V → K
  | Op.push key _ => key
  | Op.delete key => key

/-- The most recent call about `k` in a history, if there is one. -/
def lastCall (ops : List (Op K V)) (k : K) : Option (Op K V) :=
  ops.reverse.find? (fun op => decide (Op.key op = k))

/-- The most recent `PushMap`/`DeleteMap` call about `k` is a `PushMap`. -/
def lastCallIsPush (ops : List (Op K V)) (k : K) : Bool :=
  match lastCall ops k with
  | some (Op.push _ _) => true
  | _ => false

/-- The most recent `PushMap`/`DeleteMap` call about `k` is a `DeleteMap`. -/
def lastCallIsDelete (ops : List (Op K V)) (k : K) : Bool :=
  match lastCall ops k with
  | some (Op.delete _) => true
  | _ => false

/-- No `PushMap(k, _)` occurs in the history. -/
def neverPushed (ops : List (Op K V)) (k : K) : Bool :=
  ops.all (fun op => match op with
    | Op.push key _ => decide (key ≠ k)
    | Op.delete _ => true)

/-- Values pushed under `k` after the last `DeleteMap(k)`, read from a history
listed newest call first. -/
def pushedSinceDeleteRev : List (Op K V) → K → List V
  | [], _ => []
  | Op.push key value :: older, k =>
    if key = k then value :: pushedSinceDeleteRev older k else pushedSinceDeleteRev older k
  | Op.delete key :: older, k =>
    if key = k then [] else pushedSinceDeleteRev older k

/-- The plain multimap of the specification: the values `v` for which
`PushMap(k, v)` was called after the last `DeleteMap(k)` (or since creation), in
call order. -/
def pushedSinceDelete (ops : List (Op K V)) (k : K) : List V :=
  (pushedSinceDeleteRev ops.reverse k).reverse

/-- Whether a call is a `PushMap` carrying value `v`. -/
def Op.carries (v : V) : Op K V → Bool
  | Op.push _ value => decide (value = v)
  | Op.delete _ => false

/-- Position in the history of the first `PushMap` call (under any key) that
carried `v`; the length of the history when there is none. -/
def firstPushIdx (ops : List (Op K V)) (v : V) : Nat :=
  ops.findIdx (Op.carries v)

/-! ## Invariants -/

/-- Key interner after `n` key identifiers have been minted. -/
structure KeyInv (om : RoarIndex K V) (n : Nat) : Prop where
  next : om.nextKeyID = n % uint32Size
  bound : ∀ k i, mapGet om.keyToID k = some i → i < n
  inv : ∀ k i, mapGet om.idToKey i = some k ↔ mapGet om.keyToID k = some i

/-- Value interner after `n` value identifiers have been minted. -/
structure ValueInv (om : RoarIndex K V) (n : Nat) : Prop where
  next : om.nextValueID = n % uint32Size
  bound : ∀ v i, mapGet om.valueToID v = some i → i < n
  inv : ∀ v i, mapGet om.idToValue i = some v ↔ mapGet om.valueToID v = some i

/-- Posting store: every bitmap is strictly ascending, non-empty, holds only
identifiers of interned values, and belongs to the identifier of a visible key. -/
structure DataInv (om : RoarIndex K V) : Prop where
  sorted : ∀ i bm, mapGet om.data i = some bm → bm.Pairwise (fun a b => a < b)
  nonempty : ∀ i bm, mapGet om.data i = some bm → bm ≠ []
  interned : ∀ i bm x, mapGet om.data i = some bm → x ∈ bm →
    ∃ v, mapGet om.valueToID v = some x
  owned : ∀ i bm, mapGet om.data i = some bm → ∃ k, mapGet om.keyToID k = some i

/-- The values carried by the `PushMap` calls of a history, in call order. -/
def pushedValues (ops : List (Op K V)) : List V :=
  ops.filterMap (fun op => match op with
    | Op.push _ value => some value
    | Op.delete _ => none)

/-- The distinct values pushed by a history. -/
def distinctValues (ops : List (Op K V)) : List V :=
  (pushedValues ops).dedup

/-- The index after `PushMap(k, v)` has been called `n` times in a row. -/
def pushTimes (om : RoarIndex K V) (k : K) (v : V) : Nat → RoarIndex K V
  | 0 => om
  | n + 1 => PushMap (pushTimes om k v n) k v

/-- History that pushes the values `0, 1, .., n - 1` in this order under key `0`. -/
def fillHistory (n : Nat) : List (Op Nat Nat) :=
  (List.range n).map (fun i => Op.push 0 i)

/-- History that mints all `2^32` value identifiers under key `0` and then pushes
one more unseen value under key `1`. -/
def wrapHistory : List (Op Nat Nat) :=
  fillHistory uint32Size ++ [Op.push 1 uint32Size]

/-- The keys named by the `PushMap` calls of a history, in call order. -/
def pushedKeys (ops : List (Op K V)) : List K :=
  ops.filterMap (fun op => match op with
    | Op.push key _ => some key
    | Op.delete _ => none)

/-- The distinct keys that appear in some `PushMap` call of a history. -/
def distinctPushedKeys (ops : List (Op K V)) : List K :=
  (pushedKeys ops).dedup

/-- The distinct keys of a history whose most recent call is a `PushMap`. -/
def visibleKeys (ops : List (Op K V)) : List K :=
  ((ops.map Op.key).dedup).filter (fun k => lastCallIsPush ops k)

/-- Whether a call is a `DeleteMap` that removes a key visible in `om`. -/
def removesKey (om : RoarIndex K V) : Op K V → Bool
  | Op.push _ _ => false
  | Op.delete key => (mapGet om.keyToID key).isSome

/-- Number of `DeleteMap` calls, along a history that starts in `om`, that removed
a then-visible key. -/
def effectiveDeletesFrom (om : RoarIndex K V) : List (Op K V) → Nat
  | [] => 0
  | op :: ops => (if removesKey om op then 1 else 0) + effectiveDeletesFrom (applyOp om op) ops

/-- Number of `DeleteMap` calls of a history on a new index that removed a
then-visible key (duplicate deletes and deletes of never-pushed keys not counted). -/
def effectiveDeletes (ops : List (Op K V)) : Nat :=
  effectiveDeletesFrom NewRoarIndex ops

/-- Whether a call is a `PushMap`. -/
def Op.isPush : Op K V → Bool
  | Op.push _ _ => true
  | Op.delete _ => false

/-- The values pushed under `k` by a history, in call order. -/
def pushedUnder (ops : List (Op K V)) (k : K) : List V :=
  ops.filterMap (fun op => match op with
    | Op.push key value => if key = k then some value else none
    | Op.delete _ => none)

/-- History that pushes value `0` under the keys `0, 1, .., n - 1` in this order. -/
def keyFillHistory (n : Nat) : List (Op Nat Nat) :=
  (List.range n).map (fun i => Op.push i 0)

/-- History that mints all `2^32` key identifiers and then pushes under one more
unseen key. -/
def keyWrapHistory : List (Op Nat Nat) :=
  keyFillHistory uint32Size ++ [Op.push uint32Size 0]

/-- The interner invariant of the data model: both interners are exact inverses
and every identifier present is strictly below the counter of its namespace. -/
structure InternerInv (om : RoarIndex K V) : Prop where
  keyInverse : ∀ k i, mapGet om.keyToID k = some i ↔ mapGet om.idToKey i = some k
  valueInverse : ∀ v i, mapGet om.valueToID v = some i ↔ mapGet om.idToValue i = some v
  keyBelow : ∀ k i, mapGet om.keyToID k = some i → i < om.nextKeyID
  valueBelow : ∀ v i, mapGet om.valueToID v = some i → i < om.nextValueID

/-- A state one step before the value counter wraps: key `0` (identifier 0) holds
the value `100` (identifier 0) and `nextValueID` is `2^32 - 1`. -/
def wrapSeed : RoarIndex Nat Nat :=
  { nextKeyID := 1, nextValueID := uint32Size - 1, keyToID := [(0, 0)], idToKey := [(0, 0)],
    valueToID := [(100, 0)], idToValue := [(0, 100)], data := [(0, [0])] }

/-- A hand-built state whose key `7` has identifier 3 but owns no posting set. -/
def danglingKeyState : RoarIndex Nat Nat :=
  { nextKeyID := 4, nextValueID := 0, keyToID := [(7, 3)], idToKey := [(3, 7)],
    valueToID := [], idToValue := [], data := [] }

/-- History that mints `2^32 - 1` key identifiers: one more can be minted
before the key counter wraps. -/
def brinkHistory : List (Op Nat Nat) :=
  keyFillHistory (uint32Size - 1)

/-! ## States with bitmap pointers -/

/-- Modelled from the spec: a `*roaring.Bitmap` as it is stored in the `data` map;
`none` is the nil pointer. -/
abbrev BitmapPtr := Option Bitmap

/-- Modelled from the spec: `bm.Contains(x)` called through a pointer.  The
method reads the bitmap's containers, so on the nil pointer it is a nil
dereference: the call panics, rendered as `none`. -/
def BitmapPtr.contains : BitmapPtr → Nat → Option Bool
  | none, _ => none
  | some bm, x => some (Bitmap.contains bm x)

/-- The fields of the Go struct `RoarIndex[K, V]` with `data` holding bitmap
pointers, as in `map[uint32]*roaring.Bitmap`: any value of the struct type,
whether or not the public operations can produce it. -/
structure RawIndex (K V : Type) where
  nextKeyID : Nat
  nextValueID : Nat
  keyToID : List (K × Nat)
  idToKey : List (Nat × K)
  valueToID : List (V × Nat)
  idToValue : List (Nat × V)
  data : List (Nat × BitmapPtr)

/-- The Go method `HasValue` on a state with bitmap pointers: `some b` when the
call returns `b`, `none` when it panics. -/
def RawIndex.HasValue (om : RawIndex K V) (key : K) (value : V) : Option Bool :=
  match mapGet om.keyToID key with
  | none => some false
  | some keyID =>
    match mapGet om.valueToID value with
    | none => some false
    | some valueID =>
      match mapGet om.data keyID with
      | none => some false
      | some bm => BitmapPtr.contains bm valueID

/-- A state of `RoarIndex` seen as a state with bitmap pointers, none of them nil. -/
def toRaw (om : RoarIndex K V) : RawIndex K V :=
  { nextKeyID := om.nextKeyID, nextValueID := om.nextValueID, keyToID := om.keyToID,
    idToKey := om.idToKey, valueToID := om.valueToID, idToValue := om.idToValue,
    data := om.data.map (fun p => (p.1, some p.2)) }

/-- A hand-built state in which key `7` (identifier 3) and value `5` (identifier
0) are interned and `data[3]` is the nil pointer. -/
def nilBitmapState : RawIndex Nat Nat :=
  { nextKeyID := 4, nextValueID := 1, keyToID := [(7, 3)], idToKey := [(3, 7)],
    valueToID := [(5, 0)], idToValue := [(0, 5)], data := [(3, none)] }

/-- A hand-built state that no sequence of calls produces (identifier 3 with
`nextKeyID = 4` and a single key), whose only bitmap pointer is not nil. -/
def sparseState : RawIndex Nat Nat :=
  { nextKeyID := 4, nextValueID := 1, keyToID := [(7, 3)], idToKey := [(3, 7)],
    valueToID := [(5, 0)], idToValue := [(0, 5)], data := [(3, some [0])] }

/-! ## Go maps: lookup laws -/

section MapLaws

variable {α β : Type} [DecidableEq α]

theorem mapGet_mapSet_self (m : List (α × β)) (x : α) (y : β) :
    mapGet (mapSet m x y) x = some y := by
  induction m with
  | nil => simp [mapSet, mapGet]
  | cons p m ih =>
    obtain ⟨a, b⟩ := p
    by_cases h : a = x
    · simp [mapSet, mapGet, h]
    · simp [mapSet, mapGet, h, ih]

theorem mapGet_mapSet_ne (m : List (α × β)) {x x' : α} (y : β) (h : x' ≠ x) :
    mapGet (mapSet m x y) x' = mapGet m x' := by
  induction m with
  | nil => simp [mapSet, mapGet, Ne.symm h]
  | cons p m ih =>
    obtain ⟨a, b⟩ := p
    by_cases ha : a = x
    · subst ha
      simp [mapSet, mapGet, Ne.symm h]
    · by_cases ha' : a = x'
      · subst ha'
        simp [mapSet, mapGet, h]
      · simp [mapSet, mapGet, ha, ha', ih]

theorem mapGet_mapSet (m : List (α × β)) (x x' : α) (y : β) :
    mapGet (mapSet m x y) x' = if x' = x then some y else mapGet m x' := by
  by_cases h : x' = x
  · subst h
    simp [mapGet_mapSet_self]
  · simp [h, mapGet_mapSet_ne m y h]

theorem mapGet_mapDelete (m : List (α × β)) (x x' : α) :
    mapGet (mapDelete m x) x' = if x' = x then none else mapGet m x' := by
  induction m with
  | nil => simp [mapDelete, mapGet]
  | cons p m ih =>
    obtain ⟨a, b⟩ := p
    unfold mapDelete at ih ⊢
    by_cases ha : a = x
    · subst ha
      by_cases hx : x' = a
      · simp [hx] at ih ⊢
        exact ih
      · simp [hx, mapGet, Ne.symm hx] at ih ⊢
        exact ih
    · by_cases hx : x' = x
      · subst hx
        simp [ha, mapGet] at ih ⊢
        exact ih
      · by_cases ha' : a = x'
        · simp [ha, mapGet, ha', hx]
        · simp [ha, mapGet, ha', hx] at ih ⊢
          exact ih

theorem mapSet_mapSet_self (m : List (α × β)) (x : α) (y z : β) :
    mapSet (mapSet m x y) x z = mapSet m x z := by
  induction m with
  | nil => simp [mapSet]
  | cons p m ih =>
    obtain ⟨a, b⟩ := p
    by_cases h : a = x
    · simp [mapSet, h]
    · simp [mapSet, h, ih]

theorem mapGet_eq_none_iff (m : List (α × β)) (x : α) :
    mapGet m x = none ↔ x ∉ mapKeys m := by
  induction m with
  | nil => simp [mapGet, mapKeys]
  | cons p m ih =>
    obtain ⟨a, b⟩ := p
    by_cases h : a = x
    · simp [mapGet, mapKeys, h]
    · have h' : ¬ x = a := fun e => h e.symm
      simp [mapGet, mapKeys, h, h'] at ih ⊢
      exact ih

theorem mapDelete_of_none (m : List (α × β)) (x : α) (h : mapGet m x = none) :
    mapDelete m x = m := by
  rw [mapGet_eq_none_iff] at h
  unfold mapDelete
  rw [List.filter_eq_self]
  intro p hp
  have : p.1 ∈ mapKeys m := List.mem_map_of_mem Prod.fst hp
  simp only [ne_eq, decide_not, Bool.not_eq_eq_eq_not, Bool.not_true, decide_eq_false_iff_not]
  intro e
  exact h (e ▸ this)

theorem mapSet_of_none (m : List (α × β)) (x : α) (y : β) (h : mapGet m x = none) :
    mapSet m x y = m ++ [(x, y)] := by
  induction m with
  | nil => simp [mapSet]
  | cons p m ih =>
    obtain ⟨a, b⟩ := p
    by_cases ha : a = x
    · simp [mapGet, ha] at h
    · simp [mapGet, ha] at h
      simp [mapSet, ha, ih h]

end MapLaws

/-! ## Bitmap laws -/

theorem Bitmap.mem_add (bm : Bitmap) (x z : Nat) :
    z ∈ Bitmap.add bm x ↔ z = x ∨ z ∈ bm := by
  induction bm with
  | nil => simp [Bitmap.add]
  | cons y ys ih =>
    unfold Bitmap.add
    split
    · simp
    · split
      · rename_i h
        subst h
        simp
      · simp only [List.mem_cons, ih]
        tauto

theorem Bitmap.add_add (bm : Bitmap) (x : Nat) :
    Bitmap.add (Bitmap.add bm x) x = Bitmap.add bm x := by
  induction bm with
  | nil => simp [Bitmap.add]
  | cons y ys ih =>
    by_cases h1 : x < y
    · simp [Bitmap.add, h1]
    · by_cases h2 : x = y
      · simp [Bitmap.add, h2]
      · simp [Bitmap.add, h1, h2, ih]

theorem Bitmap.add_ne_nil (bm : Bitmap) (x : Nat) : Bitmap.add bm x ≠ [] := by
  cases bm with
  | nil => simp [Bitmap.add]
  | cons y ys =>
    unfold Bitmap.add
    split
    · simp
    · split <;> simp

theorem Bitmap.pairwise_add (bm : Bitmap) (x : Nat)
    (h : bm.Pairwise (fun a b => a < b)) :
    (Bitmap.add bm x).Pairwise (fun a b => a < b) := by
  induction bm with
  | nil => simp [Bitmap.add]
  | cons y ys ih =>
    rw [List.pairwise_cons] at h
    unfold Bitmap.add
    split
    · rename_i hxy
      rw [List.pairwise_cons]
      refine ⟨?_, List.pairwise_cons.mpr h⟩
      intro a ha
      rcases List.mem_cons.mp ha with rfl | ha
      · exact hxy
      · exact lt_trans hxy (h.1 a ha)
    · split
      · exact List.pairwise_cons.mpr h
      · rename_i h1 h2
        rw [List.pairwise_cons]
        refine ⟨?_, ih h.2⟩
        intro a ha
        rcases (Bitmap.mem_add ys x a).mp ha with rfl | ha
        · omega
        · exact h.1 a ha

theorem Bitmap.contains_iff (bm : Bitmap) (x : Nat) :
    Bitmap.contains bm x = true ↔ x ∈ bm := by
  simp [Bitmap.contains]

/-! ## The three blocks of `PushMap` -/

theorem assignKeyID_fst (om : RoarIndex K V) (k : K) :
    (assignKeyID om k).1 = (mapGet om.keyToID k).getD om.nextKeyID := by
  unfold assignKeyID
  cases mapGet om.keyToID k <;> rfl

theorem assignKeyID_values (om : RoarIndex K V) (k : K) :
    (assignKeyID om k).2.valueToID = om.valueToID ∧
    (assignKeyID om k).2.idToValue = om.idToValue ∧
    (assignKeyID om k).2.nextValueID = om.nextValueID ∧
    (assignKeyID om k).2.data = om.data := by
  unfold assignKeyID
  cases mapGet om.keyToID k <;> simp

theorem assignKeyID_keyToID (om : RoarIndex K V) (k k' : K) :
    mapGet (assignKeyID om k).2.keyToID k' =
      if k' = k then some (assignKeyID om k).1 else mapGet om.keyToID k' := by
  unfold assignKeyID
  cases h : mapGet om.keyToID k with
  | none => simp [mapGet_mapSet]
  | some i =>
    by_cases hk : k' = k
    · subst hk
      simp [h]
    · simp [hk]

theorem assignKeyID_idToKey (om : RoarIndex K V) (k : K) (i : Nat) :
    mapGet (assignKeyID om k).2.idToKey i =
      if mapGet om.keyToID k = none ∧ i = om.nextKeyID then some k
      else mapGet om.idToKey i := by
  unfold assignKeyID
  cases h : mapGet om.keyToID k with
  | none => simp [mapGet_mapSet]
  | some j => simp

theorem assignKeyID_next (om : RoarIndex K V) (k : K) :
    (assignKeyID om k).2.nextKeyID =
      if mapGet om.keyToID k = none then (om.nextKeyID + 1) % uint32Size
      else om.nextKeyID := by
  unfold assignKeyID
  cases h : mapGet om.keyToID k <;> simp

theorem assignValueID_fst (om : RoarIndex K V) (v : V) :
    (assignValueID om v).1 = (mapGet om.valueToID v).getD om.nextValueID := by
  unfold assignValueID
  cases mapGet om.valueToID v <;> rfl

theorem assignValueID_keys (om : RoarIndex K V) (v : V) :
    (assignValueID om v).2.keyToID = om.keyToID ∧
    (assignValueID om v).2.idToKey = om.idToKey ∧
    (assignValueID om v).2.nextKeyID = om.nextKeyID ∧
    (assignValueID om v).2.data = om.data := by
  unfold assignValueID
  cases mapGet om.valueToID v <;> simp

theorem assignValueID_valueToID (om : RoarIndex K V) (v v' : V) :
    mapGet (assignValueID om v).2.valueToID v' =
      if v' = v then some (assignValueID om v).1 else mapGet om.valueToID v' := by
  unfold assignValueID
  cases h : mapGet om.valueToID v with
  | none => simp [mapGet_mapSet]
  | some i =>
    by_cases hv : v' = v
    · subst hv
      simp [h]
    · simp [hv]

theorem assignValueID_idToValue (om : RoarIndex K V) (v : V) (i : Nat) :
    mapGet (assignValueID om v).2.idToValue i =
      if mapGet om.valueToID v = none ∧ i = om.nextValueID then some v
      else mapGet om.idToValue i := by
  unfold assignValueID
  cases h : mapGet om.valueToID v with
  | none => simp [mapGet_mapSet]
  | some j => simp

theorem assignValueID_next (om : RoarIndex K V) (v : V) :
    (assignValueID om v).2.nextValueID =
      if mapGet om.valueToID v = none then (om.nextValueID + 1) % uint32Size
      else om.nextValueID := by
  unfold assignValueID
  cases h : mapGet om.valueToID v <;> simp

theorem addToBitmap_fields (om : RoarIndex K V) (i x : Nat) :
    (addToBitmap om i x).keyToID = om.keyToID ∧
    (addToBitmap om i x).idToKey = om.idToKey ∧
    (addToBitmap om i x).nextKeyID = om.nextKeyID ∧
    (addToBitmap om i x).valueToID = om.valueToID ∧
    (addToBitmap om i x).idToValue = om.idToValue ∧
    (addToBitmap om i x).nextValueID = om.nextValueID := by
  unfold addToBitmap
  cases mapGet om.data i <;> simp

theorem addToBitmap_data (om : RoarIndex K V) (i x j : Nat) :
    mapGet (addToBitmap om i x).data j =
      if j = i then some (Bitmap.add ((mapGet om.data i).getD NewBitmap) x)
      else mapGet om.data j := by
  unfold addToBitmap
  cases h : mapGet om.data i <;> simp [mapGet_mapSet]

/-! ## Lookups after `PushMap` and `DeleteMap` -/

theorem PushMap_keyToID (om : RoarIndex K V) (k : K) (v : V) (k' : K) :
    mapGet (PushMap om k v).keyToID k' =
      if k' = k then some ((mapGet om.keyToID k).getD om.nextKeyID)
      else mapGet om.keyToID k' := by
  unfold PushMap
  simp only [(addToBitmap_fields _ _ _).1, (assignValueID_keys _ _).1,
    assignKeyID_keyToID, assignKeyID_fst]

theorem PushMap_idToKey (om : RoarIndex K V) (k : K) (v : V) (i : Nat) :
    mapGet (PushMap om k v).idToKey i =
      if mapGet om.keyToID k = none ∧ i = om.nextKeyID then some k
      else mapGet om.idToKey i := by
  unfold PushMap
  simp only [(addToBitmap_fields _ _ _).2.1, (assignValueID_keys _ _).2.1,
    assignKeyID_idToKey]

theorem PushMap_nextKeyID (om : RoarIndex K V) (k : K) (v : V) :
    (PushMap om k v).nextKeyID =
      if mapGet om.keyToID k = none then (om.nextKeyID + 1) % uint32Size
      else om.nextKeyID := by
  unfold PushMap
  simp only [(addToBitmap_fields _ _ _).2.2.1, (assignValueID_keys _ _).2.2.1,
    assignKeyID_next]

theorem PushMap_valueToID (om : RoarIndex K V) (k : K) (v v' : V) :
    mapGet (PushMap om k v).valueToID v' =
      if v' = v then some ((mapGet om.valueToID v).getD om.nextValueID)
      else mapGet om.valueToID v' := by
  unfold PushMap
  simp only [(addToBitmap_fields _ _ _).2.2.2.1, assignValueID_valueToID,
    assignValueID_fst, (assignKeyID_values _ _).1, (assignKeyID_values _ _).2.2.1]

theorem PushMap_idToValue (om : RoarIndex K V) (k : K) (v : V) (i : Nat) :
    mapGet (PushMap om k v).idToValue i =
      if mapGet om.valueToID v = none ∧ i = om.nextValueID then some v
      else mapGet om.idToValue i := by
  unfold PushMap
  simp only [(addToBitmap_fields _ _ _).2.2.2.2.1, assignValueID_idToValue,
    (assignKeyID_values _ _).1, (assignKeyID_values _ _).2.1,
    (assignKeyID_values _ _).2.2.1]

theorem PushMap_nextValueID (om : RoarIndex K V) (k : K) (v : V) :
    (PushMap om k v).nextValueID =
      if mapGet om.valueToID v = none then (om.nextValueID + 1) % uint32Size
      else om.nextValueID := by
  unfold PushMap
  simp only [(addToBitmap_fields _ _ _).2.2.2.2.2, assignValueID_next,
    (assignKeyID_values _ _).1, (assignKeyID_values _ _).2.2.1]

theorem PushMap_data (om : RoarIndex K V) (k : K) (v : V) (j : Nat) :
    mapGet (PushMap om k v).data j =
      if j = (mapGet om.keyToID k).getD om.nextKeyID then
        some (Bitmap.add
          ((mapGet om.data ((mapGet om.keyToID k).getD om.nextKeyID)).getD NewBitmap)
          ((mapGet om.valueToID v).getD om.nextValueID))
      else mapGet om.data j := by
  unfold PushMap
  simp only [addToBitmap_data, (assignValueID_keys _ _).2.2.2, assignValueID_fst,
    assignKeyID_fst, (assignKeyID_values _ _).1, (assignKeyID_values _ _).2.2.1,
    (assignKeyID_values _ _).2.2.2]

theorem DeleteMap_keyToID (om : RoarIndex K V) (k k' : K) :
    mapGet (DeleteMap om k).keyToID k' =
      if k' = k then none else mapGet om.keyToID k' := by
  unfold DeleteMap
  cases h : mapGet om.keyToID k with
  | none =>
    by_cases hk : k' = k
    · subst hk
      simp [h]
    · simp [hk]
  | some i => simp [mapGet_mapDelete]

theorem DeleteMap_idToKey (om : RoarIndex K V) (k : K) (i : Nat) :
    mapGet (DeleteMap om k).idToKey i =
      if mapGet om.keyToID k = some i then none else mapGet om.idToKey i := by
  unfold DeleteMap
  cases h : mapGet om.keyToID k with
  | none => simp
  | some j =>
    simp only [mapGet_mapDelete, Option.some.injEq]
    by_cases e : i = j
    · simp [e]
    · simp [e, Ne.symm e]

theorem DeleteMap_data (om : RoarIndex K V) (k : K) (i : Nat) :
    mapGet (DeleteMap om k).data i =
      if mapGet om.keyToID k = some i then none else mapGet om.data i := by
  unfold DeleteMap
  cases h : mapGet om.keyToID k with
  | none => simp
  | some j =>
    simp only [mapGet_mapDelete, Option.some.injEq]
    by_cases e : i = j
    · simp [e]
    · simp [e, Ne.symm e]

theorem DeleteMap_values (om : RoarIndex K V) (k : K) :
    (DeleteMap om k).valueToID = om.valueToID ∧
    (DeleteMap om k).idToValue = om.idToValue ∧
    (DeleteMap om k).nextValueID = om.nextValueID ∧
    (DeleteMap om k).nextKeyID = om.nextKeyID := by
  unfold DeleteMap
  cases mapGet om.keyToID k <;> simp

/-! ## Histories, one call at a time -/

theorem run_snoc (ops : List (Op K V)) (op : Op K V) :
    run (ops ++ [op]) = applyOp (run ops) op := by
  simp [run, List.foldl_append]

theorem keyMintsFrom_snoc (om : RoarIndex K V) (ops : List (Op K V)) (op : Op K V) :
    keyMintsFrom om (ops ++ [op]) =
      keyMintsFrom om ops + (if mintsKey (ops.foldl applyOp om) op then 1 else 0) := by
  induction ops generalizing om with
  | nil => simp [keyMintsFrom]
  | cons o ops ih =>
    rw [List.cons_append, keyMintsFrom, keyMintsFrom, ih, List.foldl_cons]
    omega

theorem valueMintsFrom_snoc (om : RoarIndex K V) (ops : List (Op K V)) (op : Op K V) :
    valueMintsFrom om (ops ++ [op]) =
      valueMintsFrom om ops + (if mintsValue (ops.foldl applyOp om) op then 1 else 0) := by
  induction ops generalizing om with
  | nil => simp [valueMintsFrom]
  | cons o ops ih =>
    rw [List.cons_append, valueMintsFrom, valueMintsFrom, ih, List.foldl_cons]
    omega

theorem keyMints_snoc (ops : List (Op K V)) (op : Op K V) :
    keyMints (ops ++ [op]) = keyMints ops + (if mintsKey (run ops) op then 1 else 0) :=
  keyMintsFrom_snoc NewRoarIndex ops op

theorem valueMints_snoc (ops : List (Op K V)) (op : Op K V) :
    valueMints (ops ++ [op]) = valueMints ops + (if mintsValue (run ops) op then 1 else 0) :=
  valueMintsFrom_snoc NewRoarIndex ops op

/-! ## Preservation of the invariants -/

theorem keyInv_new : KeyInv (NewRoarIndex : RoarIndex K V) 0 := by
  refine ⟨by simp [NewRoarIndex], ?_, ?_⟩ <;> simp [NewRoarIndex, mapGet]

theorem valueInv_new : ValueInv (NewRoarIndex : RoarIndex K V) 0 := by
  refine ⟨by simp [NewRoarIndex], ?_, ?_⟩ <;> simp [NewRoarIndex, mapGet]

theorem dataInv_new : DataInv (NewRoarIndex : RoarIndex K V) := by
  refine ⟨?_, ?_, ?_, ?_⟩ <;> simp [NewRoarIndex, mapGet]

theorem keyInv_step {om : RoarIndex K V} {n : Nat} (h : KeyInv om n) (op : Op K V)
    (hn : n + (if mintsKey om op then 1 else 0) ≤ uint32Size) :
    KeyInv (applyOp om op) (n + (if mintsKey om op then 1 else 0)) := by
  cases op with
  | push k v =>
    cases hk : mapGet om.keyToID k with
    | none =>
      have hm : mintsKey om (Op.push k v) = true := by simp [mintsKey, hk]
      rw [hm] at hn ⊢
      simp only [if_true] at hn ⊢
      have hlt : n < uint32Size := by omega
      have hnext : om.nextKeyID = n := by rw [h.next, Nat.mod_eq_of_lt hlt]
      refine ⟨?_, ?_, ?_⟩
      · simp [applyOp, PushMap_nextKeyID, hk, hnext]
      · intro k' i hi
        simp only [applyOp, PushMap_keyToID, hk, Option.getD_none, hnext] at hi
        split at hi
        · cases hi
          omega
        · have := h.bound k' i hi
          omega
      · intro k' i
        simp only [applyOp, PushMap_keyToID, PushMap_idToKey, hk, Option.getD_none, hnext,
          true_and]
        by_cases hi : i = n
        · subst hi
          by_cases hk' : k' = k
          · simp [hk']
          · have hne : mapGet om.keyToID k' ≠ some i := fun e =>
              absurd (h.bound k' i e) (lt_irrefl _)
            simp only [if_true, hk', if_false, Option.some.injEq]
            constructor
            · intro e
              exact absurd e.symm hk'
            · intro e
              exact absurd e hne
        · by_cases hk' : k' = k
          · subst hk'
            simp only [hi, if_false, if_true, Option.some.injEq]
            constructor
            · intro e
              rw [(h.inv k' i).mp e] at hk
              cases hk
            · intro e
              exact absurd e.symm hi
          · simp only [hi, hk', if_false]
            exact h.inv k' i
    | some j =>
      have hm : mintsKey om (Op.push k v) = false := by simp [mintsKey, hk]
      rw [hm]
      simp only [Bool.false_eq_true, if_false, Nat.add_zero]
      have hsame : ∀ k', mapGet (PushMap om k v).keyToID k' = mapGet om.keyToID k' := by
        intro k'
        rw [PushMap_keyToID]
        split
        · rename_i e
          subst e
          simp [hk]
        · rfl
      refine ⟨?_, ?_, ?_⟩
      · simp [applyOp, PushMap_nextKeyID, hk, h.next]
      · intro k' i hi
        simp only [applyOp, hsame] at hi
        exact h.bound k' i hi
      · intro k' i
        simp only [applyOp, hsame, PushMap_idToKey, hk]
        simpa using h.inv k' i
  | delete k =>
    have hm : mintsKey om (Op.delete k : Op K V) = false := rfl
    rw [hm]
    simp only [Bool.false_eq_true, if_false, Nat.add_zero]
    refine ⟨?_, ?_, ?_⟩
    · simp [applyOp, (DeleteMap_values om k).2.2.2, h.next]
    · intro k' i hi
      simp only [applyOp, DeleteMap_keyToID] at hi
      split at hi
      · cases hi
      · exact h.bound k' i hi
    · intro k' i
      simp only [applyOp, DeleteMap_keyToID, DeleteMap_idToKey]
      by_cases hk' : k' = k
      · subst hk'
        simp only [if_true]
        constructor
        · intro e
          split at e
          · cases e
          · rename_i hne
            exact absurd ((h.inv k' i).mp e) hne
        · intro e
          cases e
      · simp only [hk', if_false]
        by_cases hi : mapGet om.keyToID k = some i
        · simp only [hi, if_true]
          constructor
          · intro e
            cases e
          · intro e
            have h1 := (h.inv k i).mpr hi
            have h2 := (h.inv k' i).mpr e
            rw [h1] at h2
            exact absurd (Option.some.inj h2).symm hk'
        · simp only [hi, if_false]
          exact h.inv k' i

theorem PushMap_valueToID_stable (om : RoarIndex K V) (k : K) (v : V) {v' : V} {x : Nat}
    (h : mapGet om.valueToID v' = some x) :
    mapGet (PushMap om k v).valueToID v' = some x := by
  rw [PushMap_valueToID]
  split
  · rename_i e
    subst e
    simp [h]
  · exact h

theorem PushMap_keyToID_stable (om : RoarIndex K V) (k : K) (v : V) {k' : K} {x : Nat}
    (h : mapGet om.keyToID k' = some x) :
    mapGet (PushMap om k v).keyToID k' = some x := by
  rw [PushMap_keyToID]
  split
  · rename_i e
    subst e
    simp [h]
  · exact h

theorem valueInv_step {om : RoarIndex K V} {n : Nat} (h : ValueInv om n) (op : Op K V)
    (hn : n + (if mintsValue om op then 1 else 0) ≤ uint32Size) :
    ValueInv (applyOp om op) (n + (if mintsValue om op then 1 else 0)) := by
  cases op with
  | push k v =>
    cases hv : mapGet om.valueToID v with
    | none =>
      have hm : mintsValue om (Op.push k v) = true := by simp [mintsValue, hv]
      rw [hm] at hn ⊢
      simp only [if_true] at hn ⊢
      have hlt : n < uint32Size := by omega
      have hnext : om.nextValueID = n := by rw [h.next, Nat.mod_eq_of_lt hlt]
      refine ⟨?_, ?_, ?_⟩
      · simp [applyOp, PushMap_nextValueID, hv, hnext]
      · intro v' i hi
        simp only [applyOp, PushMap_valueToID, hv, Option.getD_none, hnext] at hi
        split at hi
        · cases hi
          omega
        · have := h.bound v' i hi
          omega
      · intro v' i
        simp only [applyOp, PushMap_valueToID, PushMap_idToValue, hv, Option.getD_none,
          hnext, true_and]
        by_cases hi : i = n
        · subst hi
          by_cases hv' : v' = v
          · simp [hv']
          · have hne : mapGet om.valueToID v' ≠ some i := fun e =>
              absurd (h.bound v' i e) (lt_irrefl _)
            simp only [if_true, hv', if_false, Option.some.injEq]
            constructor
            · intro e
              exact absurd e.symm hv'
            · intro e
              exact absurd e hne
        · by_cases hv' : v' = v
          · subst hv'
            simp only [hi, if_false, if_true, Option.some.injEq]
            constructor
            · intro e
              rw [(h.inv v' i).mp e] at hv
              cases hv
            · intro e
              exact absurd e.symm hi
          · simp only [hi, hv', if_false]
            exact h.inv v' i
    | some j =>
      have hm : mintsValue om (Op.push k v) = false := by simp [mintsValue, hv]
      rw [hm]
      simp only [Bool.false_eq_true, if_false, Nat.add_zero]
      have hsame : ∀ v', mapGet (PushMap om k v).valueToID v' = mapGet om.valueToID v' := by
        intro v'
        rw [PushMap_valueToID]
        split
        · rename_i e
          subst e
          simp [hv]
        · rfl
      refine ⟨?_, ?_, ?_⟩
      · simp [applyOp, PushMap_nextValueID, hv, h.next]
      · intro v' i hi
        simp only [applyOp, hsame] at hi
        exact h.bound v' i hi
      · intro v' i
        simp only [applyOp, hsame, PushMap_idToValue, hv]
        simpa using h.inv v' i
  | delete k =>
    have hm : mintsValue om (Op.delete k : Op K V) = false := rfl
    rw [hm]
    simp only [Bool.false_eq_true, if_false, Nat.add_zero]
    refine ⟨?_, ?_, ?_⟩
    · simp [applyOp, (DeleteMap_values om k).2.2.1, h.next]
    · intro v' i hi
      simp only [applyOp, (DeleteMap_values om k).1] at hi
      exact h.bound v' i hi
    · intro v' i
      simp only [applyOp, (DeleteMap_values om k).1, (DeleteMap_values om k).2.1]
      exact h.inv v' i

theorem dataInv_step {om : RoarIndex K V} (h : DataInv om) (op : Op K V) :
    DataInv (applyOp om op) := by
  cases op with
  | push k v =>
    have hcase : ∀ j bm, mapGet (PushMap om k v).data j = some bm →
        (j = (mapGet om.keyToID k).getD om.nextKeyID ∧
          bm = Bitmap.add
            ((mapGet om.data ((mapGet om.keyToID k).getD om.nextKeyID)).getD NewBitmap)
            ((mapGet om.valueToID v).getD om.nextValueID)) ∨
        (j ≠ (mapGet om.keyToID k).getD om.nextKeyID ∧ mapGet om.data j = some bm) := by
      intro j bm hj
      rw [PushMap_data] at hj
      split at hj
      · rename_i e
        exact Or.inl ⟨e, (Option.some.inj hj).symm⟩
      · rename_i e
        exact Or.inr ⟨e, hj⟩
    refine ⟨?_, ?_, ?_, ?_⟩
    · intro j bm hj
      rcases hcase j bm hj with ⟨_, rfl⟩ | ⟨_, hold⟩
      · apply Bitmap.pairwise_add
        cases hb : mapGet om.data ((mapGet om.keyToID k).getD om.nextKeyID) with
        | none => simp [NewBitmap]
        | some b => exact h.sorted _ b hb
      · exact h.sorted j bm hold
    · intro j bm hj
      rcases hcase j bm hj with ⟨_, rfl⟩ | ⟨_, hold⟩
      · exact Bitmap.add_ne_nil _ _
      · exact h.nonempty j bm hold
    · intro j bm x hj hx
      rcases hcase j bm hj with ⟨_, rfl⟩ | ⟨_, hold⟩
      · rcases (Bitmap.mem_add _ _ _).mp hx with rfl | hx
        · exact ⟨v, by simp [applyOp, PushMap_valueToID]⟩
        · cases hb : mapGet om.data ((mapGet om.keyToID k).getD om.nextKeyID) with
          | none => simp [hb, NewBitmap] at hx
          | some b =>
            rw [hb] at hx
            obtain ⟨v0, hv0⟩ := h.interned _ b x hb hx
            exact ⟨v0, PushMap_valueToID_stable om k v hv0⟩
      · obtain ⟨v0, hv0⟩ := h.interned j bm x hold hx
        exact ⟨v0, PushMap_valueToID_stable om k v hv0⟩
    · intro j bm hj
      rcases hcase j bm hj with ⟨rfl, _⟩ | ⟨_, hold⟩
      · exact ⟨k, by simp [applyOp, PushMap_keyToID]⟩
      · obtain ⟨k0, hk0⟩ := h.owned j bm hold
        exact ⟨k0, PushMap_keyToID_stable om k v hk0⟩
  | delete k =>
    have hcase : ∀ j bm, mapGet (DeleteMap om k).data j = some bm →
        mapGet om.keyToID k ≠ some j ∧ mapGet om.data j = some bm := by
      intro j bm hj
      rw [DeleteMap_data] at hj
      split at hj
      · cases hj
      · rename_i e
        exact ⟨e, hj⟩
    refine ⟨?_, ?_, ?_, ?_⟩
    · intro j bm hj
      exact h.sorted j bm (hcase j bm hj).2
    · intro j bm hj
      exact h.nonempty j bm (hcase j bm hj).2
    · intro j bm x hj hx
      obtain ⟨v0, hv0⟩ := h.interned j bm x (hcase j bm hj).2 hx
      exact ⟨v0, by simpa [applyOp, (DeleteMap_values om k).1] using hv0⟩
    · intro j bm hj
      obtain ⟨hne, hold⟩ := hcase j bm hj
      obtain ⟨k0, hk0⟩ := h.owned j bm hold
      refine ⟨k0, ?_⟩
      simp only [applyOp, DeleteMap_keyToID]
      split
      · rename_i e
        subst e
        exact absurd hk0 hne
      · exact hk0

/-! ## Invariants of reachable states -/

theorem keyMints_le_snoc (ops : List (Op K V)) (op : Op K V) :
    keyMints ops ≤ keyMints (ops ++ [op]) := by
  rw [keyMints_snoc]
  omega

theorem valueMints_le_snoc (ops : List (Op K V)) (op : Op K V) :
    valueMints ops ≤ valueMints (ops ++ [op]) := by
  rw [valueMints_snoc]
  omega

theorem keyInv_run (ops : List (Op K V)) (h : keyMints ops ≤ uint32Size) :
    KeyInv (run ops) (keyMints ops) := by
  induction ops using List.reverseRecOn with
  | nil => exact keyInv_new
  | append_singleton ops op ih =>
    have h0 : keyMints ops ≤ uint32Size := le_trans (keyMints_le_snoc ops op) h
    rw [keyMints_snoc] at h ⊢
    rw [run_snoc]
    exact keyInv_step (ih h0) op h

theorem valueInv_run (ops : List (Op K V)) (h : valueMints ops ≤ uint32Size) :
    ValueInv (run ops) (valueMints ops) := by
  induction ops using List.reverseRecOn with
  | nil => exact valueInv_new
  | append_singleton ops op ih =>
    have h0 : valueMints ops ≤ uint32Size := le_trans (valueMints_le_snoc ops op) h
    rw [valueMints_snoc] at h ⊢
    rw [run_snoc]
    exact valueInv_step (ih h0) op h

theorem dataInv_run (ops : List (Op K V)) : DataInv (run ops) := by
  induction ops using List.reverseRecOn with
  | nil => exact dataInv_new
  | append_singleton ops op ih =>
    rw [run_snoc]
    exact dataInv_step ih op

/-! ## Reading the index -/

theorem GetMap_err_iff (om : RoarIndex K V) (k : K) :
    (GetMap om k).2 = some Error.ErrKeyNotFound ↔ mapGet om.keyToID k = none := by
  cases h1 : mapGet om.keyToID k with
  | none => simp [GetMap, h1]
  | some i => cases h2 : mapGet om.data i <;> simp [GetMap, h1, h2]

theorem GetMap_ok_iff (om : RoarIndex K V) (k : K) :
    (GetMap om k).2 = none ↔ ∃ i, mapGet om.keyToID k = some i := by
  cases h1 : mapGet om.keyToID k with
  | none => simp [GetMap, h1]
  | some i => cases h2 : mapGet om.data i <;> simp [GetMap, h1, h2]

theorem mem_GetMap (om : RoarIndex K V) (k : K) (v : V) :
    v ∈ (GetMap om k).1 ↔
      ∃ i bm x, mapGet om.keyToID k = some i ∧ mapGet om.data i = some bm ∧
        x ∈ bm ∧ mapGet om.idToValue x = some v := by
  cases h1 : mapGet om.keyToID k with
  | none => simp [GetMap, h1]
  | some i =>
    cases h2 : mapGet om.data i with
    | none => simp [GetMap, h1, h2]
    | some bm => simp [GetMap, h1, h2, Bitmap.iterator, List.mem_filterMap]

theorem HasValue_iff (om : RoarIndex K V) (k : K) (v : V) :
    HasValue om k v = true ↔
      ∃ i x bm, mapGet om.keyToID k = some i ∧ mapGet om.valueToID v = some x ∧
        mapGet om.data i = some bm ∧ x ∈ bm := by
  cases h1 : mapGet om.keyToID k with
  | none => simp [HasValue, h1]
  | some i =>
    cases h2 : mapGet om.valueToID v with
    | none => simp [HasValue, h1, h2]
    | some x =>
      cases h3 : mapGet om.data i with
      | none => simp [HasValue, h1, h2, h3]
      | some bm => simp [HasValue, h1, h2, h3, Bitmap.contains]

theorem valueInv_inj {om : RoarIndex K V} {n : Nat} (h : ValueInv om n) {v w : V} {i : Nat}
    (hv : mapGet om.valueToID v = some i) (hw : mapGet om.valueToID w = some i) : v = w := by
  have h1 := (h.inv v i).mpr hv
  have h2 := (h.inv w i).mpr hw
  rw [h1] at h2
  exact Option.some.inj h2

theorem keyInv_inj {om : RoarIndex K V} {n : Nat} (h : KeyInv om n) {k k' : K} {i : Nat}
    (hk : mapGet om.keyToID k = some i) (hk' : mapGet om.keyToID k' = some i) : k = k' := by
  have h1 := (h.inv k i).mpr hk
  have h2 := (h.inv k' i).mpr hk'
  rw [h1] at h2
  exact Option.some.inj h2

theorem keyInv_push (ops : List (Op K V)) (k : K) (v : V) (h : keyMints ops < uint32Size) :
    KeyInv (PushMap (run ops) k v) (keyMints (ops ++ [Op.push k v])) := by
  have h1 : keyMints (ops ++ [Op.push k v]) ≤ uint32Size := by
    rw [keyMints_snoc]
    split <;> omega
  have := keyInv_run (ops ++ [Op.push k v]) h1
  rwa [run_snoc] at this

theorem valueInv_push (ops : List (Op K V)) (k : K) (v : V) (h : valueMints ops < uint32Size) :
    ValueInv (PushMap (run ops) k v) (valueMints (ops ++ [Op.push k v])) := by
  have h1 : valueMints (ops ++ [Op.push k v]) ≤ uint32Size := by
    rw [valueMints_snoc]
    split <;> omega
  have := valueInv_run (ops ++ [Op.push k v]) h1
  rwa [run_snoc] at this

/-- A key identifier about to be minted owns no bitmap yet. -/
theorem fresh_key_no_data {om : RoarIndex K V} {n : Nat} (hK : KeyInv om n) (hD : DataInv om)
    (hn : n < uint32Size) : mapGet om.data om.nextKeyID = none := by
  cases hb : mapGet om.data om.nextKeyID with
  | none => rfl
  | some bm =>
    obtain ⟨k0, hk0⟩ := hD.owned _ bm hb
    have := hK.bound k0 _ hk0
    rw [hK.next, Nat.mod_eq_of_lt hn] at this
    exact absurd this (lt_irrefl _)

/-- C1: in a reachable state with fewer than 2^32 key and value identifiers
minted, `PushMap(k, v)` is a one-element union on the set of `k`: afterwards
`HasValue(k, w)` holds exactly when `w = v` or it held before; in particular
`HasValue(k, v)` holds, `GetMap(k)` succeeds and its result contains `v`. -/
theorem pushMap_is_union (ops : List (Op K V)) (k : K) (v w : V)
    (hk : keyMints ops < uint32Size) (hv : valueMints ops < uint32Size) :
    (HasValue (PushMap (run ops) k v) k w = true ↔
      (w = v ∨ HasValue (run ops) k w = true)) ∧
    HasValue (PushMap (run ops) k v) k v = true ∧
    (GetMap (PushMap (run ops) k v) k).2 = none ∧
    v ∈ (GetMap (PushMap (run ops) k v) k).1 := by
  have hK := keyInv_run ops (le_of_lt hk)
  have hD := dataInv_run ops
  have hV' := valueInv_push ops k v hv
  have hkey : mapGet (PushMap (run ops) k v).keyToID k =
      some ((mapGet (run ops).keyToID k).getD (run ops).nextKeyID) := by
    simp [PushMap_keyToID]
  have hval : mapGet (PushMap (run ops) k v).valueToID v =
      some ((mapGet (run ops).valueToID v).getD (run ops).nextValueID) := by
    simp [PushMap_valueToID]
  have hdat : mapGet (PushMap (run ops) k v).data
      ((mapGet (run ops).keyToID k).getD (run ops).nextKeyID) =
      some (Bitmap.add
          ((mapGet (run ops).data
            ((mapGet (run ops).keyToID k).getD (run ops).nextKeyID)).getD NewBitmap)
          ((mapGet (run ops).valueToID v).getD (run ops).nextValueID)) := by
    simp [PushMap_data]
  have hself : HasValue (PushMap (run ops) k v) k v = true := by
    rw [HasValue_iff]
    exact ⟨_, _, _, hkey, hval, hdat, (Bitmap.mem_add _ _ _).mpr (Or.inl rfl)⟩
  refine ⟨?_, hself, ?_, ?_⟩
  · constructor
    · intro h
      by_cases hwv : w = v
      · exact Or.inl hwv
      · right
        rw [HasValue_iff] at h ⊢
        obtain ⟨i, x, bm, h1, h2, h3, h4⟩ := h
        rw [hkey] at h1
        cases h1
        rw [hdat] at h3
        cases h3
        have h2' := h2
        rw [PushMap_valueToID, if_neg hwv] at h2'
        rcases (Bitmap.mem_add _ _ _).mp h4 with hx | hx
        · subst hx
          exact absurd (valueInv_inj hV' h2 hval) hwv
        · cases hkk : mapGet (run ops).keyToID k with
          | none =>
            rw [hkk, Option.getD_none, fresh_key_no_data hK hD hk] at hx
            simp [NewBitmap] at hx
          | some j =>
            rw [hkk, Option.getD_some] at hx
            cases hb : mapGet (run ops).data j with
            | none =>
              rw [hb] at hx
              simp [NewBitmap] at hx
            | some b =>
              rw [hb] at hx
              exact ⟨j, x, b, rfl, h2', hb, hx⟩
    · rintro (rfl | h)
      · exact hself
      · rw [HasValue_iff] at h ⊢
        obtain ⟨i, x, bm, h1, h2, h3, h4⟩ := h
        refine ⟨_, x, _, hkey, PushMap_valueToID_stable _ k v h2, hdat, ?_⟩
        rw [h1, Option.getD_some, h3]
        exact (Bitmap.mem_add _ _ _).mpr (Or.inr h4)
  · rw [GetMap_ok_iff]
    exact ⟨_, hkey⟩
  · rw [mem_GetMap]
    exact ⟨_, _, _, hkey, hdat, (Bitmap.mem_add _ _ _).mpr (Or.inl rfl),
      (hV'.inv v _).mpr hval⟩

/-- C1, instance: two pushes under one key, then a third value. -/
theorem pushMap_is_union_witness :
    (HasValue (PushMap (run [Op.push 1 10, Op.push 1 11]) 1 12) 1 10 = true ↔
      (10 = 12 ∨ HasValue (run [Op.push 1 10, Op.push 1 11]) 1 10 = true)) ∧
    HasValue (PushMap (run [Op.push 1 10, Op.push 1 11]) 1 12) 1 12 = true ∧
    (GetMap (PushMap (run [Op.push 1 10, Op.push 1 11]) 1 12) 1).2 = none ∧
    12 ∈ (GetMap (PushMap (run [Op.push 1 10, Op.push 1 11]) 1 12) 1).1 :=
  pushMap_is_union [Op.push 1 10, Op.push 1 11] 1 12 10 (by decide) (by decide)

/-! ## The key interner as a list -/

theorem PushMap_keyToID_list (om : RoarIndex K V) (k : K) (v : V) :
    (PushMap om k v).keyToID =
      if mapGet om.keyToID k = none then mapSet om.keyToID k om.nextKeyID
      else om.keyToID := by
  unfold PushMap
  rw [(addToBitmap_fields _ _ _).1, (assignValueID_keys _ _).1]
  unfold assignKeyID
  cases h : mapGet om.keyToID k <;> simp

theorem DeleteMap_keyToID_list (om : RoarIndex K V) (k : K) :
    (DeleteMap om k).keyToID = mapDelete om.keyToID k := by
  unfold DeleteMap
  cases h : mapGet om.keyToID k with
  | none => simp [mapDelete_of_none _ _ h]
  | some i => simp

theorem mapKeys_mapDelete {α β : Type} [DecidableEq α] (m : List (α × β)) (x : α) :
    mapKeys (mapDelete m x) = (mapKeys m).filter (fun a => decide (a ≠ x)) := by
  unfold mapKeys mapDelete
  rw [List.filter_map]
  rfl

theorem length_mapDelete {α β : Type} [DecidableEq α] (m : List (α × β)) (x : α)
    (hnd : (mapKeys m).Nodup) :
    (mapDelete m x).length = if x ∈ mapKeys m then m.length - 1 else m.length := by
  induction m with
  | nil => simp [mapDelete, mapKeys]
  | cons p m ih =>
    obtain ⟨a, b⟩ := p
    have hnd' : (mapKeys m).Nodup := by
      unfold mapKeys at hnd ⊢
      exact (List.nodup_cons.mp hnd).2
    have ha : a ∉ mapKeys m := by
      unfold mapKeys at hnd ⊢
      exact (List.nodup_cons.mp hnd).1
    have ih' := ih hnd'
    by_cases h : a = x
    · subst h
      have hd : mapDelete m a = m := mapDelete_of_none m a ((mapGet_eq_none_iff m a).mpr ha)
      have : mapDelete ((a, b) :: m) a = mapDelete m a := by
        simp [mapDelete, List.filter_cons]
      rw [this, hd]
      simp [mapKeys]
    · have hx : x ≠ a := fun e => h e.symm
      have : mapDelete ((a, b) :: m) x = (a, b) :: mapDelete m x := by
        simp [mapDelete, List.filter_cons, h]
      rw [this, List.length_cons, ih']
      have hmem : x ∈ mapKeys ((a, b) :: m) ↔ x ∈ mapKeys m := by
        simp [mapKeys, hx]
      by_cases hin : x ∈ mapKeys m
      · have hpos : 0 < m.length := by
          cases m with
          | nil => simp [mapKeys] at hin
          | cons _ _ => simp
        rw [if_pos hin, if_pos (hmem.mpr hin), List.length_cons]
        omega
      · rw [if_neg hin, if_neg (fun e => hin (hmem.mp e)), List.length_cons]

theorem mapKeys_mapSet_of_none {α β : Type} [DecidableEq α] (m : List (α × β)) (x : α) (y : β)
    (h : mapGet m x = none) : mapKeys (mapSet m x y) = mapKeys m ++ [x] := by
  rw [mapSet_of_none m x y h]
  simp [mapKeys]

theorem nodup_keys_run (ops : List (Op K V)) : (mapKeys (run ops).keyToID).Nodup := by
  induction ops using List.reverseRecOn with
  | nil => simp [run, NewRoarIndex, mapKeys]
  | append_singleton ops op ih =>
    rw [run_snoc]
    cases op with
    | push k v =>
      simp only [applyOp, PushMap_keyToID_list]
      split
      · rename_i h
        rw [mapKeys_mapSet_of_none _ _ _ h]
        refine List.Nodup.append ih (List.nodup_singleton k) ?_
        rw [List.disjoint_singleton]
        exact (mapGet_eq_none_iff _ _).mp h
      · exact ih
    | delete k =>
      simp only [applyOp, DeleteMap_keyToID_list, mapKeys_mapDelete]
      exact ih.filter _

theorem mapGet_map_some (m : List (Nat × Bitmap)) (i : Nat) :
    mapGet (m.map (fun p => (p.1, (some p.2 : BitmapPtr)))) i = (mapGet m i).map some := by
  induction m with
  | nil => rfl
  | cons p m ih =>
    obtain ⟨a, b⟩ := p
    by_cases h : a = i
    · simp [mapGet, h]
    · simp [mapGet, h, ih]

/-- On a state without nil pointers the two renderings of `HasValue` agree. -/
theorem HasValue_toRaw (om : RoarIndex K V) (k : K) (v : V) :
    RawIndex.HasValue (toRaw om) k v = some (HasValue om k v) := by
  unfold RawIndex.HasValue HasValue toRaw
  simp only
  cases h1 : mapGet om.keyToID k with
  | none => rfl
  | some keyID =>
    cases h2 : mapGet om.valueToID v with
    | none => rfl
    | some valueID =>
      simp only [mapGet_map_some]
      cases h3 : mapGet om.data keyID with
      | none => rfl
      | some bm => rfl

/-- C6 (amended): in any state, reachable or not, whose posting store holds no
nil bitmap for the identifier of `k`, `HasValue(k, v)` does not panic; it returns
true exactly when `k` has a `keyToID` entry, `v` has a `valueToID` entry, the key
identifier owns a posting set and the set contains the value identifier, and it
returns false in every other case.  Every state of the list model, hence every
reachable state, is such a state, and there the result is that of `HasValue`. -/
theorem hasValue_three_lookups_without_nil (om : RawIndex K V) (k : K) (v : V)
    (s : RoarIndex K V)
    (hnil : ∀ keyID, mapGet om.keyToID k = some keyID → mapGet om.data keyID ≠ some none) :
    RawIndex.HasValue om k v ≠ none ∧
    (RawIndex.HasValue om k v = some true ↔
      ∃ keyID valueID bm, mapGet om.keyToID k = some keyID ∧
        mapGet om.valueToID v = some valueID ∧ mapGet om.data keyID = some (some bm) ∧
        Bitmap.contains bm valueID = true) ∧
    (RawIndex.HasValue om k v = some false ↔
      ¬ ∃ keyID valueID bm, mapGet om.keyToID k = some keyID ∧
        mapGet om.valueToID v = some valueID ∧ mapGet om.data keyID = some (some bm) ∧
        Bitmap.contains bm valueID = true) ∧
    RawIndex.HasValue (toRaw s) k v = some (HasValue s k v) := by
  refine ⟨?_, ?_, ?_, HasValue_toRaw s k v⟩
  · cases h1 : mapGet om.keyToID k with
    | none => simp [RawIndex.HasValue, h1]
    | some keyID =>
      cases h2 : mapGet om.valueToID v with
      | none => simp [RawIndex.HasValue, h1, h2]
      | some valueID =>
        cases h3 : mapGet om.data keyID with
        | none => simp [RawIndex.HasValue, h1, h2, h3]
        | some ptr =>
          cases ptr with
          | none => exact absurd h3 (hnil keyID h1)
          | some bm => simp [RawIndex.HasValue, h1, h2, h3, BitmapPtr.contains]
  · cases h1 : mapGet om.keyToID k with
    | none => simp [RawIndex.HasValue, h1]
    | some keyID =>
      cases h2 : mapGet om.valueToID v with
      | none => simp [RawIndex.HasValue, h1, h2]
      | some valueID =>
        cases h3 : mapGet om.data keyID with
        | none => simp [RawIndex.HasValue, h1, h2, h3]
        | some ptr =>
          cases ptr with
          | none => exact absurd h3 (hnil keyID h1)
          | some bm => simp [RawIndex.HasValue, h1, h2, h3, BitmapPtr.contains]
  · cases h1 : mapGet om.keyToID k with
    | none => simp [RawIndex.HasValue, h1]
    | some keyID =>
      cases h2 : mapGet om.valueToID v with
      | none => simp [RawIndex.HasValue, h1, h2]
      | some valueID =>
        cases h3 : mapGet om.data keyID with
        | none => simp [RawIndex.HasValue, h1, h2, h3]
        | some ptr =>
          cases ptr with
          | none => exact absurd h3 (hnil keyID h1)
          | some bm => simp [RawIndex.HasValue, h1, h2, h3, BitmapPtr.contains]

/-- C6 (amended), instance: an unreachable state whose only bitmap pointer is
not nil, and a reachable state. -/
theorem hasValue_three_lookups_without_nil_witness :
    RawIndex.HasValue sparseState 7 5 ≠ none ∧
    RawIndex.HasValue (toRaw (run [Op.push 1 10, Op.push 2 11])) 7 5 =
      some (HasValue (run [Op.push 1 10, Op.push 2 11]) 7 5) :=
  ⟨(hasValue_three_lookups_without_nil sparseState 7 5 (run [Op.push 1 10, Op.push 2 11])
      (by decide)).1,
    (hasValue_three_lookups_without_nil sparseState 7 5 (run [Op.push 1 10, Op.push 2 11])
      (by decide)).2.2.2⟩

/-- C6, counterexample: in the state `nilBitmapState`, where key `7` and value
`5` are interned and the posting store holds the nil pointer for the identifier
of key `7`, `HasValue(7, 5)` reaches `bm.Contains` on nil and panics. -/
theorem hasValue_panics_on_nil_bitmap :
    mapGet nilBitmapState.keyToID 7 = some 3 ∧
    mapGet nilBitmapState.valueToID 5 = some 0 ∧
    mapGet nilBitmapState.data 3 = some none ∧
    RawIndex.HasValue nilBitmapState 7 5 = none := by
  decide

/-- C9: after `DeleteMap(k)` on a reachable state, `HasValue(k, v)` is false for
every `v`, `GetMap(k)` returns `ErrKeyNotFound` with an empty sequence, `k` is
not in `Keys()`, and `Count()` dropped by one if `k` was visible and is
unchanged otherwise. -/
theorem deleteMap_absorbing (ops : List (Op K V)) (k : K) :
    (∀ v, HasValue (DeleteMap (run ops) k) k v = false) ∧
    GetMap (DeleteMap (run ops) k) k = ([], some Error.ErrKeyNotFound) ∧
    k ∉ Keys (DeleteMap (run ops) k) ∧
    Count (DeleteMap (run ops) k) =
      if k ∈ Keys (run ops) then Count (run ops) - 1 else Count (run ops) := by
  have hnone : mapGet (DeleteMap (run ops) k).keyToID k = none := by
    simp [DeleteMap_keyToID]
  refine ⟨?_, ?_, ?_, ?_⟩
  · intro v
    simp [HasValue, hnone]
  · simp [GetMap, hnone]
  · exact (mapGet_eq_none_iff _ _).mp hnone
  · unfold Count Keys
    rw [DeleteMap_keyToID_list]
    exact length_mapDelete _ k (nodup_keys_run ops)

/-- C10: in any state, `DeleteMap(k)` on a key without `keyToID` entry leaves the
whole state unchanged, and two `DeleteMap(k)` in a row equal one. -/
theorem deleteMap_absent_noop (om : RoarIndex K V) (k : K) :
    (mapGet om.keyToID k = none → DeleteMap om k = om) ∧
    DeleteMap (DeleteMap om k) k = DeleteMap om k := by
  have h : ∀ s : RoarIndex K V, mapGet s.keyToID k = none → DeleteMap s k = s := by
    intro s hs
    simp [DeleteMap, hs]
  exact ⟨h om, h _ (by simp [DeleteMap_keyToID])⟩

/-- C10, instance: deleting a key that was never pushed. -/
theorem deleteMap_absent_noop_witness :
    DeleteMap (run [Op.push 1 10, Op.push 2 11]) 7 = run [Op.push 1 10, Op.push 2 11] :=
  (deleteMap_absent_noop (run [Op.push 1 10, Op.push 2 11]) 7).1 (by decide)

/-! ## Visibility read off the history -/

theorem lastCall_snoc (ops : List (Op K V)) (op : Op K V) (k : K) :
    lastCall (ops ++ [op]) k = if Op.key op = k then some op else lastCall ops k := by
  unfold lastCall
  rw [List.reverse_append, List.reverse_singleton, List.singleton_append, List.find?_cons]
  by_cases h : Op.key op = k <;> simp [h]

theorem neverPushed_snoc (ops : List (Op K V)) (op : Op K V) (k : K) :
    neverPushed (ops ++ [op]) k =
      (neverPushed ops k && (match op with
        | Op.push key _ => decide (key ≠ k)
        | Op.delete _ => true)) := by
  unfold neverPushed
  rw [List.all_append]
  simp

theorem visible_iff_lastCallIsPush (ops : List (Op K V)) (k : K) :
    (∃ i, mapGet (run ops).keyToID k = some i) ↔ lastCallIsPush ops k = true := by
  induction ops using List.reverseRecOn with
  | nil => simp [run, NewRoarIndex, mapGet, lastCallIsPush, lastCall]
  | append_singleton ops op ih =>
    rw [run_snoc]
    unfold lastCallIsPush at ih ⊢
    rw [lastCall_snoc]
    cases op with
    | push k0 v =>
      simp only [applyOp, PushMap_keyToID, Op.key]
      by_cases h : k = k0
      · subst h
        simp
      · have h' : ¬ k0 = k := fun e => h e.symm
        simp only [h, h', if_false]
        exact ih
    | delete k0 =>
      simp only [applyOp, DeleteMap_keyToID, Op.key]
      by_cases h : k = k0
      · subst h
        simp
      · have h' : ¬ k0 = k := fun e => h e.symm
        simp only [h, h', if_false]
        exact ih

theorem invisible_iff (ops : List (Op K V)) (k : K) :
    mapGet (run ops).keyToID k = none ↔
      (neverPushed ops k = true ∨ lastCallIsDelete ops k = true) := by
  induction ops using List.reverseRecOn with
  | nil => simp [run, NewRoarIndex, mapGet, neverPushed]
  | append_singleton ops op ih =>
    rw [run_snoc, neverPushed_snoc]
    unfold lastCallIsDelete at ih ⊢
    rw [lastCall_snoc]
    cases op with
    | push k0 v =>
      simp only [applyOp, PushMap_keyToID, Op.key]
      by_cases h : k = k0
      · subst h
        simp
      · have h' : ¬ k0 = k := fun e => h e.symm
        simp only [h, h', if_false]
        simpa [h'] using ih
    | delete k0 =>
      simp only [applyOp, DeleteMap_keyToID, Op.key]
      by_cases h : k = k0
      · subst h
        simp
      · have h' : ¬ k0 = k := fun e => h e.symm
        simp only [h, h', if_false]
        simpa using ih

/-- C3: on a reachable state `GetMap(k)` returns `ErrKeyNotFound` exactly when
`k` was never pushed or the most recent `PushMap`/`DeleteMap` call about `k` was
a `DeleteMap`; and with `ErrKeyNotFound` the returned sequence has length 0. -/
theorem getMap_fails_iff_invisible (ops : List (Op K V)) (k : K) :
    ((GetMap (run ops) k).2 = some Error.ErrKeyNotFound ↔
      (neverPushed ops k = true ∨ lastCallIsDelete ops k = true)) ∧
    ((GetMap (run ops) k).2 = some Error.ErrKeyNotFound →
      (GetMap (run ops) k).1.length = 0) := by
  refine ⟨?_, ?_⟩
  · rw [GetMap_err_iff]
    exact invisible_iff ops k
  · intro h
    rw [GetMap_err_iff] at h
    simp [GetMap, h]

/-- C3, instance: a key pushed and then deleted. -/
theorem getMap_fails_iff_invisible_witness :
    (GetMap (run [Op.push 1 10, Op.delete 1]) 1).1.length = 0 :=
  (getMap_fails_iff_invisible [Op.push 1 10, Op.delete 1] 1).2 (by decide)

/-- C7: in a reachable state with fewer than 2^32 key and value identifiers
minted, `HasValue(k, v)` is true exactly when `GetMap(k)` returns no error and
`v` occurs in the returned list. -/
theorem hasValue_iff_getMap (ops : List (Op K V)) (k : K) (v : V)
    (hk : keyMints ops < uint32Size) (hv : valueMints ops < uint32Size) :
    HasValue (run ops) k v = true ↔
      ((GetMap (run ops) k).2 = none ∧ v ∈ (GetMap (run ops) k).1) := by
  have hV := valueInv_run ops (le_of_lt hv)
  rw [HasValue_iff, mem_GetMap, GetMap_ok_iff]
  constructor
  · rintro ⟨i, x, bm, h1, h2, h3, h4⟩
    exact ⟨⟨i, h1⟩, i, bm, x, h1, h3, h4, (hV.inv v x).mpr h2⟩
  · rintro ⟨_, i, bm, x, h1, h3, h4, h5⟩
    exact ⟨i, x, bm, h1, (hV.inv v x).mp h5, h3, h4⟩

/-- C7, instance: a value shared by two keys. -/
theorem hasValue_iff_getMap_witness :
    HasValue (run [Op.push 1 10, Op.push 2 10, Op.push 2 11]) 2 10 = true ↔
      ((GetMap (run [Op.push 1 10, Op.push 2 10, Op.push 2 11]) 2).2 = none ∧
        10 ∈ (GetMap (run [Op.push 1 10, Op.push 2 10, Op.push 2 11]) 2).1) :=
  hasValue_iff_getMap [Op.push 1 10, Op.push 2 10, Op.push 2 11] 2 10
    (by decide) (by decide)

/-! ## The value interner read off the history -/

theorem PushMap_valueToID_list (om : RoarIndex K V) (k : K) (v : V) :
    (PushMap om k v).valueToID =
      if mapGet om.valueToID v = none then mapSet om.valueToID v om.nextValueID
      else om.valueToID := by
  have e1 := (assignKeyID_values om k).1
  have e3 := (assignKeyID_values om k).2.2.1
  unfold PushMap
  rw [(addToBitmap_fields _ _ _).2.2.2.1]
  unfold assignValueID
  simp only [e1, e3]
  cases h : mapGet om.valueToID v <;> simp [e1]

theorem pushedValues_snoc (ops : List (Op K V)) (op : Op K V) :
    pushedValues (ops ++ [op]) =
      pushedValues ops ++ (match op with
        | Op.push _ value => [value]
        | Op.delete _ => []) := by
  unfold pushedValues
  rw [List.filterMap_append]
  cases op <;> simp

theorem mem_pushedValues (ops : List (Op K V)) (a : V) :
    a ∈ pushedValues ops ↔ ∃ op ∈ ops, Op.carries a op = true := by
  unfold pushedValues
  rw [List.mem_filterMap]
  constructor
  · rintro ⟨op, hop, h⟩
    refine ⟨op, hop, ?_⟩
    cases op with
    | push k v =>
      simp only [Option.some.injEq] at h
      simp [Op.carries, h]
    | delete k => simp at h
  · rintro ⟨op, hop, h⟩
    refine ⟨op, hop, ?_⟩
    cases op with
    | push k v =>
      simp only [Op.carries, decide_eq_true_eq] at h
      simp [h]
    | delete k => simp [Op.carries] at h

theorem firstPushIdx_lt_iff (ops : List (Op K V)) (a : V) :
    firstPushIdx ops a < ops.length ↔ a ∈ pushedValues ops := by
  unfold firstPushIdx
  rw [List.findIdx_lt_length, mem_pushedValues]

theorem interned_iff_pushed (ops : List (Op K V)) (a : V) :
    (∃ i, mapGet (run ops).valueToID a = some i) ↔ a ∈ pushedValues ops := by
  induction ops using List.reverseRecOn with
  | nil => simp [run, NewRoarIndex, mapGet, pushedValues]
  | append_singleton ops op ih =>
    rw [run_snoc, pushedValues_snoc, List.mem_append, ← ih]
    cases op with
    | push k v =>
      simp only [applyOp, PushMap_valueToID, List.mem_singleton]
      by_cases h : a = v
      · subst h
        simp
      · simp [h]
    | delete k =>
      simp [applyOp, (DeleteMap_values _ k).1]

theorem nodup_values_run (ops : List (Op K V)) : (mapKeys (run ops).valueToID).Nodup := by
  induction ops using List.reverseRecOn with
  | nil => simp [run, NewRoarIndex, mapKeys]
  | append_singleton ops op ih =>
    rw [run_snoc]
    cases op with
    | push k v =>
      simp only [applyOp, PushMap_valueToID_list]
      split
      · rename_i h
        rw [mapKeys_mapSet_of_none _ _ _ h]
        refine List.Nodup.append ih (List.nodup_singleton v) ?_
        rw [List.disjoint_singleton]
        exact (mapGet_eq_none_iff _ _).mp h
      · exact ih
    | delete k =>
      simp only [applyOp, (DeleteMap_values _ k).1]
      exact ih

theorem valueMints_eq_length (ops : List (Op K V)) :
    valueMints ops = (run ops).valueToID.length := by
  induction ops using List.reverseRecOn with
  | nil => simp [valueMints, valueMintsFrom, run, NewRoarIndex]
  | append_singleton ops op ih =>
    rw [valueMints_snoc, run_snoc, ih]
    cases op with
    | push k v =>
      simp only [applyOp, PushMap_valueToID_list, mintsValue]
      by_cases h : mapGet (run ops).valueToID v = none
      · simp [h, mapSet_of_none _ _ _ h]
      · have h' : (mapGet (run ops).valueToID v).isNone = false := by
          cases hg : mapGet (run ops).valueToID v with
          | none => exact absurd hg h
          | some i => rfl
        simp [h, h']
    | delete k =>
      simp [applyOp, (DeleteMap_values _ k).1, mintsValue]

theorem mem_values_iff (ops : List (Op K V)) (a : V) :
    a ∈ mapKeys (run ops).valueToID ↔ a ∈ pushedValues ops := by
  rw [← interned_iff_pushed]
  constructor
  · intro h
    cases hg : mapGet (run ops).valueToID a with
    | none => exact absurd h ((mapGet_eq_none_iff _ _).mp hg)
    | some i => exact ⟨i, rfl⟩
  · rintro ⟨i, hi⟩
    by_contra hmem
    rw [(mapGet_eq_none_iff _ _).mpr hmem] at hi
    cases hi

/-- A value identifier is minted exactly once per distinct pushed value. -/
theorem valueMints_eq_distinct (ops : List (Op K V)) :
    valueMints ops = (distinctValues ops).length := by
  rw [valueMints_eq_length]
  have hperm : (mapKeys (run ops).valueToID).Perm (distinctValues ops) := by
    unfold distinctValues
    refine (List.perm_ext_iff_of_nodup (nodup_values_run ops) (List.nodup_dedup _)).mpr ?_
    intro a
    rw [mem_values_iff, List.mem_dedup]
  rw [← hperm.length_eq]
  simp [mapKeys]

/-! ## Identifier order is first-push order -/

theorem firstPushIdx_snoc (ops : List (Op K V)) (op : Op K V) (a : V) :
    firstPushIdx (ops ++ [op]) a =
      if firstPushIdx ops a < ops.length then firstPushIdx ops a
      else (if Op.carries a op = true then 0 else 1) + ops.length := by
  unfold firstPushIdx
  rw [List.findIdx_append, List.findIdx_cons, List.findIdx_nil]
  cases Op.carries a op <;> simp

theorem firstPushIdx_snoc_of_interned (ops : List (Op K V)) (op : Op K V) {a : V} {i : Nat}
    (h : mapGet (run ops).valueToID a = some i) :
    firstPushIdx (ops ++ [op]) a = firstPushIdx ops a ∧ firstPushIdx ops a < ops.length := by
  have hlt : firstPushIdx ops a < ops.length :=
    (firstPushIdx_lt_iff ops a).mpr ((interned_iff_pushed ops a).mp ⟨i, h⟩)
  rw [firstPushIdx_snoc, if_pos hlt]
  exact ⟨rfl, hlt⟩

theorem order_run (ops : List (Op K V)) (h : valueMints ops ≤ uint32Size) :
    ∀ a b i j, mapGet (run ops).valueToID a = some i →
      mapGet (run ops).valueToID b = some j → i < j →
      firstPushIdx ops a < firstPushIdx ops b := by
  induction ops using List.reverseRecOn with
  | nil =>
    intro a b i j ha
    simp [run, NewRoarIndex, mapGet] at ha
  | append_singleton ops op ih =>
    have h0 : valueMints ops ≤ uint32Size := le_trans (valueMints_le_snoc ops op) h
    have hV := valueInv_run ops h0
    have ih' := ih h0
    intro a b i j ha hb hij
    rw [run_snoc] at ha hb
    cases op with
    | push k v =>
      simp only [applyOp, PushMap_valueToID] at ha hb
      cases hv : mapGet (run ops).valueToID v with
      | none =>
        have hm : mintsValue (run ops) (Op.push k v) = true := by simp [mintsValue, hv]
        rw [valueMints_snoc, hm] at h
        simp only [if_true] at h
        have hlt : valueMints ops < uint32Size := by omega
        have hnext : (run ops).nextValueID = valueMints ops := by
          rw [hV.next, Nat.mod_eq_of_lt hlt]
        rw [hv, Option.getD_none, hnext] at ha hb
        by_cases hav : a = v
        · subst hav
          rw [if_pos rfl] at ha
          cases ha
          by_cases hbv : b = a
          · subst hbv
            rw [if_pos rfl] at hb
            cases hb
            exact absurd hij (lt_irrefl _)
          · rw [if_neg hbv] at hb
            have := hV.bound b j hb
            omega
        · rw [if_neg hav] at ha
          obtain ⟨ea, la⟩ := firstPushIdx_snoc_of_interned ops (Op.push k v) ha
          by_cases hbv : b = v
          · subst hbv
            have hnot : ¬ firstPushIdx ops b < ops.length := by
              rw [firstPushIdx_lt_iff, ← interned_iff_pushed]
              rintro ⟨x, hx⟩
              rw [hv] at hx
              cases hx
            rw [ea, firstPushIdx_snoc, if_neg hnot]
            simp only [Op.carries, decide_True, if_true]
            omega
          · rw [if_neg hbv] at hb
            obtain ⟨eb, _⟩ := firstPushIdx_snoc_of_interned ops (Op.push k v) hb
            rw [ea, eb]
            exact ih' a b i j ha hb hij
      | some x =>
        have hsame : ∀ c y, (if c = v then some ((mapGet (run ops).valueToID v).getD
            (run ops).nextValueID) else mapGet (run ops).valueToID c) = some y →
            mapGet (run ops).valueToID c = some y := by
          intro c y hc
          split at hc
          · rename_i e
            subst e
            rw [hv] at hc ⊢
            exact hc
          · exact hc
        have ha' := hsame a i ha
        have hb' := hsame b j hb
        obtain ⟨ea, _⟩ := firstPushIdx_snoc_of_interned ops (Op.push k v) ha'
        obtain ⟨eb, _⟩ := firstPushIdx_snoc_of_interned ops (Op.push k v) hb'
        rw [ea, eb]
        exact ih' a b i j ha' hb' hij
    | delete k =>
      simp only [applyOp, (DeleteMap_values _ k).1] at ha hb
      obtain ⟨ea, _⟩ := firstPushIdx_snoc_of_interned ops (Op.delete k) ha
      obtain ⟨eb, _⟩ := firstPushIdx_snoc_of_interned ops (Op.delete k) hb
      rw [ea, eb]
      exact ih' a b i j ha hb hij

/-- C4: for a history with fewer than 2^32 distinct values and every key `k`
(in particular every visible one), the list returned by `GetMap(k)` is strictly
ascending in value identifier, and of two returned values `a` before `b` the
first `PushMap` call of the history that carried `a` precedes the first one that
carried `b`. -/
theorem getMap_global_first_seen_order (ops : List (Op K V)) (k : K)
    (hd : (distinctValues ops).length < uint32Size) :
    (GetMap (run ops) k).1.Pairwise (fun a b =>
      ∃ i j, mapGet (run ops).valueToID a = some i ∧
        mapGet (run ops).valueToID b = some j ∧ i < j) ∧
    (GetMap (run ops) k).1.Pairwise (fun a b =>
      firstPushIdx ops a < firstPushIdx ops b ∧ firstPushIdx ops b < ops.length) := by
  have hle : valueMints ops ≤ uint32Size := by
    rw [valueMints_eq_distinct]
    exact le_of_lt hd
  have hV := valueInv_run ops hle
  have hD := dataInv_run ops
  have hO := order_run ops hle
  have hids : (GetMap (run ops) k).1.Pairwise (fun a b =>
      ∃ i j, mapGet (run ops).valueToID a = some i ∧
        mapGet (run ops).valueToID b = some j ∧ i < j) := by
    cases h1 : mapGet (run ops).keyToID k with
    | none => simp [GetMap, h1]
    | some kid =>
      cases h2 : mapGet (run ops).data kid with
      | none => simp [GetMap, h1, h2]
      | some bm =>
        simp only [GetMap, h1, h2, Bitmap.iterator]
        refine List.Pairwise.filterMap _ ?_ (hD.sorted kid bm h2)
        intro x y hxy a ha b hb
        exact ⟨x, y, (hV.inv a x).mp ha, (hV.inv b y).mp hb, hxy⟩
  refine ⟨hids, hids.imp ?_⟩
  rintro a b ⟨i, j, ha, hb, hij⟩
  exact ⟨hO a b i j ha hb hij,
    (firstPushIdx_lt_iff ops b).mpr ((interned_iff_pushed ops b).mp ⟨j, hb⟩)⟩

/-- C4, instance: `y` is first pushed under `2`, so it precedes `x` under `1`. -/
theorem getMap_global_first_seen_order_witness :
    (GetMap (run [Op.push 2 7, Op.push 1 5, Op.push 1 7]) 1).1.Pairwise (fun a b =>
      ∃ i j, mapGet (run [Op.push 2 7, Op.push 1 5, Op.push 1 7]).valueToID a = some i ∧
        mapGet (run [Op.push 2 7, Op.push 1 5, Op.push 1 7]).valueToID b = some j ∧ i < j) ∧
    (GetMap (run [Op.push 2 7, Op.push 1 5, Op.push 1 7]) 1).1.Pairwise (fun a b =>
      firstPushIdx [Op.push 2 7, Op.push 1 5, Op.push 1 7] a <
        firstPushIdx [Op.push 2 7, Op.push 1 5, Op.push 1 7] b ∧
      firstPushIdx [Op.push 2 7, Op.push 1 5, Op.push 1 7] b <
        [Op.push 2 7, Op.push 1 5, Op.push 1 7].length) :=
  getMap_global_first_seen_order [Op.push 2 7, Op.push 1 5, Op.push 1 7] 1 (by decide)

/-! ## Posting sets read off the history -/

theorem pushedSinceDelete_snoc_push (ops : List (Op K V)) (k0 : K) (v : V) (k : K) :
    pushedSinceDelete (ops ++ [Op.push k0 v]) k =
      if k0 = k then pushedSinceDelete ops k ++ [v] else pushedSinceDelete ops k := by
  unfold pushedSinceDelete
  rw [List.reverse_append, List.reverse_singleton, List.singleton_append, pushedSinceDeleteRev]
  split <;> simp

theorem pushedSinceDelete_snoc_delete (ops : List (Op K V)) (k0 k : K) :
    pushedSinceDelete (ops ++ [Op.delete k0]) k =
      if k0 = k then [] else pushedSinceDelete ops k := by
  unfold pushedSinceDelete
  rw [List.reverse_append, List.reverse_singleton, List.singleton_append, pushedSinceDeleteRev]
  split <;> simp

theorem pushedSinceDelete_subset (ops : List (Op K V)) (k : K) (v : V)
    (h : v ∈ pushedSinceDelete ops k) : v ∈ pushedValues ops := by
  induction ops using List.reverseRecOn with
  | nil => simp [pushedSinceDelete, pushedSinceDeleteRev] at h
  | append_singleton ops op ih =>
    rw [pushedValues_snoc, List.mem_append]
    cases op with
    | push k0 w =>
      rw [pushedSinceDelete_snoc_push] at h
      split at h
      · rcases List.mem_append.mp h with h | h
        · exact Or.inl (ih h)
        · exact Or.inr h
      · exact Or.inl (ih h)
    | delete k0 =>
      rw [pushedSinceDelete_snoc_delete] at h
      split at h
      · simp at h
      · exact Or.inl (ih h)

/-- The identifier a `PushMap` works on differs from the identifier of any other
visible key, as long as fewer than 2^32 key identifiers have been minted when a
new one is needed. -/
theorem other_key_id_ne {om : RoarIndex K V} {n : Nat} (hK : KeyInv om n) {k0 k : K}
    {kid : Nat} (hne : k ≠ k0) (hk : mapGet om.keyToID k = some kid)
    (hn : mapGet om.keyToID k0 = none → n < uint32Size) :
    kid ≠ (mapGet om.keyToID k0).getD om.nextKeyID := by
  cases h0 : mapGet om.keyToID k0 with
  | none =>
    rw [Option.getD_none, hK.next, Nat.mod_eq_of_lt (hn h0)]
    exact Nat.ne_of_lt (hK.bound k kid hk)
  | some j =>
    rw [Option.getD_some]
    intro e
    subst e
    exact hne (keyInv_inj hK hk h0)

theorem posting_run (ops : List (Op K V)) (hk : keyMints ops ≤ uint32Size) (k : K) :
    (mapGet (run ops).keyToID k = none → pushedSinceDelete ops k = []) ∧
    (∀ kid, mapGet (run ops).keyToID k = some kid →
      ∃ bm, mapGet (run ops).data kid = some bm ∧
        ∀ x, x ∈ bm ↔ ∃ v ∈ pushedSinceDelete ops k, mapGet (run ops).valueToID v = some x) := by
  induction ops using List.reverseRecOn generalizing k with
  | nil =>
    simp [run, NewRoarIndex, mapGet, pushedSinceDelete, pushedSinceDeleteRev]
  | append_singleton ops op ih =>
    have h0 : keyMints ops ≤ uint32Size := le_trans (keyMints_le_snoc ops op) hk
    have hK := keyInv_run ops h0
    have hD := dataInv_run ops
    have ih' := ih h0
    rw [run_snoc]
    cases op with
    | push k0 v =>
      have hfresh : mapGet (run ops).keyToID k0 = none → keyMints ops < uint32Size := by
        intro hnone
        have hm : mintsKey (run ops) (Op.push k0 v) = true := by simp [mintsKey, hnone]
        rw [keyMints_snoc, hm] at hk
        simp only [if_true] at hk
        omega
      have hstable : ∀ w, w ∈ pushedValues ops → ∀ x,
          (mapGet (PushMap (run ops) k0 v).valueToID w = some x ↔
            mapGet (run ops).valueToID w = some x) := by
        intro w hw x
        obtain ⟨y, hy⟩ := (interned_iff_pushed ops w).mpr hw
        rw [PushMap_valueToID_stable _ k0 v hy, hy]
      simp only [applyOp]
      rw [pushedSinceDelete_snoc_push]
      by_cases hkk : k0 = k
      · subst hkk
        rw [if_pos rfl]
        refine ⟨?_, ?_⟩
        · intro hnone
          simp [PushMap_keyToID] at hnone
        · intro kid hkid
          simp only [PushMap_keyToID, if_true, Option.some.injEq] at hkid
          subst hkid
          refine ⟨Bitmap.add ((mapGet (run ops).data
              ((mapGet (run ops).keyToID k0).getD (run ops).nextKeyID)).getD NewBitmap)
              ((mapGet (run ops).valueToID v).getD (run ops).nextValueID),
            by simp [PushMap_data], ?_⟩
          intro x
          rw [Bitmap.mem_add]
          have hold : x ∈ (mapGet (run ops).data
                ((mapGet (run ops).keyToID k0).getD (run ops).nextKeyID)).getD NewBitmap ↔
              ∃ w ∈ pushedSinceDelete ops k0,
                mapGet (PushMap (run ops) k0 v).valueToID w = some x := by
            cases hc : mapGet (run ops).keyToID k0 with
            | none =>
              rw [Option.getD_none, fresh_key_no_data hK hD (hfresh hc), (ih' k0).1 hc]
              simp [NewBitmap]
            | some j =>
              obtain ⟨bm, hbm, hmem⟩ := (ih' k0).2 j hc
              rw [Option.getD_some, hbm, Option.getD_some, hmem]
              constructor
              · rintro ⟨w, hw, hx⟩
                exact ⟨w, hw,
                  (hstable w (pushedSinceDelete_subset ops k0 w hw) x).mpr hx⟩
              · rintro ⟨w, hw, hx⟩
                exact ⟨w, hw,
                  (hstable w (pushedSinceDelete_subset ops k0 w hw) x).mp hx⟩
          rw [hold]
          constructor
          · rintro (rfl | ⟨w, hw, hx⟩)
            · exact ⟨v, by simp, by simp [PushMap_valueToID]⟩
            · exact ⟨w, List.mem_append_left _ hw, hx⟩
          · rintro ⟨w, hw, hx⟩
            rcases List.mem_append.mp hw with hw | hw
            · exact Or.inr ⟨w, hw, hx⟩
            · left
              rw [List.mem_singleton] at hw
              subst hw
              simp only [PushMap_valueToID, if_true, Option.some.injEq] at hx
              exact hx.symm
      · rw [if_neg hkk]
        have hkk' : ¬ k = k0 := fun e => hkk e.symm
        simp only [PushMap_keyToID, hkk', if_false]
        refine ⟨(ih' k).1, ?_⟩
        intro kid hkid
        obtain ⟨bm, hbm, hmem⟩ := (ih' k).2 kid hkid
        have hne := other_key_id_ne hK hkk' hkid hfresh
        refine ⟨bm, by rw [PushMap_data, if_neg hne]; exact hbm, ?_⟩
        intro x
        rw [hmem]
        constructor
        · rintro ⟨w, hw, hx⟩
          exact ⟨w, hw, (hstable w (pushedSinceDelete_subset ops k w hw) x).mpr hx⟩
        · rintro ⟨w, hw, hx⟩
          exact ⟨w, hw, (hstable w (pushedSinceDelete_subset ops k w hw) x).mp hx⟩
    | delete k0 =>
      simp only [applyOp]
      rw [pushedSinceDelete_snoc_delete]
      by_cases hkk : k0 = k
      · subst hkk
        simp [DeleteMap_keyToID]
      · rw [if_neg hkk]
        have hkk' : ¬ k = k0 := fun e => hkk e.symm
        simp only [DeleteMap_keyToID, hkk', if_false, (DeleteMap_values _ k0).1]
        refine ⟨(ih' k).1, ?_⟩
        intro kid hkid
        obtain ⟨bm, hbm, hmem⟩ := (ih' k).2 kid hkid
        have hne : mapGet (run ops).keyToID k0 ≠ some kid := fun e =>
          hkk' (keyInv_inj hK hkid e)
        exact ⟨bm, by rw [DeleteMap_data, if_neg hne]; exact hbm, hmem⟩

/-! ## Refinement of the plain multimap -/

/-- C2 (amended): for a history that minted at most 2^32 key identifiers and at
most 2^32 value identifiers, and a key `k` whose most recent call is a `PushMap`,
`GetMap(k)` returns no error and its values are, as a set, exactly the values
pushed under `k` after the last `DeleteMap(k)`. -/
theorem getMap_refines_multimap (ops : List (Op K V)) (k : K)
    (hk : keyMints ops ≤ uint32Size) (hv : valueMints ops ≤ uint32Size)
    (hlast : lastCallIsPush ops k = true) :
    (GetMap (run ops) k).2 = none ∧
    ∀ v, v ∈ (GetMap (run ops) k).1 ↔ v ∈ pushedSinceDelete ops k := by
  have hV := valueInv_run ops hv
  obtain ⟨kid, hkid⟩ := (visible_iff_lastCallIsPush ops k).mpr hlast
  obtain ⟨bm, hbm, hmem⟩ := (posting_run ops hk k).2 kid hkid
  refine ⟨(GetMap_ok_iff _ _).mpr ⟨kid, hkid⟩, ?_⟩
  intro v
  rw [mem_GetMap]
  constructor
  · rintro ⟨i, b, x, h1, h2, h3, h4⟩
    rw [hkid] at h1
    cases h1
    rw [hbm] at h2
    cases h2
    obtain ⟨w, hw, hx⟩ := (hmem x).mp h3
    have : v = w := valueInv_inj hV ((hV.inv v x).mp h4) hx
    rw [this]
    exact hw
  · intro hvin
    obtain ⟨x, hx⟩ := (interned_iff_pushed ops v).mpr (pushedSinceDelete_subset ops k v hvin)
    exact ⟨kid, bm, x, hkid, hbm, (hmem x).mpr ⟨v, hvin, hx⟩, (hV.inv v x).mpr hx⟩

/-- C2 (amended), instance: a key deleted and pushed again. -/
theorem getMap_refines_multimap_witness :
    (GetMap (run [Op.push 1 10, Op.delete 1, Op.push 1 11, Op.push 2 10]) 1).2 = none ∧
    ∀ v, v ∈ (GetMap (run [Op.push 1 10, Op.delete 1, Op.push 1 11, Op.push 2 10]) 1).1 ↔
      v ∈ pushedSinceDelete [Op.push 1 10, Op.delete 1, Op.push 1 11, Op.push 2 10] 1 :=
  getMap_refines_multimap [Op.push 1 10, Op.delete 1, Op.push 1 11, Op.push 2 10] 1
    (by decide) (by decide) (by decide)

/-! ## Isolation across keys on insert -/

/-- C8 (amended): in a reachable state with fewer than 2^32 key identifiers and
fewer than 2^32 value identifiers minted, `PushMap(k1, v)` leaves every other key
`k2` untouched: `HasValue(k2, w)` is unchanged for every `w` and `GetMap(k2)`
returns the same list and the same error. -/
theorem pushMap_isolates_other_keys (ops : List (Op K V)) (k1 k2 : K) (v w : V)
    (hne : k1 ≠ k2) (hk : keyMints ops < uint32Size) (hv : valueMints ops < uint32Size) :
    HasValue (PushMap (run ops) k1 v) k2 w = HasValue (run ops) k2 w ∧
    GetMap (PushMap (run ops) k1 v) k2 = GetMap (run ops) k2 := by
  have hK := keyInv_run ops (le_of_lt hk)
  have hV := valueInv_run ops (le_of_lt hv)
  have hD := dataInv_run ops
  have hne' : ¬ k2 = k1 := fun e => hne e.symm
  have hkey : mapGet (PushMap (run ops) k1 v).keyToID k2 = mapGet (run ops).keyToID k2 := by
    rw [PushMap_keyToID, if_neg hne']
  have hnext : (run ops).nextValueID = valueMints ops := by
    rw [hV.next, Nat.mod_eq_of_lt hv]
  cases hc : mapGet (run ops).keyToID k2 with
  | none =>
    simp [HasValue, GetMap, hkey, hc]
  | some kid =>
    have hkid := other_key_id_ne hK hne' hc (fun _ => hk)
    have hdat : mapGet (PushMap (run ops) k1 v).data kid = mapGet (run ops).data kid := by
      rw [PushMap_data, if_neg hkid]
    have hlt : ∀ bm x, mapGet (run ops).data kid = some bm → x ∈ bm →
        x < (run ops).nextValueID := by
      intro bm x hb hx
      obtain ⟨v0, hv0⟩ := hD.interned kid bm x hb hx
      rw [hnext]
      exact hV.bound v0 x hv0
    refine ⟨?_, ?_⟩
    · cases hw : mapGet (run ops).valueToID w with
      | some x =>
        simp [HasValue, hkey, hc, hdat, hw, PushMap_valueToID_stable _ k1 v hw]
      | none =>
        have hold : HasValue (run ops) k2 w = false := by simp [HasValue, hc, hw]
        rw [hold]
        by_cases hwv : w = v
        · subst hwv
          cases hb : mapGet (run ops).data kid with
          | none => simp [HasValue, hkey, hc, hdat, hb, PushMap_valueToID]
          | some bm =>
            have hnot : (run ops).nextValueID ∉ bm := fun hx =>
              absurd (hlt bm _ hb hx) (lt_irrefl _)
            simp [HasValue, hkey, hc, hdat, hb, PushMap_valueToID, hw, Bitmap.contains, hnot]
        · simp [HasValue, hkey, hc, PushMap_valueToID, hwv, hw]
    · cases hb : mapGet (run ops).data kid with
      | none => simp [GetMap, hkey, hc, hdat, hb]
      | some bm =>
        simp only [GetMap, hkey, hc, hdat, hb, Bitmap.iterator]
        congr 1
        apply List.filterMap_congr
        intro x hx
        rw [PushMap_idToValue]
        have := hlt bm x hb hx
        rw [if_neg]
        rintro ⟨_, e⟩
        omega

/-- C8 (amended), instance: a value shared by two keys, pushed under a third. -/
theorem pushMap_isolates_other_keys_witness :
    HasValue (PushMap (run [Op.push 1 10, Op.push 2 11]) 1 11) 2 10 =
      HasValue (run [Op.push 1 10, Op.push 2 11]) 2 10 ∧
    GetMap (PushMap (run [Op.push 1 10, Op.push 2 11]) 1 11) 2 =
      GetMap (run [Op.push 1 10, Op.push 2 11]) 2 :=
  pushMap_isolates_other_keys [Op.push 1 10, Op.push 2 11] 1 2 11 10
    (by decide) (by decide) (by decide)

/-! ## Idempotent insertion -/

theorem addToBitmap_eq (om : RoarIndex K V) (i x : Nat) :
    addToBitmap om i x =
      { om with data := mapSet om.data i (Bitmap.add ((mapGet om.data i).getD NewBitmap) x) } := by
  unfold addToBitmap
  cases h : mapGet om.data i <;> simp

theorem assignKeyID_hit (om : RoarIndex K V) (k : K) (i : Nat)
    (h : mapGet om.keyToID k = some i) : assignKeyID om k = (i, om) := by
  simp [assignKeyID, h]

theorem assignValueID_hit (om : RoarIndex K V) (v : V) (x : Nat)
    (h : mapGet om.valueToID v = some x) : assignValueID om v = (x, om) := by
  simp [assignValueID, h]

theorem PushMap_of_interned (om : RoarIndex K V) (k : K) (v : V) (i x : Nat)
    (h1 : mapGet om.keyToID k = some i) (h2 : mapGet om.valueToID v = some x) :
    PushMap om k v = addToBitmap om i x := by
  unfold PushMap
  rw [assignKeyID_hit om k i h1]
  simp only
  rw [assignValueID_hit om v x h2]

theorem PushMap_idem (om : RoarIndex K V) (k : K) (v : V) :
    PushMap (PushMap om k v) k v = PushMap om k v := by
  have hkid : mapGet (PushMap om k v).keyToID k = some (assignKeyID om k).1 := by
    unfold PushMap
    simp only [(addToBitmap_fields _ _ _).1, (assignValueID_keys _ _).1, assignKeyID_keyToID,
      if_true]
  have hvid : mapGet (PushMap om k v).valueToID v =
      some (assignValueID (assignKeyID om k).2 v).1 := by
    unfold PushMap
    simp only [(addToBitmap_fields _ _ _).2.2.2.1, assignValueID_valueToID, if_true]
  rw [PushMap_of_interned _ k v _ _ hkid hvid, addToBitmap_eq]
  have hs1 : PushMap om k v = addToBitmap (assignValueID (assignKeyID om k).2 v).2
      (assignKeyID om k).1 (assignValueID (assignKeyID om k).2 v).1 := rfl
  have hdata : (PushMap om k v).data =
      mapSet (assignValueID (assignKeyID om k).2 v).2.data (assignKeyID om k).1
        (Bitmap.add ((mapGet (assignValueID (assignKeyID om k).2 v).2.data
          (assignKeyID om k).1).getD NewBitmap) (assignValueID (assignKeyID om k).2 v).1) := by
    rw [hs1, addToBitmap_eq]
  have hB : mapGet (PushMap om k v).data (assignKeyID om k).1 =
      some (Bitmap.add ((mapGet (assignValueID (assignKeyID om k).2 v).2.data
          (assignKeyID om k).1).getD NewBitmap) (assignValueID (assignKeyID om k).2 v).1) := by
    rw [hdata, mapGet_mapSet_self]
  rw [hB, Option.getD_some, Bitmap.add_add]
  have hfix : mapSet (PushMap om k v).data (assignKeyID om k).1
      (Bitmap.add ((mapGet (assignValueID (assignKeyID om k).2 v).2.data
          (assignKeyID om k).1).getD NewBitmap) (assignValueID (assignKeyID om k).2 v).1) =
      (PushMap om k v).data := by
    rw [hdata, mapSet_mapSet_self]
  rw [hfix]

theorem pushTimes_succ (om : RoarIndex K V) (k : K) (v : V) (n : Nat) :
    pushTimes om k v (n + 1) = PushMap om k v := by
  induction n with
  | zero => rfl
  | succ n ih =>
    show PushMap (pushTimes om k v (n + 1)) k v = PushMap om k v
    rw [ih, PushMap_idem]

/-- C5 (amended): in a reachable state, `PushMap(k, v)` applied twice gives
exactly the state of a single application, so `N >= 1` repeated pushes give the
state, and hence the `GetMap(k)`, `Values()` and `Count()`, of one push; and when
fewer than 2^32 value identifiers have been minted, `GetMap(k)` then contains `v`
exactly once. -/
theorem pushMap_idempotent (ops : List (Op K V)) (k : K) (v : V) (N : Nat) (hN : 1 ≤ N) :
    PushMap (PushMap (run ops) k v) k v = PushMap (run ops) k v ∧
    pushTimes (run ops) k v N = PushMap (run ops) k v ∧
    GetMap (pushTimes (run ops) k v N) k = GetMap (PushMap (run ops) k v) k ∧
    Values (pushTimes (run ops) k v N) = Values (PushMap (run ops) k v) ∧
    Count (pushTimes (run ops) k v N) = Count (PushMap (run ops) k v) ∧
    (valueMints ops < uint32Size → (GetMap (PushMap (run ops) k v) k).1.count v = 1) := by
  have hN' : pushTimes (run ops) k v N = PushMap (run ops) k v := by
    obtain ⟨n, rfl⟩ : ∃ n, N = n + 1 := ⟨N - 1, by omega⟩
    exact pushTimes_succ _ k v n
  refine ⟨PushMap_idem _ k v, hN', by rw [hN'], by rw [hN'], by rw [hN'], ?_⟩
  intro hv
  have hV' := valueInv_push ops k v hv
  have hD' : DataInv (PushMap (run ops) k v) := by
    have := dataInv_run (ops ++ [Op.push k v])
    rwa [run_snoc] at this
  have hkey : mapGet (PushMap (run ops) k v).keyToID k =
      some ((mapGet (run ops).keyToID k).getD (run ops).nextKeyID) := by
    simp [PushMap_keyToID]
  have hval : mapGet (PushMap (run ops) k v).valueToID v =
      some ((mapGet (run ops).valueToID v).getD (run ops).nextValueID) := by
    simp [PushMap_valueToID]
  have hdat : mapGet (PushMap (run ops) k v).data
      ((mapGet (run ops).keyToID k).getD (run ops).nextKeyID) =
      some (Bitmap.add
          ((mapGet (run ops).data
            ((mapGet (run ops).keyToID k).getD (run ops).nextKeyID)).getD NewBitmap)
          ((mapGet (run ops).valueToID v).getD (run ops).nextValueID)) := by
    simp [PushMap_data]
  have hmem : v ∈ (GetMap (PushMap (run ops) k v) k).1 := by
    rw [mem_GetMap]
    exact ⟨_, _, _, hkey, hdat, (Bitmap.mem_add _ _ _).mpr (Or.inl rfl),
      (hV'.inv v _).mpr hval⟩
  have hnd : (GetMap (PushMap (run ops) k v) k).1.Nodup := by
    simp only [GetMap, hkey, hdat, Bitmap.iterator]
    refine List.Pairwise.filterMap _ ?_ (hD'.sorted _ _ hdat)
    intro x y hxy a ha b hb hab
    subst hab
    have h1 := (hV'.inv a x).mp ha
    have h2 := (hV'.inv a y).mp hb
    rw [h1] at h2
    have := Option.some.inj h2
    omega
  exact List.count_eq_one_of_mem hnd hmem

/-- C5 (amended), instance: three pushes of one pair. -/
theorem pushMap_idempotent_witness :
    pushTimes (run [Op.push 1 10]) 1 42 3 = PushMap (run [Op.push 1 10]) 1 42 ∧
    (GetMap (PushMap (run [Op.push 1 10]) 1 42) 1).1.count 42 = 1 :=
  ⟨(pushMap_idempotent [Op.push 1 10] 1 42 3 (by decide)).2.1,
    (pushMap_idempotent [Op.push 1 10] 1 42 3 (by decide)).2.2.2.2.2 (by decide)⟩

/-! ## After the value counter has wrapped -/

theorem uint32Size_pos : 0 < uint32Size := by
  unfold uint32Size
  norm_num

theorem fillHistory_succ (n : Nat) :
    fillHistory (n + 1) = fillHistory n ++ [Op.push 0 n] := by
  unfold fillHistory
  rw [List.range_succ, List.map_append]
  rfl

theorem pushedValues_fill (n : Nat) : pushedValues (fillHistory n) = List.range n := by
  induction n with
  | zero => rfl
  | succ n ih => rw [fillHistory_succ, pushedValues_snoc, ih, List.range_succ]

theorem pushedSinceDelete_fill (n : Nat) :
    pushedSinceDelete (fillHistory n) 0 = List.range n := by
  induction n with
  | zero => rfl
  | succ n ih =>
    rw [fillHistory_succ, pushedSinceDelete_snoc_push, if_pos rfl, ih, List.range_succ]

theorem valueMints_fill (n : Nat) : valueMints (fillHistory n) = n := by
  rw [valueMints_eq_distinct]
  unfold distinctValues
  rw [pushedValues_fill, (List.nodup_range n).dedup, List.length_range]

theorem valueInv_fill : ValueInv (run (fillHistory uint32Size)) uint32Size := by
  have h := valueInv_run (fillHistory uint32Size) (le_of_eq (valueMints_fill _))
  rwa [valueMints_fill] at h

theorem HasValue_PushMap_mono (om : RoarIndex K V) (k k' : K) (v v' : V)
    (h : HasValue om k v = true) : HasValue (PushMap om k' v') k v = true := by
  rw [HasValue_iff] at h ⊢
  obtain ⟨i, x, bm, h1, h2, h3, h4⟩ := h
  by_cases e : i = (mapGet om.keyToID k').getD om.nextKeyID
  · refine ⟨i, x, Bitmap.add bm ((mapGet om.valueToID v').getD om.nextValueID),
      PushMap_keyToID_stable om k' v' h1, PushMap_valueToID_stable om k' v' h2, ?_,
      (Bitmap.mem_add _ _ _).mpr (Or.inr h4)⟩
    rw [PushMap_data, if_pos e, ← e, h3, Option.getD_some]
  · refine ⟨i, x, bm, PushMap_keyToID_stable om k' v' h1,
      PushMap_valueToID_stable om k' v' h2, ?_, h4⟩
    rw [PushMap_data, if_neg e]
    exact h3

theorem zero_interned_fill (n : Nat) (hn : 0 < n) :
    mapGet (run (fillHistory n)).valueToID 0 = some 0 := by
  induction n with
  | zero => exact absurd hn (lt_irrefl _)
  | succ n ih =>
    by_cases h0 : n = 0
    · subst h0
      decide
    · rw [fillHistory_succ, run_snoc]
      exact PushMap_valueToID_stable _ 0 n (ih (Nat.pos_of_ne_zero h0))

theorem hasValue_fill (n : Nat) (hn : 0 < n) :
    HasValue (run (fillHistory n)) 0 0 = true := by
  induction n with
  | zero => exact absurd hn (lt_irrefl _)
  | succ n ih =>
    by_cases h0 : n = 0
    · subst h0
      decide
    · rw [fillHistory_succ, run_snoc]
      exact HasValue_PushMap_mono _ 0 0 0 n (ih (Nat.pos_of_ne_zero h0))

theorem unseen_after_fill :
    mapGet (run (fillHistory uint32Size)).valueToID uint32Size = none := by
  cases h : mapGet (run (fillHistory uint32Size)).valueToID uint32Size with
  | none => rfl
  | some i =>
    have := (interned_iff_pushed (fillHistory uint32Size) uint32Size).mp ⟨i, h⟩
    rw [pushedValues_fill, List.mem_range] at this
    exact absurd this (lt_irrefl _)

theorem nextValueID_after_fill : (run (fillHistory uint32Size)).nextValueID = 0 := by
  rw [valueInv_fill.next, Nat.mod_self]

theorem run_wrapHistory :
    run wrapHistory = PushMap (run (fillHistory uint32Size)) 1 uint32Size := by
  unfold wrapHistory
  rw [run_snoc]
  rfl

/-- Once identifier 0 has been handed out a second time, no identifier maps back
to the value `0` that owned it first. -/
theorem zero_lost_after_wrap (x : Nat) : mapGet (run wrapHistory).idToValue x ≠ some 0 := by
  rw [run_wrapHistory, PushMap_idToValue, nextValueID_after_fill]
  by_cases hx : x = 0
  · subst hx
    rw [if_pos ⟨unseen_after_fill, rfl⟩]
    intro e
    exact absurd (Option.some.inj e) (Nat.pos_iff_ne_zero.mp uint32Size_pos)
  · rw [if_neg (fun h => hx h.2)]
    intro e
    have h1 := (valueInv_fill.inv 0 x).mp e
    rw [zero_interned_fill uint32Size uint32Size_pos] at h1
    exact hx (Option.some.inj h1).symm

/-- C2, counterexample: after the 2^32 values `0 .. 2^32 - 1` have been pushed
under key `0` and one more unseen value under key `1`, the last call about key
`0` is a `PushMap` and value `0` was pushed under it and never deleted, yet
`GetMap(0)` does not return it. -/
theorem getMap_refines_multimap_fails_after_wrap :
    lastCallIsPush wrapHistory 0 = true ∧
    0 ∈ pushedSinceDelete wrapHistory 0 ∧
    0 ∉ (GetMap (run wrapHistory) 0).1 := by
  refine ⟨?_, ?_, ?_⟩
  · rw [← visible_iff_lastCallIsPush, run_wrapHistory]
    obtain ⟨i, x, bm, h1, _⟩ :=
      (HasValue_iff _ 0 0).mp (hasValue_fill uint32Size uint32Size_pos)
    exact ⟨i, PushMap_keyToID_stable _ 1 uint32Size h1⟩
  · unfold wrapHistory
    rw [pushedSinceDelete_snoc_push, if_neg (by decide), pushedSinceDelete_fill, List.mem_range]
    exact uint32Size_pos
  · rw [mem_GetMap]
    rintro ⟨i, bm, x, _, _, _, h⟩
    exact zero_lost_after_wrap x h

/-- C5, counterexample: in the state reached by `wrapHistory`, after
`PushMap(0, 0)` the list returned by `GetMap(0)` does not contain the value `0`
at all. -/
theorem pushMap_idempotent_fails_after_wrap :
    (GetMap (PushMap (run wrapHistory) 0 0) 0).1.count 0 = 0 := by
  rw [List.count_eq_zero, mem_GetMap]
  rintro ⟨i, bm, x, _, _, _, h⟩
  have hz : mapGet (run wrapHistory).valueToID 0 = some 0 := by
    rw [run_wrapHistory]
    exact PushMap_valueToID_stable _ 1 uint32Size (zero_interned_fill uint32Size uint32Size_pos)
  rw [PushMap_idToValue, if_neg (fun h => by rw [hz] at h; cases h.1)] at h
  exact zero_lost_after_wrap x h

/-- C8, counterexample: once the 2^32 values `0 .. 2^32 - 1` have been pushed
under key `0`, pushing the unseen value `2^32` under key `1` makes
`HasValue(0, 2^32)` true although it was false before. -/
theorem pushMap_isolation_fails_after_wrap :
    HasValue (run (fillHistory uint32Size)) 0 uint32Size = false ∧
    HasValue (PushMap (run (fillHistory uint32Size)) 1 uint32Size) 0 uint32Size = true := by
  refine ⟨?_, ?_⟩
  · cases h : HasValue (run (fillHistory uint32Size)) 0 uint32Size with
    | false => rfl
    | true =>
      obtain ⟨i, x, bm, _, h2, _⟩ := (HasValue_iff _ _ _).mp h
      rw [unseen_after_fill] at h2
      cases h2
  · obtain ⟨i, x, bm, h1, h2, h3, h4⟩ :=
      (HasValue_iff _ 0 0).mp (hasValue_fill uint32Size uint32Size_pos)
    rw [zero_interned_fill uint32Size uint32Size_pos] at h2
    cases h2
    rw [HasValue_iff]
    have hval : mapGet (PushMap (run (fillHistory uint32Size)) 1 uint32Size).valueToID
        uint32Size = some 0 := by
      rw [PushMap_valueToID, if_pos rfl, unseen_after_fill, Option.getD_none,
        nextValueID_after_fill]
    by_cases e : i = (mapGet (run (fillHistory uint32Size)).keyToID 1).getD
        (run (fillHistory uint32Size)).nextKeyID
    · refine ⟨i, 0, Bitmap.add bm 0, PushMap_keyToID_stable _ 1 uint32Size h1, hval, ?_,
        (Bitmap.mem_add bm 0 0).mpr (Or.inl rfl)⟩
      rw [PushMap_data, if_pos e, ← e, h3, Option.getD_some, unseen_after_fill,
        Option.getD_none, nextValueID_after_fill]
    · refine ⟨i, 0, bm, PushMap_keyToID_stable _ 1 uint32Size h1, hval, ?_, h4⟩
      rw [PushMap_data, if_neg e]
      exact h3

/-! ## Keys, values and count -/

theorem mem_mapKeys_iff {α β : Type} [DecidableEq α] (m : List (α × β)) (x : α) :
    x ∈ mapKeys m ↔ ∃ y, mapGet m x = some y := by
  constructor
  · intro h
    cases hg : mapGet m x with
    | none => exact absurd h ((mapGet_eq_none_iff m x).mp hg)
    | some y => exact ⟨y, rfl⟩
  · rintro ⟨y, hy⟩
    by_contra hmem
    rw [(mapGet_eq_none_iff m x).mpr hmem] at hy
    cases hy

theorem mem_keys_of_lastCallIsPush (ops : List (Op K V)) (k : K)
    (h : lastCallIsPush ops k = true) : k ∈ ops.map Op.key := by
  unfold lastCallIsPush at h
  cases hl : lastCall ops k with
  | none => simp [hl] at h
  | some op =>
    unfold lastCall at hl
    have hmem := List.mem_of_find?_eq_some hl
    have hkey := List.find?_some hl
    rw [List.mem_reverse] at hmem
    rw [List.mem_map]
    exact ⟨op, hmem, by simpa using hkey⟩

theorem mem_visibleKeys (ops : List (Op K V)) (k : K) :
    k ∈ visibleKeys ops ↔ lastCallIsPush ops k = true := by
  unfold visibleKeys
  rw [List.mem_filter, List.mem_dedup]
  constructor
  · exact fun h => h.2
  · exact fun h => ⟨mem_keys_of_lastCallIsPush ops k h, h⟩

theorem mem_pushedValues_iff_push (ops : List (Op K V)) (v : V) :
    v ∈ pushedValues ops ↔ ∃ k, Op.push k v ∈ ops := by
  rw [mem_pushedValues]
  constructor
  · rintro ⟨op, hop, h⟩
    cases op with
    | push k w =>
      simp only [Op.carries, decide_eq_true_eq] at h
      subst h
      exact ⟨k, hop⟩
    | delete k => simp [Op.carries] at h
  · rintro ⟨k, hk⟩
    exact ⟨Op.push k v, hk, by simp [Op.carries]⟩

/-- C12: after any history, `Count()` is the length of `Keys()` and the number
of distinct keys whose most recent `PushMap`/`DeleteMap` call is a `PushMap`. -/
theorem count_is_number_of_visible_keys (ops : List (Op K V)) :
    Count (run ops) = (Keys (run ops)).length ∧
    Count (run ops) = (visibleKeys ops).length := by
  have h1 : Count (run ops) = (Keys (run ops)).length := by
    simp [Count, Keys, mapKeys]
  refine ⟨h1, ?_⟩
  rw [h1]
  apply List.Perm.length_eq
  refine (List.perm_ext_iff_of_nodup (nodup_keys_run ops)
    ((List.nodup_dedup _).filter _)).mpr ?_
  intro k
  show k ∈ mapKeys (run ops).keyToID ↔ k ∈ visibleKeys ops
  rw [mem_visibleKeys, mem_mapKeys_iff, visible_iff_lastCallIsPush]

/-- C14: on a reachable state `Keys()` has no duplicates and contains `k` exactly
when `GetMap(k)` does not return `ErrKeyNotFound`, which is exactly when `k` was
pushed and not deleted since. -/
theorem keys_are_the_visible_keys (ops : List (Op K V)) (k : K) :
    (Keys (run ops)).Nodup ∧
    (k ∈ Keys (run ops) ↔ (GetMap (run ops) k).2 ≠ some Error.ErrKeyNotFound) ∧
    (k ∈ Keys (run ops) ↔ lastCallIsPush ops k = true) := by
  refine ⟨nodup_keys_run ops, ?_, ?_⟩
  · rw [Ne, GetMap_err_iff, mapGet_eq_none_iff]
    exact not_not.symm
  · show k ∈ mapKeys (run ops).keyToID ↔ _
    rw [mem_mapKeys_iff, visible_iff_lastCallIsPush]

/-- C15: after any history `Values()` has no duplicates and contains `v` exactly
when some `PushMap(_, v)` call occurs in the history, whatever was deleted
afterwards. -/
theorem values_are_all_pushed_values (ops : List (Op K V)) (v : V) :
    (Values (run ops)).Nodup ∧
    (v ∈ Values (run ops) ↔ ∃ k, Op.push k v ∈ ops) := by
  refine ⟨nodup_values_run ops, ?_⟩
  show v ∈ mapKeys (run ops).valueToID ↔ _
  rw [mem_values_iff, mem_pushedValues_iff_push]

/-- C17: after `PushMap(b, y); PushMap(a, x); PushMap(a, y)` the call
`GetMap(a)` returns `[y, x]`, although under `a` the value `x` was pushed before
`y`. -/
theorem getMap_order_is_not_per_key :
    GetMap (run [Op.push "b" "y", Op.push "a" "x", Op.push "a" "y"]) "a" =
      (["y", "x"], none) ∧
    pushedSinceDelete [Op.push "b" "y", Op.push "a" "x", Op.push "a" "y"] "a" =
      ["x", "y"] := by
  decide

/-! ## The count formula -/

theorem effectiveDeletesFrom_snoc (om : RoarIndex K V) (ops : List (Op K V)) (op : Op K V) :
    effectiveDeletesFrom om (ops ++ [op]) =
      effectiveDeletesFrom om ops +
        (if removesKey (ops.foldl applyOp om) op then 1 else 0) := by
  induction ops generalizing om with
  | nil => simp [effectiveDeletesFrom]
  | cons o ops ih =>
    rw [List.cons_append, effectiveDeletesFrom, effectiveDeletesFrom, ih, List.foldl_cons]
    omega

theorem effectiveDeletes_snoc (ops : List (Op K V)) (op : Op K V) :
    effectiveDeletes (ops ++ [op]) =
      effectiveDeletes ops + (if removesKey (run ops) op then 1 else 0) :=
  effectiveDeletesFrom_snoc NewRoarIndex ops op

theorem count_balance (ops : List (Op K V)) :
    Count (run ops) + effectiveDeletes ops = keyMints ops := by
  induction ops using List.reverseRecOn with
  | nil => simp [Count, run, NewRoarIndex, effectiveDeletes, effectiveDeletesFrom, keyMints,
      keyMintsFrom]
  | append_singleton ops op ih =>
    rw [run_snoc, effectiveDeletes_snoc, keyMints_snoc]
    cases op with
    | push k v =>
      simp only [applyOp, Count, PushMap_keyToID_list, removesKey, mintsKey]
      unfold Count at ih
      by_cases h : mapGet (run ops).keyToID k = none
      · have hb : (mapGet (run ops).keyToID k).isNone = true := by rw [h]; rfl
        rw [if_pos h, mapSet_of_none _ _ _ h]
        simp only [hb, if_true, List.length_append, List.length_singleton,
          Bool.false_eq_true, if_false]
        omega
      · obtain ⟨i, hi⟩ := Option.ne_none_iff_exists'.mp h
        have hb : (mapGet (run ops).keyToID k).isNone = false := by rw [hi]; rfl
        rw [if_neg h]
        simp only [hb, Bool.false_eq_true, if_false]
        omega
    | delete k =>
      simp only [applyOp, Count, DeleteMap_keyToID_list, removesKey, mintsKey]
      unfold Count at ih
      rw [length_mapDelete _ k (nodup_keys_run ops)]
      by_cases h : mapGet (run ops).keyToID k = none
      · have hmem : k ∉ mapKeys (run ops).keyToID := (mapGet_eq_none_iff _ _).mp h
        have hb : (mapGet (run ops).keyToID k).isSome = false := by rw [h]; rfl
        rw [if_neg hmem]
        simp only [hb, Bool.false_eq_true, if_false]
        omega
      · obtain ⟨i, hi⟩ := Option.ne_none_iff_exists'.mp h
        have hmem : k ∈ mapKeys (run ops).keyToID := (mem_mapKeys_iff _ _).mpr ⟨i, hi⟩
        have hpos : 0 < (run ops).keyToID.length := by
          cases hl : (run ops).keyToID with
          | nil =>
            rw [hl] at hmem
            simp [mapKeys] at hmem
          | cons _ _ => simp
        have hb : (mapGet (run ops).keyToID k).isSome = true := by rw [hi]; rfl
        rw [if_pos hmem]
        simp only [hb, if_true, Bool.false_eq_true, if_false]
        omega

/-- C13 (amended): after any history, `Count()` equals the number of `PushMap`
calls made on a then-invisible key (the calls that minted a key identifier) minus
the number of `DeleteMap` calls that removed a then-visible key. -/
theorem count_formula (ops : List (Op K V)) :
    Count (run ops) = keyMints ops - effectiveDeletes ops ∧
    effectiveDeletes ops ≤ keyMints ops := by
  have := count_balance ops
  omega

/-- C13, counterexample: a key pushed, deleted and pushed again is counted once
among the distinct pushed keys and once among the effective deletes, yet it is
visible, so `Count()` is 1 and not 0. -/
theorem count_formula_fails_on_repush :
    Count (run [Op.push 1 10, Op.delete 1, Op.push 1 10]) = 1 ∧
    (distinctPushedKeys [Op.push 1 10, Op.delete 1, Op.push 1 10]).length -
      effectiveDeletes [Op.push 1 10, Op.delete 1, Op.push 1 10] = 0 := by
  decide

/-! ## Key identifiers are not recycled -/

theorem keyMints_le_append (ops1 ops2 : List (Op K V)) :
    keyMints ops1 ≤ keyMints (ops1 ++ ops2) := by
  induction ops2 using List.reverseRecOn with
  | nil => simp
  | append_singleton ops2 op ih =>
    rw [← List.append_assoc]
    exact le_trans ih (keyMints_le_snoc _ op)

/-- C18: in a reachable state with fewer than 2^32 key identifiers minted,
`PushMap(k, v)` on an invisible key `k` gives `k` an identifier different from
every identifier any key held at any earlier point of the history (the one `k`
held before a deletion included), and the posting set of that identifier holds
the identifier of `v` and nothing else. -/
theorem key_ids_never_recycled (ops1 ops2 : List (Op K V)) (k : K) (v : V)
    (hk : keyMints (ops1 ++ ops2) < uint32Size)
    (hinv : mapGet (run (ops1 ++ ops2)).keyToID k = none) :
    ∃ i x, mapGet (PushMap (run (ops1 ++ ops2)) k v).keyToID k = some i ∧
      (∀ k' j, mapGet (run ops1).keyToID k' = some j → j ≠ i) ∧
      mapGet (PushMap (run (ops1 ++ ops2)) k v).valueToID v = some x ∧
      mapGet (PushMap (run (ops1 ++ ops2)) k v).data i = some [x] := by
  have hK := keyInv_run (ops1 ++ ops2) (le_of_lt hk)
  have hD := dataInv_run (ops1 ++ ops2)
  have hle := keyMints_le_append ops1 ops2
  have hK1 := keyInv_run ops1 (le_trans hle (le_of_lt hk))
  have hnext : (run (ops1 ++ ops2)).nextKeyID = keyMints (ops1 ++ ops2) := by
    rw [hK.next, Nat.mod_eq_of_lt hk]
  refine ⟨(run (ops1 ++ ops2)).nextKeyID,
    (mapGet (run (ops1 ++ ops2)).valueToID v).getD (run (ops1 ++ ops2)).nextValueID,
    ?_, ?_, ?_, ?_⟩
  · simp [PushMap_keyToID, hinv]
  · intro k' j hj
    have := hK1.bound k' j hj
    rw [hnext]
    omega
  · simp [PushMap_valueToID]
  · rw [PushMap_data, hinv, Option.getD_none, if_pos rfl, fresh_key_no_data hK hD hk]
    rfl

/-- C18, instance: key `1` is deleted and pushed again. -/
theorem key_ids_never_recycled_witness :
    ∃ i x, mapGet (PushMap (run ([Op.push 1 10, Op.delete 1] ++ [Op.push 2 11])) 1 12).keyToID
        1 = some i ∧
      (∀ k' j, mapGet (run [Op.push 1 10, Op.delete 1]).keyToID k' = some j → j ≠ i) ∧
      mapGet (PushMap (run ([Op.push 1 10, Op.delete 1] ++ [Op.push 2 11])) 1 12).valueToID
        12 = some x ∧
      mapGet (PushMap (run ([Op.push 1 10, Op.delete 1] ++ [Op.push 2 11])) 1 12).data i =
        some [x] :=
  key_ids_never_recycled [Op.push 1 10, Op.delete 1] [Op.push 2 11] 1 12
    (by decide) (by decide)

/-! ## Visible keys own a value; deletes leave other keys alone -/

theorem idToValue_defined_run (ops : List (Op K V)) :
    ∀ v x, mapGet (run ops).valueToID v = some x → ∃ w, mapGet (run ops).idToValue x = some w := by
  induction ops using List.reverseRecOn with
  | nil =>
    intro v x h
    simp [run, NewRoarIndex, mapGet] at h
  | append_singleton ops op ih =>
    rw [run_snoc]
    cases op with
    | push k v0 =>
      intro v x h
      simp only [applyOp, PushMap_valueToID, PushMap_idToValue] at h ⊢
      by_cases hc : mapGet (run ops).valueToID v0 = none ∧ x = (run ops).nextValueID
      · exact ⟨v0, by rw [if_pos hc]⟩
      · rw [if_neg hc]
        by_cases hv : v = v0
        · subst hv
          rw [if_pos rfl] at h
          cases hg : mapGet (run ops).valueToID v with
          | none =>
            rw [hg, Option.getD_none] at h
            exact absurd ⟨hg, (Option.some.inj h).symm⟩ hc
          | some y =>
            rw [hg, Option.getD_some] at h
            rw [← Option.some.inj h]
            exact ih v y hg
        · rw [if_neg hv] at h
          exact ih v x h
    | delete k =>
      intro v x h
      simp only [applyOp, (DeleteMap_values _ k).1, (DeleteMap_values _ k).2.1] at h ⊢
      exact ih v x h

/-- C19 (amended): in a reachable state with at most 2^32 key identifiers
minted, whenever `GetMap(k)` returns no error the returned list is non-empty. -/
theorem visible_key_has_a_value (ops : List (Op K V)) (k : K)
    (hk : keyMints ops ≤ uint32Size) (hok : (GetMap (run ops) k).2 = none) :
    (GetMap (run ops) k).1 ≠ [] := by
  obtain ⟨kid, hkid⟩ := (GetMap_ok_iff _ _).mp hok
  obtain ⟨bm, hbm, _⟩ := (posting_run ops hk k).2 kid hkid
  have hD := dataInv_run ops
  have hne := hD.nonempty kid bm hbm
  obtain ⟨x, hx⟩ := List.exists_mem_of_ne_nil bm hne
  obtain ⟨v0, hv0⟩ := hD.interned kid bm x hbm hx
  obtain ⟨w, hw⟩ := idToValue_defined_run ops v0 x hv0
  have hmem : w ∈ (GetMap (run ops) k).1 :=
    (mem_GetMap _ _ _).mpr ⟨kid, bm, x, hkid, hbm, hx, hw⟩
  exact List.ne_nil_of_mem hmem

/-- C19 (amended), instance: a key that survives the deletion of another one. -/
theorem visible_key_has_a_value_witness :
    (GetMap (run [Op.push 1 10, Op.push 2 10, Op.delete 1]) 2).1 ≠ [] :=
  visible_key_has_a_value [Op.push 1 10, Op.push 2 10, Op.delete 1] 2
    (by decide) (by decide)

/-- C11 (amended): in a reachable state with at most 2^32 key identifiers
minted, `DeleteMap(k1)` leaves every other key `k2` untouched: `GetMap(k2)`
returns the same list and error and `HasValue(k2, v)` is unchanged for every
`v`, also when both keys hold the same values. -/
theorem deleteMap_isolates_other_keys (ops : List (Op K V)) (k1 k2 : K) (v : V)
    (hne : k1 ≠ k2) (hk : keyMints ops ≤ uint32Size) :
    GetMap (DeleteMap (run ops) k1) k2 = GetMap (run ops) k2 ∧
    HasValue (DeleteMap (run ops) k1) k2 v = HasValue (run ops) k2 v := by
  have hK := keyInv_run ops hk
  have hne' : ¬ k2 = k1 := fun e => hne e.symm
  have hkey : mapGet (DeleteMap (run ops) k1).keyToID k2 = mapGet (run ops).keyToID k2 := by
    rw [DeleteMap_keyToID, if_neg hne']
  have hvt := (DeleteMap_values (run ops) k1).1
  have hiv := (DeleteMap_values (run ops) k1).2.1
  cases hc : mapGet (run ops).keyToID k2 with
  | none => simp [GetMap, HasValue, hkey, hc]
  | some kid =>
    have hdat : mapGet (DeleteMap (run ops) k1).data kid = mapGet (run ops).data kid := by
      rw [DeleteMap_data, if_neg]
      intro e
      exact hne (keyInv_inj hK e hc)
    simp [GetMap, HasValue, hkey, hc, hdat, hvt, hiv]

/-- C11 (amended), instance: two keys holding the same value. -/
theorem deleteMap_isolates_other_keys_witness :
    GetMap (DeleteMap (run [Op.push 1 10, Op.push 2 10]) 1) 2 =
      GetMap (run [Op.push 1 10, Op.push 2 10]) 2 ∧
    HasValue (DeleteMap (run [Op.push 1 10, Op.push 2 10]) 1) 2 10 =
      HasValue (run [Op.push 1 10, Op.push 2 10]) 2 10 :=
  deleteMap_isolates_other_keys [Op.push 1 10, Op.push 2 10] 1 2 10 (by decide) (by decide)

/-! ## After the key counter has wrapped -/

theorem keyFillHistory_succ (n : Nat) :
    keyFillHistory (n + 1) = keyFillHistory n ++ [Op.push n 0] := by
  unfold keyFillHistory
  rw [List.range_succ, List.map_append]
  rfl

theorem unseen_key_keyFill (n m : Nat) (h : n ≤ m) :
    mapGet (run (keyFillHistory n)).keyToID m = none := by
  rw [invisible_iff]
  left
  unfold neverPushed keyFillHistory
  rw [List.all_eq_true]
  intro op hop
  obtain ⟨i, hi, rfl⟩ := List.mem_map.mp hop
  rw [List.mem_range] at hi
  simp only [ne_eq, decide_not, Bool.not_eq_eq_eq_not, Bool.not_true, decide_eq_false_iff_not]
  omega

theorem keyMints_keyFill (n : Nat) : keyMints (keyFillHistory n) = n := by
  induction n with
  | zero => rfl
  | succ n ih =>
    rw [keyFillHistory_succ, keyMints_snoc, ih]
    have : mintsKey (run (keyFillHistory n)) (Op.push n 0) = true := by
      simp [mintsKey, unseen_key_keyFill n n (le_refl n)]
    rw [this]
    rfl

theorem keyInv_keyFill : KeyInv (run (keyFillHistory uint32Size)) uint32Size := by
  have h := keyInv_run (keyFillHistory uint32Size) (le_of_eq (keyMints_keyFill _))
  rwa [keyMints_keyFill] at h

theorem zero_key_keyFill (n : Nat) (hn : 0 < n) :
    mapGet (run (keyFillHistory n)).keyToID 0 = some 0 := by
  induction n with
  | zero => exact absurd hn (lt_irrefl _)
  | succ n ih =>
    by_cases h0 : n = 0
    · subst h0
      decide
    · rw [keyFillHistory_succ, run_snoc]
      exact PushMap_keyToID_stable _ n 0 (ih (Nat.pos_of_ne_zero h0))

theorem hasValue_keyFill (n : Nat) (hn : 0 < n) :
    HasValue (run (keyFillHistory n)) 0 0 = true := by
  induction n with
  | zero => exact absurd hn (lt_irrefl _)
  | succ n ih =>
    by_cases h0 : n = 0
    · subst h0
      decide
    · rw [keyFillHistory_succ, run_snoc]
      exact HasValue_PushMap_mono _ 0 n 0 0 (ih (Nat.pos_of_ne_zero h0))

theorem run_keyWrapHistory :
    run keyWrapHistory = PushMap (run (keyFillHistory uint32Size)) uint32Size 0 := by
  unfold keyWrapHistory
  rw [run_snoc]
  rfl

theorem uint32Size_ne_zero : uint32Size ≠ 0 :=
  Nat.pos_iff_ne_zero.mp uint32Size_pos

/-- After the wrap the new key `2^32` holds identifier 0, which key `0` still holds. -/
theorem aliased_key_ids :
    mapGet (run keyWrapHistory).keyToID uint32Size = some 0 ∧
    mapGet (run keyWrapHistory).keyToID 0 = some 0 := by
  rw [run_keyWrapHistory]
  refine ⟨?_, PushMap_keyToID_stable _ _ _ (zero_key_keyFill uint32Size uint32Size_pos)⟩
  rw [PushMap_keyToID, if_pos rfl, unseen_key_keyFill uint32Size uint32Size (le_refl _),
    Option.getD_none, keyInv_keyFill.next, Nat.mod_self]

/-- Deleting the aliased key removes the posting set that key `0` reads. -/
theorem aliased_delete_drops_posting :
    mapGet (DeleteMap (run keyWrapHistory) uint32Size).keyToID 0 = some 0 ∧
    mapGet (DeleteMap (run keyWrapHistory) uint32Size).data 0 = none := by
  refine ⟨?_, ?_⟩
  · rw [DeleteMap_keyToID, if_neg (fun e => uint32Size_ne_zero e.symm)]
    exact aliased_key_ids.2
  · rw [DeleteMap_data, if_pos aliased_key_ids.1]

/-- C11, counterexample: after the keys `0 .. 2^32 - 1` and then `2^32` have been
pushed, keys `0` and `2^32` share identifier 0; `DeleteMap(2^32)` turns
`HasValue(0, 0)` from true to false. -/
theorem deleteMap_isolation_fails_after_wrap :
    uint32Size ≠ 0 ∧
    HasValue (run keyWrapHistory) 0 0 = true ∧
    HasValue (DeleteMap (run keyWrapHistory) uint32Size) 0 0 = false := by
  refine ⟨uint32Size_ne_zero, ?_, ?_⟩
  · rw [run_keyWrapHistory]
    exact HasValue_PushMap_mono _ 0 uint32Size 0 0 (hasValue_keyFill uint32Size uint32Size_pos)
  · cases h : HasValue (DeleteMap (run keyWrapHistory) uint32Size) 0 0 with
    | false => rfl
    | true =>
      obtain ⟨i, x, bm, h1, _, h3, _⟩ := (HasValue_iff _ _ _).mp h
      rw [aliased_delete_drops_posting.1] at h1
      cases h1
      rw [aliased_delete_drops_posting.2] at h3
      cases h3

theorem applyOp_delete (om : RoarIndex K V) (k : K) :
    applyOp om (Op.delete k) = DeleteMap om k := rfl

theorem GetMap_of_no_data (om : RoarIndex K V) (k : K) (i : Nat)
    (h1 : mapGet om.keyToID k = some i) (h2 : mapGet om.data i = none) :
    GetMap om k = ([], none) := by
  simp [GetMap, h1, h2]

/-- C19, counterexample: in the state reached by `keyWrapHistory` followed by
`DeleteMap(2^32)`, key `0` is visible and `GetMap(0)` returns no error, yet the
returned list is empty. -/
theorem visible_key_without_value_after_wrap :
    GetMap (run (keyWrapHistory ++ [Op.delete uint32Size])) 0 = ([], none) := by
  rw [run_snoc, applyOp_delete]
  exact GetMap_of_no_data _ 0 0 aliased_delete_drops_posting.1
    aliased_delete_drops_posting.2

/-! ## Push order with globally distinct values -/

theorem keyMints_le_length (ops : List (Op K V)) : keyMints ops ≤ ops.length := by
  induction ops using List.reverseRecOn with
  | nil => simp [keyMints, keyMintsFrom]
  | append_singleton ops op ih =>
    rw [keyMints_snoc, List.length_append, List.length_singleton]
    split <;> omega

theorem valueMints_le_length (ops : List (Op K V)) : valueMints ops ≤ ops.length := by
  induction ops using List.reverseRecOn with
  | nil => simp [valueMints, valueMintsFrom]
  | append_singleton ops op ih =>
    rw [valueMints_snoc, List.length_append, List.length_singleton]
    split <;> omega

theorem pushedUnder_snoc (ops : List (Op K V)) (op : Op K V) (k : K) :
    pushedUnder (ops ++ [op]) k =
      pushedUnder ops k ++ (match op with
        | Op.push key value => if key = k then [value] else []
        | Op.delete _ => []) := by
  unfold pushedUnder
  rw [List.filterMap_append]
  cases op with
  | push key value =>
    by_cases h : key = k <;> simp [h]
  | delete key => simp

theorem pushedUnder_eq_pushedSinceDelete (ops : List (Op K V)) (k : K)
    (hpush : ∀ op ∈ ops, Op.isPush op = true) :
    pushedUnder ops k = pushedSinceDelete ops k := by
  induction ops using List.reverseRecOn with
  | nil => rfl
  | append_singleton ops op ih =>
    have ih' := ih (fun o ho => hpush o (List.mem_append_left _ ho))
    have hop := hpush op (List.mem_append_right _ (List.mem_singleton_self op))
    cases op with
    | push key value =>
      rw [pushedUnder_snoc, pushedSinceDelete_snoc_push, ih']
      by_cases h : key = k <;> simp [h]
    | delete key => simp [Op.isPush] at hop

theorem mem_pushedKeys_snoc (ops : List (Op K V)) (op : Op K V) (k : K) :
    k ∈ pushedKeys (ops ++ [op]) ↔
      (k ∈ pushedKeys ops ∨ ∃ v, op = Op.push k v) := by
  unfold pushedKeys
  rw [List.filterMap_append, List.mem_append]
  cases op with
  | push key value => simp [eq_comm]
  | delete key => simp

theorem visible_of_pushed_no_delete (ops : List (Op K V)) (k : K)
    (hpush : ∀ op ∈ ops, Op.isPush op = true) (hk : k ∈ pushedKeys ops) :
    ∃ i, mapGet (run ops).keyToID k = some i := by
  induction ops using List.reverseRecOn with
  | nil => simp [pushedKeys] at hk
  | append_singleton ops op ih =>
    have ih' := ih (fun o ho => hpush o (List.mem_append_left _ ho))
    have hop := hpush op (List.mem_append_right _ (List.mem_singleton_self op))
    rw [run_snoc]
    cases op with
    | push key value =>
      rcases (mem_pushedKeys_snoc ops _ k).mp hk with h | ⟨v, hv⟩
      · obtain ⟨i, hi⟩ := ih' h
        exact ⟨i, PushMap_keyToID_stable _ key value hi⟩
      · cases hv
        exact ⟨(mapGet (run ops).keyToID k).getD (run ops).nextKeyID,
          by simp [applyOp, PushMap_keyToID]⟩
    | delete key => simp [Op.isPush] at hop

theorem firstPushIdx_snoc_of_pushed (ops : List (Op K V)) (op : Op K V) {a : V}
    (h : a ∈ pushedValues ops) :
    firstPushIdx (ops ++ [op]) a = firstPushIdx ops a ∧ firstPushIdx ops a < ops.length := by
  have hlt : firstPushIdx ops a < ops.length := (firstPushIdx_lt_iff ops a).mpr h
  rw [firstPushIdx_snoc, if_pos hlt]
  exact ⟨rfl, hlt⟩

theorem pushedSinceDelete_pairwise (ops : List (Op K V)) (k : K)
    (hnd : (pushedValues ops).Nodup) :
    (pushedSinceDelete ops k).Pairwise
      (fun a b => firstPushIdx ops a < firstPushIdx ops b) := by
  induction ops using List.reverseRecOn with
  | nil => simp [pushedSinceDelete, pushedSinceDeleteRev]
  | append_singleton ops op ih =>
    rw [pushedValues_snoc] at hnd
    have hnd0 : (pushedValues ops).Nodup := (List.nodup_append.mp hnd).1
    have ih' := ih hnd0
    have hold : (pushedSinceDelete ops k).Pairwise
        (fun a b => firstPushIdx (ops ++ [op]) a < firstPushIdx (ops ++ [op]) b) := by
      refine ih'.imp_of_mem ?_
      intro a b ha hb hab
      rw [(firstPushIdx_snoc_of_pushed ops op (pushedSinceDelete_subset ops k a ha)).1,
        (firstPushIdx_snoc_of_pushed ops op (pushedSinceDelete_subset ops k b hb)).1]
      exact hab
    cases op with
    | push key value =>
      rw [pushedSinceDelete_snoc_push]
      by_cases hk : key = k
      · rw [if_pos hk, List.pairwise_append]
        refine ⟨hold, List.pairwise_singleton _ _, ?_⟩
        intro a ha b hb
        rw [List.mem_singleton] at hb
        subst hb
        have hnew : b ∉ pushedValues ops := by
          intro hmem
          exact (List.nodup_append.mp hnd).2.2 hmem (List.mem_singleton_self b)
        have hnot : ¬ firstPushIdx ops b < ops.length := by
          rw [firstPushIdx_lt_iff]
          exact hnew
        have ha' := firstPushIdx_snoc_of_pushed ops (Op.push key b)
          (pushedSinceDelete_subset ops k a ha)
        rw [ha'.1, firstPushIdx_snoc, if_neg hnot]
        simp only [Op.carries, decide_True, if_true]
        omega
      · rw [if_neg hk]
        exact hold
    | delete key =>
      rw [pushedSinceDelete_snoc_delete]
      by_cases hk : key = k
      · rw [if_pos hk]
        exact List.Pairwise.nil
      · rw [if_neg hk]
        exact hold

theorem GetMap_pairwise_firstPush (ops : List (Op K V)) (k : K)
    (hv : valueMints ops ≤ uint32Size) :
    (GetMap (run ops) k).1.Pairwise
      (fun a b => firstPushIdx ops a < firstPushIdx ops b) := by
  have hV := valueInv_run ops hv
  have hD := dataInv_run ops
  have hO := order_run ops hv
  cases h1 : mapGet (run ops).keyToID k with
  | none => simp [GetMap, h1]
  | some kid =>
    cases h2 : mapGet (run ops).data kid with
    | none => simp [GetMap, h1, h2]
    | some bm =>
      simp only [GetMap, h1, h2, Bitmap.iterator]
      refine List.Pairwise.filterMap _ ?_ (hD.sorted kid bm h2)
      intro x y hxy a ha b hb
      exact hO a b x y ((hV.inv a x).mp ha) ((hV.inv b y).mp hb) hxy

theorem mem_GetMap_iff_pushedSinceDelete (ops : List (Op K V)) (k : K)
    (hk : keyMints ops ≤ uint32Size) (hv : valueMints ops ≤ uint32Size)
    (hvis : ∃ i, mapGet (run ops).keyToID k = some i) (v : V) :
    v ∈ (GetMap (run ops) k).1 ↔ v ∈ pushedSinceDelete ops k := by
  have hV := valueInv_run ops hv
  obtain ⟨kid, hkid⟩ := hvis
  obtain ⟨bm, hbm, hmem⟩ := (posting_run ops hk k).2 kid hkid
  rw [mem_GetMap]
  constructor
  · rintro ⟨i, b, x, h1, h2, h3, h4⟩
    rw [hkid] at h1
    cases h1
    rw [hbm] at h2
    cases h2
    obtain ⟨w, hw, hx⟩ := (hmem x).mp h3
    have : v = w := valueInv_inj hV ((hV.inv v x).mp h4) hx
    rw [this]
    exact hw
  · intro hvin
    obtain ⟨x, hx⟩ := (interned_iff_pushed ops v).mpr (pushedSinceDelete_subset ops k v hvin)
    exact ⟨kid, bm, x, hkid, hbm, (hmem x).mpr ⟨v, hvin, hx⟩, (hV.inv v x).mpr hx⟩

/-- C16 (amended): for a history of at most 2^32 `PushMap` calls and no
`DeleteMap`, in which no value is pushed more than once overall, and every key
`k` that was pushed, `GetMap(k)` returns no error and exactly the list of the
values pushed under `k`, in the order of their `PushMap` calls. -/
theorem getMap_preserves_push_order (ops : List (Op K V)) (k : K)
    (hpush : ∀ op ∈ ops, Op.isPush op = true) (hnd : (pushedValues ops).Nodup)
    (hlen : ops.length ≤ uint32Size) (hk : k ∈ pushedKeys ops) :
    GetMap (run ops) k = (pushedUnder ops k, none) := by
  have hkm : keyMints ops ≤ uint32Size := le_trans (keyMints_le_length ops) hlen
  have hvm : valueMints ops ≤ uint32Size := le_trans (valueMints_le_length ops) hlen
  have hvis := visible_of_pushed_no_delete ops k hpush hk
  have herr : (GetMap (run ops) k).2 = none := (GetMap_ok_iff _ _).mpr hvis
  have hs1 := GetMap_pairwise_firstPush ops k hvm
  have hs2 := pushedSinceDelete_pairwise ops k hnd
  have hn1 : (GetMap (run ops) k).1.Nodup := hs1.imp (fun h e => by rw [e] at h; omega)
  have hn2 : (pushedSinceDelete ops k).Nodup := hs2.imp (fun h e => by rw [e] at h; omega)
  have hperm : (GetMap (run ops) k).1.Perm (pushedSinceDelete ops k) :=
    (List.perm_ext_iff_of_nodup hn1 hn2).mpr
      (mem_GetMap_iff_pushedSinceDelete ops k hkm hvm hvis)
  have hlist : (GetMap (run ops) k).1 = pushedSinceDelete ops k :=
    List.Perm.eq_of_sorted (fun a b _ _ h1 h2 => by omega) hs1 hs2 hperm
  rw [pushedUnder_eq_pushedSinceDelete ops k hpush, ← hlist, ← herr]

/-- C16 (amended), instance: two keys, four distinct values. -/
theorem getMap_preserves_push_order_witness :
    GetMap (run [Op.push 1 10, Op.push 2 11, Op.push 1 12, Op.push 2 13]) 1 =
      (pushedUnder [Op.push 1 10, Op.push 2 11, Op.push 1 12, Op.push 2 13] 1, none) :=
  getMap_preserves_push_order [Op.push 1 10, Op.push 2 11, Op.push 1 12, Op.push 2 13] 1
    (by decide) (by decide) (by decide) (by decide)

theorem applyOp_push (om : RoarIndex K V) (k : K) (v : V) :
    applyOp om (Op.push k v) = PushMap om k v := rfl

theorem isPush_fill (n : Nat) : ∀ op ∈ fillHistory n, Op.isPush op = true := by
  intro op hop
  unfold fillHistory at hop
  obtain ⟨i, _, rfl⟩ := List.mem_map.mp hop
  rfl

theorem pushedUnder_fill (n : Nat) : pushedUnder (fillHistory n) 0 = List.range n := by
  induction n with
  | zero => rfl
  | succ n ih =>
    rw [fillHistory_succ, pushedUnder_snoc, ih, List.range_succ]
    simp

theorem zero_mem_pushedKeys_fill (n : Nat) : 0 ∈ pushedKeys (fillHistory (n + 1)) := by
  rw [fillHistory_succ, mem_pushedKeys_snoc]
  exact Or.inr ⟨n, rfl⟩

/-- Whatever key carries the first value pushed after the wrap, no identifier maps
back to the value `0` afterwards. -/
theorem zero_lost_after_fill_push (k x : Nat) :
    mapGet (PushMap (run (fillHistory uint32Size)) k uint32Size).idToValue x ≠ some 0 := by
  rw [PushMap_idToValue, nextValueID_after_fill]
  by_cases hx : x = 0
  · subst hx
    rw [if_pos ⟨unseen_after_fill, rfl⟩]
    intro e
    exact absurd (Option.some.inj e) uint32Size_ne_zero
  · rw [if_neg (fun h => hx h.2)]
    intro e
    have h1 := (valueInv_fill.inv 0 x).mp e
    rw [zero_interned_fill uint32Size uint32Size_pos] at h1
    exact hx (Option.some.inj h1).symm

/-- C16, counterexample: the history that pushes the pairwise distinct values
`0, 1, .., 2^32` under key `0` has no `DeleteMap` and repeats no value, and value
`0` was pushed under key `0`, yet the list returned by `GetMap(0)` does not
contain it. -/
theorem getMap_push_order_fails_after_wrap :
    (∀ op ∈ fillHistory (uint32Size + 1), Op.isPush op = true) ∧
    (pushedValues (fillHistory (uint32Size + 1))).Nodup ∧
    0 ∈ pushedKeys (fillHistory (uint32Size + 1)) ∧
    0 ∈ pushedUnder (fillHistory (uint32Size + 1)) 0 ∧
    0 ∉ (GetMap (run (fillHistory (uint32Size + 1))) 0).1 := by
  refine ⟨isPush_fill _, ?_, zero_mem_pushedKeys_fill _, ?_, ?_⟩
  · rw [pushedValues_fill]
    exact List.nodup_range _
  · rw [pushedUnder_fill, List.mem_range]
    exact Nat.succ_pos _
  · rw [fillHistory_succ, run_snoc, applyOp_push, mem_GetMap]
    rintro ⟨i, bm, x, _, _, _, h⟩
    exact zero_lost_after_fill_push 0 x h

/-! ## The new index, the defensive branch, the growing value interner -/

/-- C29: for the state returned by `NewRoarIndex`, `Count()` is 0, `Keys()` and
`Values()` are empty, and for every key and value `GetMap` returns
`ErrKeyNotFound` with an empty sequence and `HasValue` is false. -/
theorem new_index_is_empty (k : K) (v : V) :
    Count (NewRoarIndex : RoarIndex K V) = 0 ∧
    Keys (NewRoarIndex : RoarIndex K V) = [] ∧
    Values (NewRoarIndex : RoarIndex K V) = [] ∧
    GetMap (NewRoarIndex : RoarIndex K V) k = ([], some Error.ErrKeyNotFound) ∧
    HasValue (NewRoarIndex : RoarIndex K V) k v = false := by
  refine ⟨rfl, rfl, rfl, rfl, rfl⟩

/-- C25: in any state where `k` has a `keyToID` entry but the posting store has
no entry for that identifier, `GetMap(k)` returns an empty sequence and no
error. -/
theorem getMap_defensive_empty (om : RoarIndex K V) (k : K) (keyID : Nat)
    (hkey : mapGet om.keyToID k = some keyID) (hdata : mapGet om.data keyID = none) :
    GetMap om k = ([], none) :=
  GetMap_of_no_data om k keyID hkey hdata

/-- C25, instance: a hand-built state whose key `7` has identifier 3 and no
posting set. -/
theorem getMap_defensive_empty_witness : GetMap danglingKeyState 7 = ([], none) :=
  getMap_defensive_empty danglingKeyState 7 3 (by decide) (by decide)

/-- C24: in a reachable state with fewer than 2^32 value identifiers minted, a
value `v` with identifier `i` keeps it through any `PushMap` or `DeleteMap`, and
`idToValue[i]` stays `v`; `DeleteMap` leaves `valueToID`, `idToValue`,
`nextValueID` and `nextKeyID` unchanged. -/
theorem value_interner_only_grows (ops : List (Op K V)) (v : V) (i : Nat)
    (hv : valueMints ops < uint32Size) (h : mapGet (run ops).valueToID v = some i) :
    (∀ op, mapGet (applyOp (run ops) op).valueToID v = some i ∧
      mapGet (applyOp (run ops) op).idToValue i = some v) ∧
    (∀ k, (DeleteMap (run ops) k).valueToID = (run ops).valueToID ∧
      (DeleteMap (run ops) k).idToValue = (run ops).idToValue ∧
      (DeleteMap (run ops) k).nextValueID = (run ops).nextValueID ∧
      (DeleteMap (run ops) k).nextKeyID = (run ops).nextKeyID) := by
  have hV := valueInv_run ops (le_of_lt hv)
  have hinv : mapGet (run ops).idToValue i = some v := (hV.inv v i).mpr h
  refine ⟨?_, fun k => DeleteMap_values (run ops) k⟩
  intro op
  cases op with
  | push k w =>
    refine ⟨PushMap_valueToID_stable _ k w h, ?_⟩
    rw [applyOp_push, PushMap_idToValue, if_neg]
    · exact hinv
    · rintro ⟨_, e⟩
      have hb := hV.bound v i h
      rw [e, hV.next, Nat.mod_eq_of_lt hv] at hb
      exact absurd hb (lt_irrefl _)
  | delete k =>
    rw [applyOp_delete, (DeleteMap_values _ k).1, (DeleteMap_values _ k).2.1]
    exact ⟨h, hinv⟩

/-- C24, instance: value `10` survives the deletion of the only key that holds it. -/
theorem value_interner_only_grows_witness :
    (∀ op, mapGet (applyOp (run [Op.push 1 10, Op.push 1 11]) op).valueToID 10 = some 0 ∧
      mapGet (applyOp (run [Op.push 1 10, Op.push 1 11]) op).idToValue 0 = some 10) ∧
    (∀ k, (DeleteMap (run [Op.push 1 10, Op.push 1 11]) k).valueToID =
        (run [Op.push 1 10, Op.push 1 11]).valueToID ∧
      (DeleteMap (run [Op.push 1 10, Op.push 1 11]) k).idToValue =
        (run [Op.push 1 10, Op.push 1 11]).idToValue ∧
      (DeleteMap (run [Op.push 1 10, Op.push 1 11]) k).nextValueID =
        (run [Op.push 1 10, Op.push 1 11]).nextValueID ∧
      (DeleteMap (run [Op.push 1 10, Op.push 1 11]) k).nextKeyID =
        (run [Op.push 1 10, Op.push 1 11]).nextKeyID) :=
  value_interner_only_grows [Op.push 1 10, Op.push 1 11] 10 0 (by decide) (by decide)

/-! ## `GetMap` drops no identifier -/

theorem length_filterMap_of_isSome {α β : Type} (f : α → Option β) (l : List α)
    (h : ∀ x ∈ l, ∃ y, f x = some y) : (l.filterMap f).length = l.length := by
  induction l with
  | nil => rfl
  | cons a l ih =>
    obtain ⟨y, hy⟩ := h a (List.mem_cons_self a l)
    rw [List.filterMap_cons_some hy, List.length_cons, List.length_cons,
      ih (fun x hx => h x (List.mem_cons_of_mem a hx))]

/-- C26: in a reachable state with fewer than 2^32 value identifiers minted,
every identifier in a posting set is below `nextValueID` and has an `idToValue`
entry, the length of `GetMap(k)` is the cardinality of the posting set of `k`,
and the returned list has no duplicates. -/
theorem getMap_drops_no_identifier (ops : List (Op K V)) (k : K)
    (hv : valueMints ops < uint32Size) :
    (∀ keyID bm x, mapGet (run ops).data keyID = some bm → x ∈ bm →
      x < (run ops).nextValueID ∧ ∃ w, mapGet (run ops).idToValue x = some w) ∧
    (∀ keyID bm, mapGet (run ops).keyToID k = some keyID →
      mapGet (run ops).data keyID = some bm →
      (GetMap (run ops) k).1.length = Bitmap.getCardinality bm) ∧
    (GetMap (run ops) k).1.Nodup := by
  have hV := valueInv_run ops (le_of_lt hv)
  have hD := dataInv_run ops
  have hnext : (run ops).nextValueID = valueMints ops := by
    rw [hV.next, Nat.mod_eq_of_lt hv]
  have hall : ∀ keyID bm x, mapGet (run ops).data keyID = some bm → x ∈ bm →
      x < (run ops).nextValueID ∧ ∃ w, mapGet (run ops).idToValue x = some w := by
    intro keyID bm x hb hx
    obtain ⟨v0, hv0⟩ := hD.interned keyID bm x hb hx
    refine ⟨?_, v0, (hV.inv v0 x).mpr hv0⟩
    rw [hnext]
    exact hV.bound v0 x hv0
  refine ⟨hall, ?_, ?_⟩
  · intro keyID bm h1 h2
    simp only [GetMap, h1, h2, Bitmap.iterator, Bitmap.getCardinality]
    exact length_filterMap_of_isSome _ bm (fun x hx => (hall keyID bm x h2 hx).2)
  · cases h1 : mapGet (run ops).keyToID k with
    | none => simp [GetMap, h1]
    | some keyID =>
      cases h2 : mapGet (run ops).data keyID with
      | none => simp [GetMap, h1, h2]
      | some bm =>
        simp only [GetMap, h1, h2, Bitmap.iterator]
        refine List.Pairwise.filterMap _ ?_ (hD.sorted keyID bm h2)
        intro x y hxy a ha b hb hab
        subst hab
        have e1 := (hV.inv a x).mp ha
        have e2 := (hV.inv a y).mp hb
        rw [e1] at e2
        have := Option.some.inj e2
        omega

/-- C26, instance: three values under one key. -/
theorem getMap_drops_no_identifier_witness :
    (∀ keyID bm x, mapGet (run [Op.push 1 10, Op.push 1 11, Op.push 1 12]).data keyID =
        some bm → x ∈ bm →
      x < (run [Op.push 1 10, Op.push 1 11, Op.push 1 12]).nextValueID ∧
        ∃ w, mapGet (run [Op.push 1 10, Op.push 1 11, Op.push 1 12]).idToValue x = some w) ∧
    (∀ keyID bm, mapGet (run [Op.push 1 10, Op.push 1 11, Op.push 1 12]).keyToID 1 =
        some keyID →
      mapGet (run [Op.push 1 10, Op.push 1 11, Op.push 1 12]).data keyID = some bm →
      (GetMap (run [Op.push 1 10, Op.push 1 11, Op.push 1 12]) 1).1.length =
        Bitmap.getCardinality bm) ∧
    (GetMap (run [Op.push 1 10, Op.push 1 11, Op.push 1 12]) 1).1.Nodup :=
  getMap_drops_no_identifier [Op.push 1 10, Op.push 1 11, Op.push 1 12] 1 (by decide)

/-! ## The interner invariant -/

theorem internerInv_run (ops : List (Op K V)) (hk : keyMints ops < uint32Size)
    (hv : valueMints ops < uint32Size) : InternerInv (run ops) := by
  have hK := keyInv_run ops (le_of_lt hk)
  have hV := valueInv_run ops (le_of_lt hv)
  refine ⟨fun k i => (hK.inv k i).symm, fun v i => (hV.inv v i).symm, ?_, ?_⟩
  · intro k i h
    rw [hK.next, Nat.mod_eq_of_lt hk]
    exact hK.bound k i h
  · intro v i h
    rw [hV.next, Nat.mod_eq_of_lt hv]
    exact hV.bound v i h

/-- C21 (amended): in every reachable state with fewer than 2^32 identifiers
minted in each namespace, `keyToID`/`idToKey` and `valueToID`/`idToValue` are
exact inverses, `keyToID` is injective and every identifier present is strictly
below its counter; every `PushMap` and `DeleteMap` on such a state keeps both
interners exact inverses, and keeps the whole invariant whenever the resulting
state still has fewer than 2^32 identifiers minted in each namespace. -/
theorem interner_inverse_invariant (ops : List (Op K V))
    (hk : keyMints ops < uint32Size) (hv : valueMints ops < uint32Size) :
    InternerInv (run ops) ∧
    (∀ k k' i, mapGet (run ops).keyToID k = some i →
      mapGet (run ops).keyToID k' = some i → k = k') ∧
    (∀ op,
      (∀ k i, mapGet (applyOp (run ops) op).keyToID k = some i ↔
        mapGet (applyOp (run ops) op).idToKey i = some k) ∧
      (∀ v i, mapGet (applyOp (run ops) op).valueToID v = some i ↔
        mapGet (applyOp (run ops) op).idToValue i = some v) ∧
      (keyMints (ops ++ [op]) < uint32Size → valueMints (ops ++ [op]) < uint32Size →
        InternerInv (applyOp (run ops) op))) := by
  refine ⟨internerInv_run ops hk hv, ?_, ?_⟩
  · intro k k' i h1 h2
    exact keyInv_inj (keyInv_run ops (le_of_lt hk)) h1 h2
  · intro op
    have hk1 : keyMints (ops ++ [op]) ≤ uint32Size := by
      rw [keyMints_snoc]
      split <;> omega
    have hv1 : valueMints (ops ++ [op]) ≤ uint32Size := by
      rw [valueMints_snoc]
      split <;> omega
    have hK := keyInv_run (ops ++ [op]) hk1
    have hV := valueInv_run (ops ++ [op]) hv1
    rw [run_snoc] at hK hV
    refine ⟨fun k i => (hK.inv k i).symm, fun v i => (hV.inv v i).symm, ?_⟩
    intro hk' hv'
    have := internerInv_run (ops ++ [op]) hk' hv'
    rwa [run_snoc] at this

/-- C21 (amended), instance: a history with a deletion and a shared value,
followed by one more push. -/
theorem interner_inverse_invariant_witness :
    InternerInv (run [Op.push 1 10, Op.push 2 10, Op.delete 1]) ∧
    InternerInv (applyOp (run [Op.push 1 10, Op.push 2 10, Op.delete 1]) (Op.push 1 11)) :=
  ⟨(interner_inverse_invariant [Op.push 1 10, Op.push 2 10, Op.delete 1]
      (by decide) (by decide)).1,
    ((interner_inverse_invariant [Op.push 1 10, Op.push 2 10, Op.delete 1]
      (by decide) (by decide)).2.2 (Op.push 1 11)).2.2 (by decide) (by decide)⟩

/-! ## Wrap-around of the value counter on a small state -/

theorem two_lt_uint32Size : 2 < uint32Size := by
  unfold uint32Size
  norm_num

theorem internerInv_wrapSeed : InternerInv wrapSeed := by
  have h2 := two_lt_uint32Size
  refine ⟨?_, ?_, ?_, ?_⟩
  · intro k i
    simp only [wrapSeed, mapGet]
    by_cases hk : 0 = k <;> by_cases hi : 0 = i <;> simp [hk, hi]
  · intro v i
    simp only [wrapSeed, mapGet]
    by_cases hv : 100 = v <;> by_cases hi : 0 = i <;> simp [hv, hi]
  · intro k i h
    simp only [wrapSeed, mapGet] at h ⊢
    split at h
    · cases h
      exact Nat.one_pos
    · cases h
  · intro v i h
    simp only [wrapSeed, mapGet] at h ⊢
    split at h
    · cases h
      omega
    · cases h

/-- C28: the state `wrapSeed` satisfies the interner invariants, has
`nextValueID = 2^32 - 1`, and value `100` holds identifier 0 in the posting set of
key `0`.  Pushing the unseen values `101` and then `102` under key `1` first sets
`nextValueID` to 0 and then gives `102` the identifier 0, overwriting
`idToValue[0]`; afterwards `GetMap(0)` returns `102` in place of `100` and
`HasValue(0, 102)` is true, although `102` was only pushed under key `1`. -/
theorem counters_wrap_and_alias :
    InternerInv wrapSeed ∧
    wrapSeed.nextValueID = uint32Size - 1 ∧
    mapGet wrapSeed.valueToID 100 = some 0 ∧
    GetMap wrapSeed 0 = ([100], none) ∧
    (PushMap wrapSeed 1 101).nextValueID = 0 ∧
    mapGet (PushMap (PushMap wrapSeed 1 101) 1 102).valueToID 102 = some 0 ∧
    mapGet (PushMap (PushMap wrapSeed 1 101) 1 102).idToValue 0 = some 102 ∧
    GetMap (PushMap (PushMap wrapSeed 1 101) 1 102) 0 = ([102], none) ∧
    HasValue (PushMap (PushMap wrapSeed 1 101) 1 102) 0 102 = true := by
  refine ⟨internerInv_wrapSeed, rfl, ?_, ?_, ?_, ?_, ?_, ?_, ?_⟩ <;> decide

/-! ## The posting-store invariant -/

/-- C22 (amended): in a reachable state with at most 2^32 key identifiers minted,
a key identifier has a posting set exactly when it has an `idToKey` entry,
which is exactly when it is the identifier of a visible key; every stored posting
set is non-empty; and after `DeleteMap(k)` neither `keyToID` contains `k` nor
`data` contains the identifier `k` had. -/
theorem posting_store_invariant (ops : List (Op K V)) (hk : keyMints ops ≤ uint32Size) :
    (∀ i, (∃ bm, mapGet (run ops).data i = some bm) ↔
      (∃ k, mapGet (run ops).idToKey i = some k)) ∧
    (∀ i, (∃ k, mapGet (run ops).idToKey i = some k) ↔
      (∃ k, mapGet (run ops).keyToID k = some i)) ∧
    (∀ i bm, mapGet (run ops).data i = some bm → bm ≠ []) ∧
    (∀ k, mapGet (DeleteMap (run ops) k).keyToID k = none ∧
      ∀ i, mapGet (run ops).keyToID k = some i →
        mapGet (DeleteMap (run ops) k).data i = none) := by
  have hK := keyInv_run ops hk
  have hD := dataInv_run ops
  have h2 : ∀ i, (∃ k, mapGet (run ops).idToKey i = some k) ↔
      (∃ k, mapGet (run ops).keyToID k = some i) := by
    intro i
    constructor
    · rintro ⟨k, h⟩
      exact ⟨k, (hK.inv k i).mp h⟩
    · rintro ⟨k, h⟩
      exact ⟨k, (hK.inv k i).mpr h⟩
  refine ⟨?_, h2, hD.nonempty, ?_⟩
  · intro i
    rw [h2]
    constructor
    · rintro ⟨bm, h⟩
      exact hD.owned i bm h
    · rintro ⟨k, h⟩
      obtain ⟨bm, hbm, _⟩ := (posting_run ops hk k).2 i h
      exact ⟨bm, hbm⟩
  · intro k
    refine ⟨by rw [DeleteMap_keyToID, if_pos rfl], ?_⟩
    intro i hi
    rw [DeleteMap_data, if_pos hi]

/-- C22 (amended), instance: a key deleted while another one stays. -/
theorem posting_store_invariant_witness :
    (∀ i, (∃ bm, mapGet (run [Op.push 1 10, Op.push 2 10, Op.delete 1]).data i = some bm) ↔
      (∃ k, mapGet (run [Op.push 1 10, Op.push 2 10, Op.delete 1]).idToKey i = some k)) ∧
    (∀ i, (∃ k, mapGet (run [Op.push 1 10, Op.push 2 10, Op.delete 1]).idToKey i = some k) ↔
      (∃ k, mapGet (run [Op.push 1 10, Op.push 2 10, Op.delete 1]).keyToID k = some i)) ∧
    (∀ i bm, mapGet (run [Op.push 1 10, Op.push 2 10, Op.delete 1]).data i = some bm →
      bm ≠ []) ∧
    (∀ k, mapGet (DeleteMap (run [Op.push 1 10, Op.push 2 10, Op.delete 1]) k).keyToID k =
        none ∧
      ∀ i, mapGet (run [Op.push 1 10, Op.push 2 10, Op.delete 1]).keyToID k = some i →
        mapGet (DeleteMap (run [Op.push 1 10, Op.push 2 10, Op.delete 1]) k).data i = none) :=
  posting_store_invariant [Op.push 1 10, Op.push 2 10, Op.delete 1] (by decide)

/-- C22, counterexample: in the state reached by `keyWrapHistory` followed by
`DeleteMap(2^32)`, identifier 0 is the identifier of the visible key `0`, yet the
posting store has no entry for it. -/
theorem posting_store_invariant_fails_after_wrap :
    mapGet (run (keyWrapHistory ++ [Op.delete uint32Size])).keyToID 0 = some 0 ∧
    mapGet (run (keyWrapHistory ++ [Op.delete uint32Size])).data 0 = none := by
  rw [run_snoc, applyOp_delete]
  exact aliased_delete_drops_posting

/-! ## Dense identifiers in first-seen order -/

theorem pushedKeys_snoc (ops : List (Op K V)) (op : Op K V) :
    pushedKeys (ops ++ [op]) =
      pushedKeys ops ++ (match op with
        | Op.push key _ => [key]
        | Op.delete _ => []) := by
  unfold pushedKeys
  rw [List.filterMap_append]
  cases op <;> simp

theorem unseen_of_not_pushed (ops : List (Op K V)) (k : K) (h : k ∉ pushedKeys ops) :
    mapGet (run ops).keyToID k = none := by
  induction ops using List.reverseRecOn with
  | nil => simp [run, NewRoarIndex, mapGet]
  | append_singleton ops op ih =>
    rw [pushedKeys_snoc, List.mem_append, not_or] at h
    rw [run_snoc]
    cases op with
    | push key value =>
      have hne : ¬ k = key := by
        intro e
        exact h.2 (by simp [e])
      rw [applyOp_push, PushMap_keyToID, if_neg hne]
      exact ih h.1
    | delete key =>
      rw [applyOp_delete, DeleteMap_keyToID]
      split
      · rfl
      · exact ih h.1

theorem dense_ids_run (ops : List (Op K V)) (hpush : ∀ op ∈ ops, Op.isPush op = true)
    (hnd : (pushedKeys ops).Nodup) (hlen : ops.length < uint32Size) :
    (run ops).nextKeyID = ops.length ∧ (pushedKeys ops).length = ops.length ∧
    ∀ i k, (pushedKeys ops)[i]? = some k → mapGet (run ops).keyToID k = some i := by
  induction ops using List.reverseRecOn with
  | nil =>
    refine ⟨rfl, rfl, ?_⟩
    intro i k h
    simp [pushedKeys] at h
  | append_singleton ops op ih =>
    have hop := hpush op (List.mem_append_right _ (List.mem_singleton_self op))
    cases op with
    | delete key => simp [Op.isPush] at hop
    | push key value =>
      rw [pushedKeys_snoc] at hnd ⊢
      rw [List.length_append, List.length_singleton] at hlen
      have hnd0 : (pushedKeys ops).Nodup := (List.nodup_append.mp hnd).1
      have hnew : key ∉ pushedKeys ops := fun hmem =>
        (List.nodup_append.mp hnd).2.2 hmem (List.mem_singleton_self key)
      obtain ⟨ih1, ih2, ih3⟩ := ih (fun o ho => hpush o (List.mem_append_left _ ho)) hnd0
        (by omega)
      have hunseen := unseen_of_not_pushed ops key hnew
      rw [run_snoc, applyOp_push]
      refine ⟨?_, ?_, ?_⟩
      · rw [PushMap_nextKeyID, if_pos hunseen, ih1, List.length_append, List.length_singleton,
          Nat.mod_eq_of_lt hlen]
      · rw [List.length_append, List.length_append, ih2]
        rfl
      · intro i k h
        by_cases hi : i < (pushedKeys ops).length
        · rw [List.getElem?_append_left hi] at h
          exact PushMap_keyToID_stable _ key value (ih3 i k h)
        · rw [List.getElem?_append_right (Nat.le_of_not_lt hi)] at h
          have hz : i - (pushedKeys ops).length = 0 := by
            by_contra hne
            rw [List.getElem?_eq_none (by simp; omega)] at h
            cases h
          rw [hz] at h
          simp only [List.getElem?_cons_zero, Option.some.injEq] at h
          subst h
          rw [PushMap_keyToID, if_pos rfl, hunseen, Option.getD_none, ih1]
          congr 1
          omega

/-- C23 (amended): a new index has both counters at 0; in any state `PushMap(k,
v)` gives an absent key the old `nextKeyID` and advances `nextKeyID` by one
modulo 2^32, and leaves `nextKeyID` and the identifier of a present key
unchanged (likewise for `v` and `nextValueID`); hence after pushing fewer than
2^32 pairwise distinct keys with no deletes, the `i`-th key has identifier `i`
and `nextKeyID` is the number of keys. -/
theorem get_or_create_dense_ids (om : RoarIndex K V) (k : K) (v : V)
    (ops : List (Op K V)) (hpush : ∀ op ∈ ops, Op.isPush op = true)
    (hnd : (pushedKeys ops).Nodup) (hlen : ops.length < uint32Size) :
    ((NewRoarIndex : RoarIndex K V).nextKeyID = 0 ∧
      (NewRoarIndex : RoarIndex K V).nextValueID = 0) ∧
    (mapGet om.keyToID k = none →
      (PushMap om k v).nextKeyID = (om.nextKeyID + 1) % uint32Size ∧
      mapGet (PushMap om k v).keyToID k = some om.nextKeyID) ∧
    (∀ i, mapGet om.keyToID k = some i →
      (PushMap om k v).nextKeyID = om.nextKeyID ∧
      mapGet (PushMap om k v).keyToID k = some i) ∧
    (mapGet om.valueToID v = none →
      (PushMap om k v).nextValueID = (om.nextValueID + 1) % uint32Size ∧
      mapGet (PushMap om k v).valueToID v = some om.nextValueID) ∧
    (∀ i, mapGet om.valueToID v = some i →
      (PushMap om k v).nextValueID = om.nextValueID ∧
      mapGet (PushMap om k v).valueToID v = some i) ∧
    ((run ops).nextKeyID = ops.length ∧
      ∀ i key, (pushedKeys ops)[i]? = some key →
        mapGet (run ops).keyToID key = some i) := by
  refine ⟨⟨rfl, rfl⟩, ?_, ?_, ?_, ?_, ?_⟩
  · intro h
    rw [PushMap_nextKeyID, PushMap_keyToID, if_pos h, if_pos rfl, h, Option.getD_none]
    exact ⟨rfl, rfl⟩
  · intro i h
    rw [PushMap_nextKeyID, PushMap_keyToID, if_pos rfl, h, Option.getD_some]
    exact ⟨by simp, rfl⟩
  · intro h
    rw [PushMap_nextValueID, PushMap_valueToID, if_pos h, if_pos rfl, h, Option.getD_none]
    exact ⟨rfl, rfl⟩
  · intro i h
    rw [PushMap_nextValueID, PushMap_valueToID, if_pos rfl, h, Option.getD_some]
    exact ⟨by simp, rfl⟩
  · have := dense_ids_run ops hpush hnd hlen
    exact ⟨this.1, this.2.2⟩

/-- C23 (amended), instance: three distinct keys pushed in a row. -/
theorem get_or_create_dense_ids_witness :
    (run [Op.push 7 10, Op.push 5 10, Op.push 9 11]).nextKeyID = 3 ∧
    ∀ i key, (pushedKeys [Op.push 7 10, Op.push 5 10, Op.push 9 11])[i]? = some key →
      mapGet (run [Op.push 7 10, Op.push 5 10, Op.push 9 11]).keyToID key = some i :=
  (get_or_create_dense_ids (run [Op.push 7 10]) 7 10
    [Op.push 7 10, Op.push 5 10, Op.push 9 11] (by decide) (by decide) (by decide)).2.2.2.2.2

theorem pushedKeys_keyFill (n : Nat) : pushedKeys (keyFillHistory n) = List.range n := by
  induction n with
  | zero => rfl
  | succ n ih => rw [keyFillHistory_succ, pushedKeys_snoc, ih, List.range_succ]

theorem isPush_keyFill (n : Nat) : ∀ op ∈ keyFillHistory n, Op.isPush op = true := by
  intro op hop
  unfold keyFillHistory at hop
  obtain ⟨i, _, rfl⟩ := List.mem_map.mp hop
  rfl

/-- C23, counterexample: after the `2^32` pairwise distinct keys `0 .. 2^32 - 1`
have been pushed in this order with no deletes, `nextKeyID` is 0 and not the
number of keys. -/
theorem dense_ids_fail_after_wrap :
    (∀ op ∈ keyFillHistory uint32Size, Op.isPush op = true) ∧
    (pushedKeys (keyFillHistory uint32Size)).Nodup ∧
    (pushedKeys (keyFillHistory uint32Size)).length = uint32Size ∧
    (run (keyFillHistory uint32Size)).nextKeyID = 0 ∧
    uint32Size ≠ 0 := by
  refine ⟨isPush_keyFill _, ?_, ?_, ?_, uint32Size_ne_zero⟩
  · rw [pushedKeys_keyFill]
    exact List.nodup_range _
  · rw [pushedKeys_keyFill, List.length_range]
  · rw [keyInv_keyFill.next, Nat.mod_self]

/-! ## Two pushes in either order -/

theorem HasValue_iff_mem_GetMap {om : RoarIndex K V} {n : Nat} (hV : ValueInv om n)
    (k : K) (v : V) : HasValue om k v = true ↔ v ∈ (GetMap om k).1 := by
  rw [HasValue_iff, mem_GetMap]
  constructor
  · rintro ⟨i, x, bm, h1, h2, h3, h4⟩
    exact ⟨i, bm, x, h1, h3, h4, (hV.inv v x).mpr h2⟩
  · rintro ⟨i, bm, x, h1, h3, h4, h5⟩
    exact ⟨i, x, bm, h1, (hV.inv v x).mp h5, h3, h4⟩

theorem GetMap_snd_eq (om om' : RoarIndex K V) (k : K)
    (h : (∃ i, mapGet om.keyToID k = some i) ↔ (∃ i, mapGet om'.keyToID k = some i)) :
    (GetMap om k).2 = (GetMap om' k).2 := by
  cases h1 : mapGet om.keyToID k with
  | none =>
    have h2 : mapGet om'.keyToID k = none := by
      cases h3 : mapGet om'.keyToID k with
      | none => rfl
      | some j =>
        obtain ⟨i, hi⟩ := h.mpr ⟨j, h3⟩
        rw [h1] at hi
        cases hi
    rw [(GetMap_err_iff om k).mpr h1, (GetMap_err_iff om' k).mpr h2]
  | some i =>
    obtain ⟨j, hj⟩ := h.mp ⟨i, h1⟩
    rw [(GetMap_ok_iff om k).mpr ⟨i, h1⟩, (GetMap_ok_iff om' k).mpr ⟨j, hj⟩]

theorem run_two_pushes (ops : List (Op K V)) (k1 k2 : K) (v1 v2 : V) :
    PushMap (PushMap (run ops) k1 v1) k2 v2 =
      run ((ops ++ [Op.push k1 v1]) ++ [Op.push k2 v2]) := by
  rw [run_snoc, run_snoc, applyOp_push, applyOp_push]

theorem lastCallIsPush_two_pushes (ops : List (Op K V)) (k1 k2 : K) (v1 v2 : V) (k : K) :
    lastCallIsPush ((ops ++ [Op.push k1 v1]) ++ [Op.push k2 v2]) k = true ↔
      (k = k1 ∨ k = k2 ∨ lastCallIsPush ops k = true) := by
  unfold lastCallIsPush
  rw [lastCall_snoc, lastCall_snoc]
  simp only [Op.key]
  by_cases h2 : k2 = k
  · subst h2
    simp
  · by_cases h1 : k1 = k
    · subst h1
      simp [h2]
    · have h1' : ¬ k = k1 := fun e => h1 e.symm
      have h2' : ¬ k = k2 := fun e => h2 e.symm
      simp [h1, h2, h1', h2']

theorem mem_pushedSinceDelete_two_pushes (ops : List (Op K V)) (k1 k2 : K) (v1 v2 : V)
    (k : K) (v : V) :
    v ∈ pushedSinceDelete ((ops ++ [Op.push k1 v1]) ++ [Op.push k2 v2]) k ↔
      (v ∈ pushedSinceDelete ops k ∨ (k1 = k ∧ v = v1) ∨ (k2 = k ∧ v = v2)) := by
  rw [pushedSinceDelete_snoc_push, pushedSinceDelete_snoc_push]
  by_cases h1 : k1 = k <;> by_cases h2 : k2 = k <;> simp [h1, h2, or_assoc]

theorem mem_pushedValues_two_pushes (ops : List (Op K V)) (k1 k2 : K) (v1 v2 : V) (v : V) :
    v ∈ pushedValues ((ops ++ [Op.push k1 v1]) ++ [Op.push k2 v2]) ↔
      (v ∈ pushedValues ops ∨ v = v1 ∨ v = v2) := by
  rw [pushedValues_snoc, pushedValues_snoc]
  simp [or_assoc]

theorem keyMints_two_le (ops : List (Op K V)) (a b : Op K V) :
    keyMints ((ops ++ [a]) ++ [b]) ≤ keyMints ops + 2 := by
  rw [keyMints_snoc, keyMints_snoc]
  split <;> split <;> omega

theorem valueMints_two_le (ops : List (Op K V)) (a b : Op K V) :
    valueMints ((ops ++ [a]) ++ [b]) ≤ valueMints ops + 2 := by
  rw [valueMints_snoc, valueMints_snoc]
  split <;> split <;> omega

/-- C27 (amended): in a reachable state with at most 2^32 - 2 key identifiers
and at most 2^32 - 2 value identifiers minted, `PushMap(k1, v1)` then
`PushMap(k2, v2)` and the two calls in the opposite order give the same
observable membership: `HasValue` agrees for every key and value, `Keys()` and
`Values()` have the same elements, `Count()` is equal, and `GetMap(k)` returns
the same error and the same set of values for every key. -/
theorem pushes_commute_observably (ops : List (Op K V)) (k1 k2 : K) (v1 v2 : V)
    (k : K) (v : V)
    (hk : keyMints ops + 2 ≤ uint32Size) (hv : valueMints ops + 2 ≤ uint32Size) :
    HasValue (PushMap (PushMap (run ops) k1 v1) k2 v2) k v =
      HasValue (PushMap (PushMap (run ops) k2 v2) k1 v1) k v ∧
    (k ∈ Keys (PushMap (PushMap (run ops) k1 v1) k2 v2) ↔
      k ∈ Keys (PushMap (PushMap (run ops) k2 v2) k1 v1)) ∧
    (v ∈ Values (PushMap (PushMap (run ops) k1 v1) k2 v2) ↔
      v ∈ Values (PushMap (PushMap (run ops) k2 v2) k1 v1)) ∧
    Count (PushMap (PushMap (run ops) k1 v1) k2 v2) =
      Count (PushMap (PushMap (run ops) k2 v2) k1 v1) ∧
    (GetMap (PushMap (PushMap (run ops) k1 v1) k2 v2) k).2 =
      (GetMap (PushMap (PushMap (run ops) k2 v2) k1 v1) k).2 ∧
    (v ∈ (GetMap (PushMap (PushMap (run ops) k1 v1) k2 v2) k).1 ↔
      v ∈ (GetMap (PushMap (PushMap (run ops) k2 v2) k1 v1) k).1) := by
  rw [run_two_pushes ops k1 k2 v1 v2, run_two_pushes ops k2 k1 v2 v1]
  have hkA : keyMints ((ops ++ [Op.push k1 v1]) ++ [Op.push k2 v2]) ≤ uint32Size :=
    le_trans (keyMints_two_le ops _ _) hk
  have hkB : keyMints ((ops ++ [Op.push k2 v2]) ++ [Op.push k1 v1]) ≤ uint32Size :=
    le_trans (keyMints_two_le ops _ _) hk
  have hvA : valueMints ((ops ++ [Op.push k1 v1]) ++ [Op.push k2 v2]) ≤ uint32Size :=
    le_trans (valueMints_two_le ops _ _) hv
  have hvB : valueMints ((ops ++ [Op.push k2 v2]) ++ [Op.push k1 v1]) ≤ uint32Size :=
    le_trans (valueMints_two_le ops _ _) hv
  have hvis : ∀ k', (∃ i, mapGet (run ((ops ++ [Op.push k1 v1]) ++ [Op.push k2 v2])).keyToID
        k' = some i) ↔
      (∃ i, mapGet (run ((ops ++ [Op.push k2 v2]) ++ [Op.push k1 v1])).keyToID k' = some i) := by
    intro k'
    rw [visible_iff_lastCallIsPush, visible_iff_lastCallIsPush, lastCallIsPush_two_pushes,
      lastCallIsPush_two_pushes]
    tauto
  have hkeys : ∀ k', k' ∈ Keys (run ((ops ++ [Op.push k1 v1]) ++ [Op.push k2 v2])) ↔
      k' ∈ Keys (run ((ops ++ [Op.push k2 v2]) ++ [Op.push k1 v1])) := by
    intro k'
    unfold Keys
    rw [mem_mapKeys_iff, mem_mapKeys_iff]
    exact hvis k'
  have hmem : v ∈ (GetMap (run ((ops ++ [Op.push k1 v1]) ++ [Op.push k2 v2])) k).1 ↔
      v ∈ (GetMap (run ((ops ++ [Op.push k2 v2]) ++ [Op.push k1 v1])) k).1 := by
    by_cases hA : ∃ i, mapGet (run ((ops ++ [Op.push k1 v1]) ++ [Op.push k2 v2])).keyToID
        k = some i
    · have hB := (hvis k).mp hA
      rw [mem_GetMap_iff_pushedSinceDelete _ k hkA hvA hA,
        mem_GetMap_iff_pushedSinceDelete _ k hkB hvB hB,
        mem_pushedSinceDelete_two_pushes, mem_pushedSinceDelete_two_pushes]
      tauto
    · have hB := fun h => hA ((hvis k).mpr h)
      rw [mem_GetMap, mem_GetMap]
      constructor
      · rintro ⟨i, _, _, h, _⟩
        exact absurd ⟨i, h⟩ hA
      · rintro ⟨i, _, _, h, _⟩
        exact absurd ⟨i, h⟩ hB
  refine ⟨?_, hkeys k, ?_, ?_, GetMap_snd_eq _ _ k (hvis k), hmem⟩
  · rw [Bool.eq_iff_iff, HasValue_iff_mem_GetMap (valueInv_run _ hvA),
      HasValue_iff_mem_GetMap (valueInv_run _ hvB)]
    exact hmem
  · unfold Values
    rw [mem_values_iff, mem_values_iff, mem_pushedValues_two_pushes,
      mem_pushedValues_two_pushes]
    tauto
  · have hperm : (Keys (run ((ops ++ [Op.push k1 v1]) ++ [Op.push k2 v2]))).Perm
        (Keys (run ((ops ++ [Op.push k2 v2]) ++ [Op.push k1 v1]))) :=
      (List.perm_ext_iff_of_nodup (nodup_keys_run _) (nodup_keys_run _)).mpr hkeys
    have := hperm.length_eq
    simpa [Keys, Count, mapKeys] using this

/-- C27 (amended), instance: a new key with a known value and a known key with a
new value. -/
theorem pushes_commute_observably_witness :
    HasValue (PushMap (PushMap (run [Op.push 1 10]) 2 10) 1 11) 1 11 =
      HasValue (PushMap (PushMap (run [Op.push 1 10]) 1 11) 2 10) 1 11 ∧
    (1 ∈ Keys (PushMap (PushMap (run [Op.push 1 10]) 2 10) 1 11) ↔
      1 ∈ Keys (PushMap (PushMap (run [Op.push 1 10]) 1 11) 2 10)) ∧
    (11 ∈ Values (PushMap (PushMap (run [Op.push 1 10]) 2 10) 1 11) ↔
      11 ∈ Values (PushMap (PushMap (run [Op.push 1 10]) 1 11) 2 10)) ∧
    Count (PushMap (PushMap (run [Op.push 1 10]) 2 10) 1 11) =
      Count (PushMap (PushMap (run [Op.push 1 10]) 1 11) 2 10) ∧
    (GetMap (PushMap (PushMap (run [Op.push 1 10]) 2 10) 1 11) 1).2 =
      (GetMap (PushMap (PushMap (run [Op.push 1 10]) 1 11) 2 10) 1).2 ∧
    (11 ∈ (GetMap (PushMap (PushMap (run [Op.push 1 10]) 2 10) 1 11) 1).1 ↔
      11 ∈ (GetMap (PushMap (PushMap (run [Op.push 1 10]) 1 11) 2 10) 1).1) :=
  pushes_commute_observably [Op.push 1 10] 2 1 10 11 1 11 (by decide) (by decide)

/-! ## Two pushes at the brink of the key counter -/

theorem PushMap_fresh (om : RoarIndex K V) (k : K) (v : V)
    (hk : mapGet om.keyToID k = none) (hv : mapGet om.valueToID v = none) :
    (∀ k', mapGet (PushMap om k v).keyToID k' =
      if k' = k then some om.nextKeyID else mapGet om.keyToID k') ∧
    (∀ v', mapGet (PushMap om k v).valueToID v' =
      if v' = v then some om.nextValueID else mapGet om.valueToID v') ∧
    (PushMap om k v).nextKeyID = (om.nextKeyID + 1) % uint32Size ∧
    (PushMap om k v).nextValueID = (om.nextValueID + 1) % uint32Size ∧
    (∀ j, mapGet (PushMap om k v).data j =
      if j = om.nextKeyID then
        some (Bitmap.add ((mapGet om.data om.nextKeyID).getD NewBitmap) om.nextValueID)
      else mapGet om.data j) := by
  refine ⟨?_, ?_, ?_, ?_, ?_⟩
  · intro k'
    rw [PushMap_keyToID, hk, Option.getD_none]
  · intro v'
    rw [PushMap_valueToID, hv, Option.getD_none]
  · rw [PushMap_nextKeyID, if_pos hk]
  · rw [PushMap_nextValueID, if_pos hv]
  · intro j
    rw [PushMap_data, hk, hv, Option.getD_none, Option.getD_none]

theorem pushedValues_keyFill (n : Nat) : ∀ x ∈ pushedValues (keyFillHistory n), x = 0 := by
  induction n with
  | zero =>
    intro x hx
    simp [keyFillHistory, pushedValues] at hx
  | succ n ih =>
    intro x hx
    rw [keyFillHistory_succ, pushedValues_snoc, List.mem_append] at hx
    rcases hx with hx | hx
    · exact ih x hx
    · simpa using hx

theorem unseen_value_keyFill (n v : Nat) (hv : v ≠ 0) :
    mapGet (run (keyFillHistory n)).valueToID v = none := by
  cases h : mapGet (run (keyFillHistory n)).valueToID v with
  | none => rfl
  | some i =>
    exact absurd (pushedValues_keyFill n v
      ((interned_iff_pushed (keyFillHistory n) v).mp ⟨i, h⟩)) hv

theorem zero_value_keyFill (n : Nat) (hn : 0 < n) :
    mapGet (run (keyFillHistory n)).valueToID 0 = some 0 := by
  induction n with
  | zero => exact absurd hn (lt_irrefl _)
  | succ n ih =>
    by_cases h0 : n = 0
    · subst h0
      decide
    · rw [keyFillHistory_succ, run_snoc]
      exact PushMap_valueToID_stable _ n 0 (ih (Nat.pos_of_ne_zero h0))

theorem valueMints_keyFill (n : Nat) (hn : 0 < n) : valueMints (keyFillHistory n) = 1 := by
  induction n with
  | zero => exact absurd hn (lt_irrefl _)
  | succ n ih =>
    by_cases h0 : n = 0
    · subst h0
      decide
    · rw [keyFillHistory_succ, valueMints_snoc, ih (Nat.pos_of_ne_zero h0)]
      have : mintsValue (run (keyFillHistory n)) (Op.push n 0) = false := by
        simp [mintsValue, zero_value_keyFill n (Nat.pos_of_ne_zero h0)]
      rw [this]
      rfl

/-- The state at the brink: `2^32 - 1` key identifiers and one value identifier
are in use, key `0` holds identifier 0 and its posting set is `{0}`. -/
theorem brink_facts :
    (run brinkHistory).nextKeyID = uint32Size - 1 ∧
    (run brinkHistory).nextValueID = 1 ∧
    mapGet (run brinkHistory).keyToID 0 = some 0 ∧
    mapGet (run brinkHistory).keyToID (uint32Size - 1) = none ∧
    mapGet (run brinkHistory).keyToID uint32Size = none ∧
    mapGet (run brinkHistory).valueToID 1 = none ∧
    mapGet (run brinkHistory).valueToID 2 = none ∧
    ∃ bm0, mapGet (run brinkHistory).data 0 = some bm0 ∧ ∀ x ∈ bm0, x = 0 := by
  have h2 := two_lt_uint32Size
  have hpos : 0 < uint32Size - 1 := by omega
  have hkm : keyMints brinkHistory = uint32Size - 1 := keyMints_keyFill _
  have hvm : valueMints brinkHistory = 1 := valueMints_keyFill _ hpos
  have hK := keyInv_run brinkHistory (by rw [hkm]; omega)
  have hV := valueInv_run brinkHistory (by rw [hvm]; omega)
  have hD := dataInv_run brinkHistory
  rw [hkm] at hK
  rw [hvm] at hV
  refine ⟨?_, ?_, zero_key_keyFill _ hpos, unseen_key_keyFill _ _ (le_refl _),
    unseen_key_keyFill _ _ (by omega), unseen_value_keyFill _ 1 (by omega),
    unseen_value_keyFill _ 2 (by omega), ?_⟩
  · rw [hK.next, Nat.mod_eq_of_lt (by omega)]
  · rw [hV.next, Nat.mod_eq_of_lt (by omega)]
  · obtain ⟨i, x, bm, h1, _, h3, _⟩ :=
      (HasValue_iff _ 0 0).mp (hasValue_keyFill (uint32Size - 1) hpos)
    have hk0 : mapGet (run brinkHistory).keyToID 0 = some 0 := zero_key_keyFill _ hpos
    have hi : i = 0 := by
      have h1' : mapGet (run brinkHistory).keyToID 0 = some i := h1
      rw [hk0] at h1'
      exact (Option.some.inj h1').symm
    subst hi
    refine ⟨bm, h3, ?_⟩
    intro y hy
    obtain ⟨w, hw⟩ := hD.interned 0 bm y h3 hy
    have := hV.bound w y hw
    omega

/-- C27, counterexample: with `2^32 - 1` key identifiers minted (fewer than
2^32), pushing `(2^32 - 1, 1)` and then `(2^32, 2)` gives key `2^32` the wrapped
identifier 0 of key `0`, so `HasValue(0, 2)` is true; in the opposite order key
`2^32 - 1` gets identifier 0 and `HasValue(0, 2)` is false. -/
theorem pushes_do_not_commute_at_the_brink :
    keyMints brinkHistory < uint32Size ∧ valueMints brinkHistory < uint32Size ∧
    HasValue (PushMap (PushMap (run brinkHistory) (uint32Size - 1) 1) uint32Size 2) 0 2 =
      true ∧
    HasValue (PushMap (PushMap (run brinkHistory) uint32Size 2) (uint32Size - 1) 1) 0 2 =
      false := by
  have h2 := two_lt_uint32Size
  have hpos : 0 < uint32Size - 1 := by omega
  have hsucc : uint32Size - 1 + 1 = uint32Size := by omega
  obtain ⟨hnk, hnv, hk0, hkm, hkN, hv1, hv2, bm0, hd0, hbm0⟩ := brink_facts
  refine ⟨?_, ?_, ?_, ?_⟩
  · have : keyMints brinkHistory = uint32Size - 1 := keyMints_keyFill _
    omega
  · have : valueMints brinkHistory = 1 := valueMints_keyFill _ hpos
    omega
  · obtain ⟨a1, a2, a3, a4, a5⟩ := PushMap_fresh (run brinkHistory) (uint32Size - 1) 1 hkm hv1
    have hk1N : mapGet (PushMap (run brinkHistory) (uint32Size - 1) 1).keyToID uint32Size =
        none := by
      rw [a1, if_neg (by omega)]
      exact hkN
    have hv12 : mapGet (PushMap (run brinkHistory) (uint32Size - 1) 1).valueToID 2 = none := by
      rw [a2, if_neg (by omega)]
      exact hv2
    have hnk1 : (PushMap (run brinkHistory) (uint32Size - 1) 1).nextKeyID = 0 := by
      rw [a3, hnk, hsucc, Nat.mod_self]
    obtain ⟨b1, b2, _, _, b5⟩ :=
      PushMap_fresh (PushMap (run brinkHistory) (uint32Size - 1) 1) uint32Size 2 hk1N hv12
    rw [HasValue_iff]
    refine ⟨0, (PushMap (run brinkHistory) (uint32Size - 1) 1).nextValueID,
      Bitmap.add ((mapGet (PushMap (run brinkHistory) (uint32Size - 1) 1).data
        (PushMap (run brinkHistory) (uint32Size - 1) 1).nextKeyID).getD NewBitmap)
        (PushMap (run brinkHistory) (uint32Size - 1) 1).nextValueID, ?_, ?_, ?_,
      (Bitmap.mem_add _ _ _).mpr (Or.inl rfl)⟩
    · rw [b1, if_neg (by omega), a1, if_neg (by omega)]
      exact hk0
    · rw [b2, if_pos rfl]
    · rw [b5, if_pos hnk1.symm]
  · obtain ⟨c1, c2, c3, c4, c5⟩ := PushMap_fresh (run brinkHistory) uint32Size 2 hkN hv2
    have hk1m : mapGet (PushMap (run brinkHistory) uint32Size 2).keyToID (uint32Size - 1) =
        none := by
      rw [c1, if_neg (by omega)]
      exact hkm
    have hv11 : mapGet (PushMap (run brinkHistory) uint32Size 2).valueToID 1 = none := by
      rw [c2, if_neg (by omega)]
      exact hv1
    have hnk1 : (PushMap (run brinkHistory) uint32Size 2).nextKeyID = 0 := by
      rw [c3, hnk, hsucc, Nat.mod_self]
    have hnv1 : (PushMap (run brinkHistory) uint32Size 2).nextValueID = 2 := by
      rw [c4, hnv]
      exact Nat.mod_eq_of_lt h2
    obtain ⟨d1, d2, _, _, d5⟩ :=
      PushMap_fresh (PushMap (run brinkHistory) uint32Size 2) (uint32Size - 1) 1 hk1m hv11
    cases h : HasValue (PushMap (PushMap (run brinkHistory) uint32Size 2)
        (uint32Size - 1) 1) 0 2 with
    | false => rfl
    | true =>
      exfalso
      obtain ⟨i, x, bm, e1, e2, e3, e4⟩ := (HasValue_iff _ _ _).mp h
      rw [d1, if_neg (by omega), c1, if_neg (by omega), hk0] at e1
      have hi : i = 0 := (Option.some.inj e1).symm
      subst hi
      rw [d2, if_neg (by omega), c2, if_pos rfl, hnv] at e2
      have hx : x = 1 := (Option.some.inj e2).symm
      subst hx
      rw [d5, if_pos hnk1.symm, hnk1, hnv1, c5, if_neg (by omega), hd0,
        Option.getD_some] at e3
      have hbm : bm = Bitmap.add bm0 2 := (Option.some.inj e3).symm
      subst hbm
      rcases (Bitmap.mem_add _ _ _).mp e4 with e | e
      · omega
      · have := hbm0 1 e
        omega

/-- C21, counterexample: the state reached by `brinkHistory` has fewer than 2^32
identifiers minted in each namespace, yet after `PushMap(2^32 - 1, 1)` key `0`
still holds identifier 0 while `nextKeyID` has wrapped to 0, so that identifier
is not strictly below the counter. -/
theorem interner_bound_fails_at_the_brink :
    keyMints brinkHistory < uint32Size ∧ valueMints brinkHistory < uint32Size ∧
    mapGet (PushMap (run brinkHistory) (uint32Size - 1) 1).keyToID 0 = some 0 ∧
    (PushMap (run brinkHistory) (uint32Size - 1) 1).nextKeyID = 0 := by
  have h2 := two_lt_uint32Size
  have hpos : 0 < uint32Size - 1 := by omega
  have hsucc : uint32Size - 1 + 1 = uint32Size := by omega
  obtain ⟨hnk, _, hk0, hkm, _, hv1, _, _⟩ := brink_facts
  obtain ⟨a1, _, a3, _, _⟩ := PushMap_fresh (run brinkHistory) (uint32Size - 1) 1 hkm hv1
  refine ⟨?_, ?_, ?_, ?_⟩
  · have : keyMints brinkHistory = uint32Size - 1 := keyMints_keyFill _
    omega
  · have : valueMints brinkHistory = 1 := valueMints_keyFill _ hpos
    omega
  · rw [a1, if_neg (by omega)]
    exact hk0
  · rw [a3, hnk, hsucc, Nat.mod_self]

end RoarIndex
